import Mathlib

/-!
Verification of the Lingvo configuration system (ConfigNode / `Params`),
the TPU executor loop, and the checkpointer, against their natural-language
specification.

The configuration-tree operations are modelled from the spec (the
`hyperparams` implementation itself is not part of the provided sources;
only its test file is).  The executor loop is modelled from
`lingvo/executor.py` and the checkpointer from `lingvo/core/checkpointer.py`.

Two complementary embeddings are used for the configuration tree:

* a pure tree embedding (`Pv`, `Params`) carrying values, descriptions and
  the frozen flag, over which serialization (`ToText`/`FromText`),
  structural diff (`TextDiff`) and the Define/Get/Set operations are
  defined; and
* a store embedding (`HVal`, `Node`, `Store`) in which nested ConfigNodes
  are heap references, so that aliasing-sensitive properties (deep copy
  independence, deep freeze over containment) can be stated faithfully.
-/

namespace Lingvo

/-- Modelled from the spec: the tagged value variant for ConfigNode values
(§9: Primitive, Sequence-of-Value, Mapping-of-Value, NestedConfigNode,
OpaqueMessage).  Floating point values are carried as their decimal
literal, which is all the serialization layer ever observes.  A nested
ConfigNode carries its frozen flag and its entries, each entry being a
(name, value, description) triple. -/
inductive Pv where
  | vint (n : Int)
  | vfloat (lit : String)
  | vbool (b : Bool)
  | vstr (s : String)
  | vnone
  | vlist (xs : List Pv)
  | vdict (kvs : List (String × Pv))
  | vnode (frozen : Bool) (entries : List (String × Pv × String))
  | vopq (id : Nat)
  deriving Repr

/-- Modelled from the spec: one level of the hierarchical parameter
namespace: a frozen flag and a mapping from parameter name to a
(value, description) pair (§3). -/
structure Params where
  frozen : Bool
  entries : List (String × Pv × String)
  deriving Repr

/-- The empty, unfrozen ConfigNode (`Params()`). -/
def Params.empty : Params := ⟨false, []⟩

/-- View a node as a value. -/
def Params.toV (p : Params) : Pv := .vnode p.frozen p.entries

/-- View a value as a node, when it is one. -/
def Pv.asNode : Pv → Option Params
  | .vnode fr es => some ⟨fr, es⟩
  | _ => none

/-- Modelled from the spec: valid parameter names match
`^[a-z][a-z0-9_]*$` (§3). -/
def validNameChar (c : Char) : Bool :=
  (('a' ≤ c && c ≤ 'z') || ('0' ≤ c && c ≤ '9') || c = '_')

/-- Modelled from the spec: name validation for `Define`. -/
def validName (s : String) : Bool :=
  match s.toList with
  | [] => false
  | c :: cs => ('a' ≤ c && c ≤ 'z') && cs.all validNameChar

/-- Modelled from the spec: the error taxonomy of the configuration
component (§4.1): invalid name, duplicate name, undefined name (carrying
the message, including any "did you mean" suggestion), frozen mutation,
"Cannot introspect" on setting through a non-node value, and the
ambiguous-type error of the text round-trip. -/
inductive PErr where
  | invalidName (name : String)
  | duplicateName (name : String)
  | undefinedName (msg : String)
  | frozen
  | cannotIntrospect (msg : String)
  | ambiguousType (msg : String)
  | parseFail (msg : String)
  deriving Repr, DecidableEq

/-- Look a name up among a node's entries. -/
def lookupEntry (name : String) : List (String × Pv × String) → Option (Pv × String)
  | [] => none
  | (k, v, d) :: rest => if k = name then some (v, d) else lookupEntry name rest

/-- Mapping lookup by key (first occurrence). -/
def lookupDict (k : String) : List (String × Pv) → Option Pv
  | [] => none
  | (a, v) :: rest => if a = k then some v else lookupDict k rest

/-- Every name defined in the first entry list is also defined in the
second. -/
def entKeysIn (ys xs : List (String × Pv × String)) : Bool :=
  ys.all (fun e => (lookupEntry e.1 xs).isSome)

/-- Every key of the first mapping is present in the second. -/
def dictKeysIn (ys xs : List (String × Pv)) : Bool :=
  ys.all (fun e => (lookupDict e.1 xs).isSome)

mutual

/-- Modelled from the spec: structural equality on values (§3): two
nodes are equal when they define the same name set and, name by name,
equal values, recursively; entry order, descriptions and the frozen
flag do not participate.  Mappings likewise compare by key set and
per-key values, sequences element by element in order, opaque payloads
by reference id. -/
def Pv.beq : Pv → Pv → Bool
  | .vint a, .vint b => a == b
  | .vfloat a, .vfloat b => a == b
  | .vbool a, .vbool b => a == b
  | .vstr a, .vstr b => a == b
  | .vnone, .vnone => true
  | .vlist xs, .vlist ys => Pv.beqList xs ys
  | .vdict xs, .vdict ys => Pv.beqDictIn [] xs ys && dictKeysIn ys xs
  | .vnode _ ea, .vnode _ eb => Pv.beqEntsIn [] ea eb && entKeysIn eb ea
  | .vopq a, .vopq b => a == b
  | _, _ => false

/-- Structural equality on value lists. -/
def Pv.beqList : List Pv → List Pv → Bool
  | [], [] => true
  | x :: xs, y :: ys => Pv.beq x y && Pv.beqList xs ys
  | _, _ => false

/-- Every effective (unshadowed) key of the first mapping maps to an
equal value in the second. -/
def Pv.beqDictIn : List String → List (String × Pv) → List (String × Pv) → Bool
  | _, [], _ => true
  | seen, (k, v) :: xs, ys =>
    if seen.contains k then Pv.beqDictIn seen xs ys
    else
      (match lookupDict k ys with
       | some w => Pv.beq v w
       | none => false) && Pv.beqDictIn (k :: seen) xs ys

/-- Every effective (unshadowed) name of the first entry list has an
equal value at that name in the second. -/
def Pv.beqEntsIn :
    List String → List (String × Pv × String) → List (String × Pv × String) →
      Bool
  | _, [], _ => true
  | seen, (k, v, _) :: xs, ys =>
    if seen.contains k then Pv.beqEntsIn seen xs ys
    else
      (match lookupEntry k ys with
       | some (w, _) => Pv.beq v w
       | none => false) && Pv.beqEntsIn (k :: seen) xs ys

end

theorem containsS_iff (l : List String) (x : String) :
    l.contains x = true ↔ x ∈ l :=
  ⟨fun h => List.mem_of_elem_eq_true h, fun h => List.elem_eq_true_of_mem h⟩

theorem lookupEntry_mem_isSome :
    ∀ (es : List (String × Pv × String)) (e : String × Pv × String),
      e ∈ es → (lookupEntry e.1 es).isSome = true
  | [], _, h => absurd h (List.not_mem_nil _)
  | (k0, v0, d0) :: rest, e, h => by
    rw [lookupEntry]
    by_cases hk : k0 = e.1
    · rw [if_pos hk]; rfl
    · rw [if_neg hk]
      rcases List.mem_cons.mp h with h1 | h1
      · exact absurd (by rw [h1]) hk
      · exact lookupEntry_mem_isSome rest e h1

theorem lookupDict_mem_isSome :
    ∀ (kvs : List (String × Pv)) (e : String × Pv),
      e ∈ kvs → (lookupDict e.1 kvs).isSome = true
  | [], _, h => absurd h (List.not_mem_nil _)
  | (k0, v0) :: rest, e, h => by
    rw [lookupDict]
    by_cases hk : k0 = e.1
    · rw [if_pos hk]; rfl
    · rw [if_neg hk]
      rcases List.mem_cons.mp h with h1 | h1
      · exact absurd (by rw [h1]) hk
      · exact lookupDict_mem_isSome rest e h1

theorem entKeysIn_self (es : List (String × Pv × String)) :
    entKeysIn es es = true := by
  rw [entKeysIn, List.all_eq_true]
  exact fun e he => lookupEntry_mem_isSome es e he

theorem dictKeysIn_self (kvs : List (String × Pv)) :
    dictKeysIn kvs kvs = true := by
  rw [dictKeysIn, List.all_eq_true]
  exact fun e he => lookupDict_mem_isSome kvs e he

mutual

theorem Pv.beq_refl : ∀ v : Pv, Pv.beq v v = true
  | .vint _ => by simp [Pv.beq]
  | .vfloat _ => by simp [Pv.beq]
  | .vbool _ => by simp [Pv.beq]
  | .vstr _ => by simp [Pv.beq]
  | .vnone => by simp [Pv.beq]
  | .vlist xs => by rw [Pv.beq]; exact Pv.beqList_refl xs
  | .vdict kvs => by
    rw [Pv.beq, Pv.beqDictIn_hyp [] kvs kvs (fun k _ => rfl),
      dictKeysIn_self kvs]
    rfl
  | .vnode f es => by
    rw [Pv.beq, Pv.beqEntsIn_hyp [] es es (fun k _ => rfl),
      entKeysIn_self es]
    rfl
  | .vopq _ => by simp [Pv.beq]

theorem Pv.beqList_refl : ∀ xs : List Pv, Pv.beqList xs xs = true
  | [] => by rw [Pv.beqList]
  | x :: xs => by
    rw [Pv.beqList, Pv.beq_refl x, Pv.beqList_refl xs]
    rfl

/-- Pointwise-equal lookups make the one-sided entry comparison
succeed. -/
theorem Pv.beqEntsIn_hyp :
    ∀ (seen : List String) (xs ys : List (String × Pv × String)),
      (∀ k, k ∉ seen → lookupEntry k ys = lookupEntry k xs) →
      Pv.beqEntsIn seen xs ys = true
  | _, [], _, _ => by rw [Pv.beqEntsIn]
  | seen, (k, v, d) :: xs, ys, h => by
    rw [Pv.beqEntsIn]
    by_cases hk : seen.contains k
    · rw [if_pos hk]
      refine Pv.beqEntsIn_hyp seen xs ys (fun k2 hk2 => ?_)
      have hne : k ≠ k2 := fun he =>
        hk2 (he ▸ (containsS_iff seen k).mp hk)
      rw [h k2 hk2, lookupEntry, if_neg hne]
    · rw [if_neg hk]
      have hkm : k ∉ seen := fun hm => hk ((containsS_iff seen k).mpr hm)
      have h1 : lookupEntry k ys = some (v, d) := by
        rw [h k hkm, lookupEntry, if_pos rfl]
      rw [h1]
      show (Pv.beq v v && Pv.beqEntsIn (k :: seen) xs ys) = true
      rw [Pv.beq_refl v,
        Pv.beqEntsIn_hyp (k :: seen) xs ys (fun k2 hk2 => by
          have hne : k ≠ k2 := fun he => hk2 (he ▸ List.mem_cons_self k seen)
          have hk2' : k2 ∉ seen := fun hm =>
            hk2 (List.mem_cons_of_mem k hm)
          rw [h k2 hk2', lookupEntry, if_neg hne])]
      rfl

/-- Pointwise-equal lookups make the one-sided mapping comparison
succeed. -/
theorem Pv.beqDictIn_hyp :
    ∀ (seen : List String) (xs ys : List (String × Pv)),
      (∀ k, k ∉ seen → lookupDict k ys = lookupDict k xs) →
      Pv.beqDictIn seen xs ys = true
  | _, [], _, _ => by rw [Pv.beqDictIn]
  | seen, (k, v) :: xs, ys, h => by
    rw [Pv.beqDictIn]
    by_cases hk : seen.contains k
    · rw [if_pos hk]
      refine Pv.beqDictIn_hyp seen xs ys (fun k2 hk2 => ?_)
      have hne : k ≠ k2 := fun he =>
        hk2 (he ▸ (containsS_iff seen k).mp hk)
      rw [h k2 hk2, lookupDict, if_neg hne]
    · rw [if_neg hk]
      have hkm : k ∉ seen := fun hm => hk ((containsS_iff seen k).mpr hm)
      have h1 : lookupDict k ys = some v := by
        rw [h k hkm, lookupDict, if_pos rfl]
      rw [h1]
      show (Pv.beq v v && Pv.beqDictIn (k :: seen) xs ys) = true
      rw [Pv.beq_refl v,
        Pv.beqDictIn_hyp (k :: seen) xs ys (fun k2 hk2 => by
          have hne : k ≠ k2 := fun he => hk2 (he ▸ List.mem_cons_self k seen)
          have hk2' : k2 ∉ seen := fun hm =>
            hk2 (List.mem_cons_of_mem k hm)
          rw [h k2 hk2', lookupDict, if_neg hne])]
      rfl

end

/-- `Pv.beq` is complete for equality: unequal values test unequal. -/
theorem Pv.ne_of_beq_eq_false {a b : Pv} (h : Pv.beq a b = false) : a ≠ b := by
  intro he; subst he; rw [Pv.beq_refl] at h; exact Bool.noConfusion h

/-- Inversion: the one-sided entry comparison relates the lookups. -/
theorem beqEntsIn_some :
    ∀ (xs : List (String × Pv × String)) (seen : List String)
      (ys : List (String × Pv × String)),
      Pv.beqEntsIn seen xs ys = true →
      ∀ k v d, lookupEntry k xs = some (v, d) → k ∉ seen →
      ∃ w d2, lookupEntry k ys = some (w, d2) ∧ Pv.beq v w = true
  | [], _, _, _, k, v, d, hlk, _ => by
    rw [lookupEntry] at hlk
    exact Option.noConfusion hlk
  | (k0, v0, d0) :: xs, seen, ys, h, k, v, d, hlk, hks => by
    rw [Pv.beqEntsIn] at h
    rw [lookupEntry] at hlk
    by_cases hk0 : seen.contains k0
    · rw [if_pos hk0] at h
      have hne : k0 ≠ k := fun he =>
        hks (he ▸ (containsS_iff seen k0).mp hk0)
      rw [if_neg hne] at hlk
      exact beqEntsIn_some xs seen ys h k v d hlk hks
    · rw [if_neg hk0] at h
      rw [Bool.and_eq_true] at h
      obtain ⟨h1, h2⟩ := h
      by_cases hke : k0 = k
      · subst hke
        rw [if_pos rfl] at hlk
        have hv : v0 = v := by
          have := Option.some.inj hlk
          exact (Prod.mk.injEq .. ▸ this).1
        subst hv
        cases hly : lookupEntry k0 ys with
        | none => rw [hly] at h1; exact Bool.noConfusion h1
        | some wd =>
          obtain ⟨w, d2⟩ := wd
          rw [hly] at h1
          exact ⟨w, d2, rfl, h1⟩
      · rw [if_neg hke] at hlk
        refine beqEntsIn_some xs (k0 :: seen) ys h2 k v d hlk ?_
        intro hm
        rcases List.mem_cons.mp hm with h3 | h3
        · exact hke h3.symm
        · exact hks h3

theorem lookup_some_mem_keys {k : String} {x : Pv × String} :
    ∀ {es : List (String × Pv × String)}, lookupEntry k es = some x →
    k ∈ es.map (·.1)
  | [], h => by rw [lookupEntry] at h; exact Option.noConfusion h
  | (k0, v0, d0) :: rest, h => by
    rw [lookupEntry] at h
    by_cases hk : k0 = k
    · simp [hk]
    · rw [if_neg hk] at h
      simp [lookup_some_mem_keys h]

/-- Inversion: the key-subset check relates the lookups. -/
theorem entKeysIn_some {eb ea : List (String × Pv × String)}
    (h : entKeysIn eb ea = true) {k : String} {w : Pv} {d : String}
    (hlk : lookupEntry k eb = some (w, d)) :
    (lookupEntry k ea).isSome = true := by
  have hkm := lookup_some_mem_keys hlk
  rcases List.mem_map.mp hkm with ⟨e, he, he1⟩
  rw [entKeysIn, List.all_eq_true] at h
  rw [← he1]
  exact h e he


/-- The names defined on a node, in definition order. -/
def Params.names (p : Params) : List String := p.entries.map (·.1)

/-- Modelled from the spec: `Define(name, default, description)` fails on a
frozen node, on an invalid name, and on a duplicate name; otherwise it
inserts the entry (§4.1). -/
def Params.Define (p : Params) (name : String) (v : Pv) (desc : String) :
    Except PErr Params :=
  if p.frozen then .error .frozen
  else if ¬ validName name then .error (.invalidName name)
  else match lookupEntry name p.entries with
    | some _ => .error (.duplicateName name)
    | none => .ok ⟨p.frozen, p.entries ++ [(name, v, desc)]⟩

/-- Modelled from the spec: `Get(dotted_path)` resolves the path segment by
segment, failing with an undefined-name error citing the unresolved
segment; walking through a value that is not a nested ConfigNode fails
with the "Cannot introspect" error (§4.1).  The path is given as its
segment list. -/
def Params.GetPath (p : Params) : List String → Except PErr Pv
  | [] => .error (.undefinedName "")
  | [k] =>
    match lookupEntry k p.entries with
    | some (v, _) => .ok v
    | none => .error (.undefinedName k)
  | k :: rest =>
    match lookupEntry k p.entries with
    | some (.vnode fr es, _) => Params.GetPath ⟨fr, es⟩ rest
    | some _ => .error (.cannotIntrospect k)
    | none => .error (.undefinedName k)

/-- Replace the value stored under `name`, keeping the description. -/
def setEntry (name : String) (v : Pv) : List (String × Pv × String) →
    List (String × Pv × String)
  | [] => []
  | (k, w, d) :: rest =>
    if k = name then (k, v, d) :: rest else (k, w, d) :: setEntry name v rest

/-- Modelled from the spec: `Set(dotted_path, value)` resolves like `Get`,
fails with the frozen error if a node on the path is frozen, and fails
with an undefined-name error if the terminal name is undefined (§4.1). -/
def Params.SetPath (p : Params) : List String → Pv → Except PErr Params
  | [], _ => .error (.undefinedName "")
  | [k], v =>
    if p.frozen then .error .frozen
    else match lookupEntry k p.entries with
      | some _ => .ok ⟨p.frozen, setEntry k v p.entries⟩
      | none => .error (.undefinedName k)
  | k :: rest, v =>
    if p.frozen then .error .frozen
    else match lookupEntry k p.entries with
      | some (.vnode fr es, _) => do
        let q ← Params.SetPath ⟨fr, es⟩ rest v
        .ok ⟨p.frozen, setEntry k q.toV p.entries⟩
      | some _ => .error (.cannotIntrospect k)
      | none => .error (.undefinedName k)

/-- Remove the entry stored under `name`. -/
def removeEntry (name : String) : List (String × Pv × String) →
    List (String × Pv × String)
  | [] => []
  | (k, w, d) :: rest =>
    if k = name then rest else (k, w, d) :: removeEntry name rest

/-- Modelled from the spec: `Delete(dotted_path)` removes the terminal
entry, with the same freeze/undefined semantics as `Set` (§4.1). -/
def Params.DeletePath (p : Params) : List String → Except PErr Params
  | [] => .error (.undefinedName "")
  | [k] =>
    if p.frozen then .error .frozen
    else match lookupEntry k p.entries with
      | some _ => .ok ⟨p.frozen, removeEntry k p.entries⟩
      | none => .error (.undefinedName k)
  | k :: rest =>
    if p.frozen then .error .frozen
    else match lookupEntry k p.entries with
      | some (.vnode fr es, _) => do
        let q ← Params.DeletePath ⟨fr, es⟩ rest
        .ok ⟨p.frozen, setEntry k q.toV p.entries⟩
      | some _ => .error (.cannotIntrospect k)
      | none => .error (.undefinedName k)

/-! ### Character-level utilities for the text format -/

/-- Decimal digit test, by code point. -/
def isDigitC (c : Char) : Bool := 48 ≤ c.toNat && c.toNat ≤ 57

/-- The decimal digit character for `d < 10`. -/
def digitChar : Nat → Char
  | 0 => '0' | 1 => '1' | 2 => '2' | 3 => '3' | 4 => '4'
  | 5 => '5' | 6 => '6' | 7 => '7' | 8 => '8' | _ => '9'

/-- The value of a decimal digit character. -/
def digitVal (c : Char) : Nat := c.toNat - 48

/-- Fuel-driven digit expansion (structural, so it computes). -/
def natDigitsF : Nat → Nat → List Char
  | 0, _ => []
  | fuel + 1, n =>
    if n < 10 then [digitChar n]
    else natDigitsF fuel (n / 10) ++ [digitChar (n % 10)]

/-- Decimal digits of a natural number, most significant first. -/
def natDigits (n : Nat) : List Char := natDigitsF (n + 1) n

theorem natDigitsF_congr : ∀ (n fuel fuel' : Nat), n < fuel → n < fuel' →
    natDigitsF fuel n = natDigitsF fuel' n := by
  intro n
  induction n using Nat.strong_induction_on with
  | _ n ih =>
    intro fuel fuel' hf hf'
    match fuel, hf with
    | fuel + 1, _ =>
      match fuel', hf' with
      | fuel' + 1, _ =>
        rw [natDigitsF, natDigitsF]
        by_cases h10 : n < 10
        · rw [if_pos h10, if_pos h10]
        · rw [if_neg h10, if_neg h10]
          have hd : n / 10 < n := Nat.div_lt_self (by omega) (by omega)
          rw [ih _ hd fuel fuel' (by omega) (by omega)]

theorem natDigits_unfold (n : Nat) :
    natDigits n = if n < 10 then [digitChar n]
      else natDigits (n / 10) ++ [digitChar (n % 10)] := by
  rw [natDigits, natDigitsF]
  by_cases h10 : n < 10
  · rw [if_pos h10, if_pos h10]
  · rw [if_neg h10, if_neg h10]
    have hd : n / 10 < n := Nat.div_lt_self (by omega) (by omega)
    rw [natDigits, natDigitsF_congr (n / 10) n (n / 10 + 1) (by omega) (by omega)]

/-- Accumulating decimal reader. -/
def digitsToNat (acc : Nat) : List Char → Nat
  | [] => acc
  | c :: cs => digitsToNat (acc * 10 + digitVal c) cs

theorem digitsToNat_nil (acc : Nat) : digitsToNat acc [] = acc := rfl

theorem digitsToNat_cons (acc : Nat) (c : Char) (cs : List Char) :
    digitsToNat acc (c :: cs) = digitsToNat (acc * 10 + digitVal c) cs := rfl

/-- Parse a non-empty all-digit token as a natural number. -/
def parseNatTok (l : List Char) : Option Nat :=
  if l ≠ [] && l.all isDigitC then some (digitsToNat 0 l) else none

/-- Render an integer in decimal. -/
def intChars : Int → List Char
  | .ofNat m => natDigits m
  | .negSucc m => '-' :: natDigits (m + 1)

/-- Parse an optionally-signed decimal token as an integer. -/
def parseIntTok : List Char → Option Int
  | '-' :: rest => (parseNatTok rest).map (fun n => -(n : Int))
  | l => (parseNatTok l).map Int.ofNat

theorem digitChar_isDigit {d : Nat} (h : d < 10) : isDigitC (digitChar d) = true := by
  match d, h with
  | 0, _ | 1, _ | 2, _ | 3, _ | 4, _ | 5, _ | 6, _ | 7, _ | 8, _ | 9, _ => decide

theorem digitVal_digitChar {d : Nat} (h : d < 10) : digitVal (digitChar d) = d := by
  match d, h with
  | 0, _ | 1, _ | 2, _ | 3, _ | 4, _ | 5, _ | 6, _ | 7, _ | 8, _ | 9, _ => decide

theorem digitsToNat_append (acc : Nat) (l₁ l₂ : List Char) :
    digitsToNat acc (l₁ ++ l₂) = digitsToNat (digitsToNat acc l₁) l₂ := by
  induction l₁ generalizing acc with
  | nil => rfl
  | cons c cs ih =>
    rw [List.cons_append, digitsToNat_cons, digitsToNat_cons]
    exact ih _

theorem natDigits_ne_nil (n : Nat) : natDigits n ≠ [] := by
  rw [natDigits_unfold]
  split <;> simp

theorem natDigits_all_digits (n : Nat) : (natDigits n).all isDigitC = true := by
  induction n using Nat.strong_induction_on with
  | _ n ih =>
    rw [natDigits_unfold]
    split
    · rename_i h
      simp only [List.all_cons, List.all_nil, Bool.and_true]
      exact digitChar_isDigit h
    · rename_i h
      have hd : n / 10 < n := Nat.div_lt_self (by omega) (by omega)
      simp only [List.all_append, List.all_cons, List.all_nil, Bool.and_true]
      rw [ih _ hd, digitChar_isDigit (Nat.mod_lt _ (by omega))]
      rfl

theorem digitsToNat_natDigits (acc n : Nat) :
    digitsToNat acc (natDigits n) = acc * 10 ^ (natDigits n).length + n := by
  induction n using Nat.strong_induction_on generalizing acc with
  | _ n ih =>
    rw [natDigits_unfold]
    split
    · rename_i h
      rw [digitsToNat_cons, digitsToNat_nil, digitVal_digitChar h]
      simp only [List.length_cons, List.length_nil, zero_add, pow_one]
    · rename_i h
      have hd : n / 10 < n := Nat.div_lt_self (by omega) (by omega)
      rw [digitsToNat_append, ih _ hd]
      rw [digitsToNat_cons, digitsToNat_nil,
        digitVal_digitChar (Nat.mod_lt _ (by omega))]
      simp only [List.length_append, List.length_cons, List.length_nil,
        zero_add]
      rw [pow_succ, ← mul_assoc]
      have hnm := Nat.div_add_mod n 10
      generalize acc * 10 ^ (natDigits (n / 10)).length = A
      omega

theorem parseNatTok_natDigits (n : Nat) : parseNatTok (natDigits n) = some n := by
  rw [parseNatTok]
  rw [if_pos]
  · rw [digitsToNat_natDigits]; simp
  · simp [natDigits_ne_nil n, natDigits_all_digits n]

theorem natDigits_head_digit (n : Nat) :
    ∀ c, (natDigits n).head? = some c → isDigitC c = true := by
  intro c hc
  have := natDigits_all_digits n
  rw [List.all_eq_true] at this
  apply this
  cases hh : natDigits n with
  | nil => exact absurd hh (natDigits_ne_nil n)
  | cons a l => rw [hh] at hc; simp at hc; simp [hh, hc]

theorem parseIntTok_intChars (n : Int) : parseIntTok (intChars n) = some n := by
  cases n with
  | ofNat m =>
    rw [intChars]
    cases hh : natDigits m with
    | nil => exact absurd hh (natDigits_ne_nil m)
    | cons a l =>
      have ha : a ≠ '-' := by
        intro h
        have := natDigits_head_digit m a (by rw [hh]; rfl)
        rw [h] at this
        simp [isDigitC] at this
      rw [parseIntTok.eq_def]
      split
      · rename_i rest heq
        exact absurd (List.cons_eq_cons.mp heq).1 ha
      · rw [← hh, parseNatTok_natDigits]
        rfl
  | negSucc m =>
    rw [intChars, parseIntTok, parseNatTok_natDigits]
    simp [Int.negSucc_eq]

/-- Escape a character list: backslashes and single quotes get a
backslash prefix; all other characters (newlines included) are kept
literal, per the spec's string-escaping rule (§4.1). -/
def escC : List Char → List Char
  | [] => []
  | c :: cs =>
    if c = '\\' ∨ c = '\'' then '\\' :: c :: escC cs else c :: escC cs

/-- Read an escaped span up to and including the closing quote, which must
be the last character. -/
def unescC : List Char → Option (List Char)
  | [] => none
  | [c] => if c = '\'' then some [] else none
  | c :: d :: rest =>
    if c = '\\' then
      if d = '\\' ∨ d = '\'' then (unescC rest).map (d :: ·) else none
    else if c = '\'' then none
    else (unescC (d :: rest)).map (c :: ·)

theorem unescC_cons₂ (c d : Char) (rest : List Char) :
    unescC (c :: d :: rest) =
      if c = '\\' then
        if d = '\\' ∨ d = '\'' then (unescC rest).map (d :: ·) else none
      else if c = '\'' then none
      else (unescC (d :: rest)).map (c :: ·) := rfl

theorem unescC_escC (l : List Char) : unescC (escC l ++ ['\'']) = some l := by
  induction l with
  | nil => rfl
  | cons c cs ih =>
    by_cases hc : c = '\\' ∨ c = '\''
    · simp only [escC, if_pos hc, List.cons_append]
      rw [unescC_cons₂]
      rw [if_pos rfl, if_pos hc, ih]
      rfl
    · have hc1 : c ≠ '\\' := fun h => hc (Or.inl h)
      have hc2 : c ≠ '\'' := fun h => hc (Or.inr h)
      simp only [escC, if_neg hc, List.cons_append]
      cases hcs : escC cs ++ ['\''] with
      | nil => simp at hcs
      | cons a t =>
        rw [unescC_cons₂]
        rw [if_neg hc1, if_neg hc2, ← hcs, ih]
        rfl

/-- Characters produced by escaping are the original ones plus
backslashes. -/
theorem escC_mem {c : Char} {l : List Char} (h : c ∈ escC l) :
    c ∈ l ∨ c = '\\' := by
  induction l with
  | nil => simp [escC] at h
  | cons a as ih =>
    rw [escC] at h
    split at h
    · simp at h
      rcases h with h | h | h
      · right; exact h
      · left; simp [h]
      · rcases ih h with h' | h'
        · left; simp [h']
        · right; exact h'
    · simp at h
      rcases h with h | h
      · left; simp [h]
      · rcases ih h with h' | h'
        · left; simp [h']
        · right; exact h'

/-- Read an escaped span up to the closing quote, returning the
unescaped content and the remainder after the closing quote. -/
def splitQuoted : List Char → Option (List Char × List Char)
  | [] => none
  | [c] => if c = '\'' then some ([], []) else none
  | c :: d :: rest =>
    if c = '\\' then
      if d = '\\' ∨ d = '\'' then
        (splitQuoted rest).map (fun p => (d :: p.1, p.2))
      else none
    else if c = '\'' then some ([], d :: rest)
    else (splitQuoted (d :: rest)).map (fun p => (c :: p.1, p.2))

theorem splitQuoted_cons₂ (c d : Char) (rest : List Char) :
    splitQuoted (c :: d :: rest) =
      (if c = '\\' then
        if d = '\\' ∨ d = '\'' then
          (splitQuoted rest).map (fun p => (d :: p.1, p.2))
        else none
      else if c = '\'' then some ([], d :: rest)
      else (splitQuoted (d :: rest)).map (fun p => (c :: p.1, p.2))) := rfl

theorem splitQuoted_escC (l : List Char) : ∀ rem : List Char,
    splitQuoted (escC l ++ '\'' :: rem) = some (l, rem) := by
  induction l with
  | nil =>
    intro rem
    cases rem with
    | nil =>
      show splitQuoted ['\''] = some ([], [])
      rw [splitQuoted, if_pos rfl]
    | cons r rs =>
      show splitQuoted ('\'' :: r :: rs) = some ([], r :: rs)
      rw [splitQuoted_cons₂, if_neg (by decide), if_pos rfl]
  | cons c cs ih =>
    intro rem
    by_cases hc : c = '\\' ∨ c = '\''
    · simp only [escC, if_pos hc, List.cons_append]
      rw [splitQuoted_cons₂, if_pos rfl, if_pos hc, ih rem]
      rfl
    · have hc1 : c ≠ '\\' := fun h => hc (Or.inl h)
      have hc2 : c ≠ '\'' := fun h => hc (Or.inr h)
      simp only [escC, if_neg hc, List.cons_append]
      cases hcs : escC cs ++ '\'' :: rem with
      | nil => simp at hcs
      | cons a t =>
        rw [splitQuoted_cons₂, if_neg hc1, if_neg hc2, ← hcs, ih rem]
        rfl

/-- Split a character list on a separator character. -/
def charSplit (c : Char) : List Char → List (List Char)
  | [] => [[]]
  | x :: xs =>
    if x = c then [] :: charSplit c xs
    else
      match charSplit c xs with
      | [] => [[x]]
      | seg :: rest => (x :: seg) :: rest

/-- Join character lists with a separator character. -/
def charJoin (c : Char) : List (List Char) → List Char
  | [] => []
  | [x] => x
  | x :: xs => x ++ c :: charJoin c xs

theorem charSplit_ne_nil (c : Char) (l : List Char) : charSplit c l ≠ [] := by
  induction l with
  | nil => simp [charSplit]
  | cons x xs ih =>
    rw [charSplit]
    split
    · simp
    · split
      · simp
      · simp

theorem charSplit_no_sep {c : Char} {l : List Char} (h : c ∉ l) :
    charSplit c l = [l] := by
  induction l with
  | nil => rfl
  | cons x xs ih =>
    rw [charSplit]
    rw [if_neg (by intro he; exact h (by simp [he]))]
    rw [ih (by intro hm; exact h (by simp [hm]))]

theorem charSplit_append_sep {c : Char} {l t : List Char} (h : c ∉ l) :
    charSplit c (l ++ c :: t) = l :: charSplit c t := by
  induction l with
  | nil => simp [charSplit]
  | cons x xs ih =>
    simp only [List.cons_append]
    rw [charSplit]
    rw [if_neg (by intro he; exact h (by simp [he]))]
    rw [ih (by intro hm; exact h (by simp [hm]))]

theorem charSplit_charJoin (c : Char) (xss : List (List Char))
    (hne : xss ≠ []) (hfree : ∀ xs ∈ xss, c ∉ xs) :
    charSplit c (charJoin c xss) = xss := by
  induction xss with
  | nil => exact absurd rfl hne
  | cons x xs ih =>
    cases xs with
    | nil =>
      rw [charJoin]
      exact charSplit_no_sep (hfree x (by simp))
    | cons y ys =>
      have hj : charJoin c (x :: y :: ys) = x ++ c :: charJoin c (y :: ys) := rfl
      rw [hj]
      rw [charSplit_append_sep (hfree x (by simp))]
      rw [ih (List.cons_ne_nil _ _) (fun z hz => hfree z (by simp [hz]))]

/-- Join lines, each terminated by a newline. -/
def joinLines : List (List Char) → List Char
  | [] => []
  | l :: ls => l ++ '\n' :: joinLines ls

theorem charSplit_joinLines (ls : List (List Char))
    (hfree : ∀ l ∈ ls, '\n' ∉ l) :
    charSplit '\n' (joinLines ls) = ls ++ [[]] := by
  induction ls with
  | nil => rfl
  | cons l ls ih =>
    rw [joinLines]
    rw [charSplit_append_sep (hfree l (by simp))]
    rw [ih (fun z hz => hfree z (by simp [hz]))]
    rfl

/-- Scanner state for quote-aware splitting: outside any quoted span,
inside a quoted span, or inside just after a backslash. -/
inductive QSt : Type
  | outside
  | inside
  | escaped
deriving DecidableEq

/-- Scan a chunk: `none` when a separator is hit outside a quoted span,
otherwise the state after the chunk.  Inside a quoted span the
separator is ordinary (the renderer keeps newlines literal there,
§4.1). -/
def scanQ (sep : Char) : QSt → List Char → Option QSt
  | st, [] => some st
  | QSt.outside, c :: rest =>
    if c = sep then none
    else if c = '\'' then scanQ sep QSt.inside rest
    else scanQ sep QSt.outside rest
  | QSt.inside, c :: rest =>
    if c = '\\' then scanQ sep QSt.escaped rest
    else if c = '\'' then scanQ sep QSt.outside rest
    else scanQ sep QSt.inside rest
  | QSt.escaped, _ :: rest => scanQ sep QSt.inside rest

/-- Quote-aware splitting on a separator: separators inside quoted
spans do not split. -/
def splitSepQ (sep : Char) : List Char → QSt → List Char → List (List Char)
  | [], _, acc => [acc.reverse]
  | c :: rest, QSt.outside, acc =>
    if c = sep then acc.reverse :: splitSepQ sep rest QSt.outside []
    else if c = '\'' then splitSepQ sep rest QSt.inside (c :: acc)
    else splitSepQ sep rest QSt.outside (c :: acc)
  | c :: rest, QSt.inside, acc =>
    if c = '\\' then splitSepQ sep rest QSt.escaped (c :: acc)
    else if c = '\'' then splitSepQ sep rest QSt.outside (c :: acc)
    else splitSepQ sep rest QSt.inside (c :: acc)
  | c :: rest, QSt.escaped, acc => splitSepQ sep rest QSt.inside (c :: acc)

theorem scanQ_append (sep : Char) : ∀ (a : List Char) (st st2 : QSt)
    (b : List Char), scanQ sep st a = some st2 →
    scanQ sep st (a ++ b) = scanQ sep st2 b
  | [], st, st2, b, h => by
    rw [scanQ] at h
    have h1 : st = st2 := by injection h
    rw [h1, List.nil_append]
  | c :: rest, QSt.outside, st2, b, h => by
    rw [scanQ] at h
    rw [List.cons_append, scanQ]
    by_cases h1 : c = sep
    · rw [if_pos h1] at h; exact Option.noConfusion h
    · rw [if_neg h1] at h ⊢
      by_cases h2 : c = '\''
      · rw [if_pos h2] at h ⊢
        exact scanQ_append sep rest _ st2 b h
      · rw [if_neg h2] at h ⊢
        exact scanQ_append sep rest _ st2 b h
  | c :: rest, QSt.inside, st2, b, h => by
    rw [scanQ] at h
    rw [List.cons_append, scanQ]
    by_cases h1 : c = '\\'
    · rw [if_pos h1] at h ⊢
      exact scanQ_append sep rest _ st2 b h
    · rw [if_neg h1] at h ⊢
      by_cases h2 : c = '\''
      · rw [if_pos h2] at h ⊢
        exact scanQ_append sep rest _ st2 b h
      · rw [if_neg h2] at h ⊢
        exact scanQ_append sep rest _ st2 b h
  | c :: rest, QSt.escaped, st2, b, h => by
    rw [scanQ] at h
    rw [List.cons_append, scanQ]
    exact scanQ_append sep rest _ st2 b h

theorem splitSepQ_chunk (sep : Char) : ∀ (a : List Char) (st st2 : QSt)
    (acc rest : List Char), scanQ sep st a = some st2 →
    splitSepQ sep (a ++ rest) st acc =
      splitSepQ sep rest st2 (a.reverse ++ acc)
  | [], st, st2, acc, rest, h => by
    rw [scanQ] at h
    have h1 : st = st2 := by injection h
    rw [h1, List.nil_append]
    rfl
  | c :: a, QSt.outside, st2, acc, rest, h => by
    rw [scanQ] at h
    rw [List.cons_append, splitSepQ]
    by_cases h1 : c = sep
    · rw [if_pos h1] at h; exact Option.noConfusion h
    · rw [if_neg h1] at h ⊢
      by_cases h2 : c = '\''
      · rw [if_pos h2] at h ⊢
        rw [splitSepQ_chunk sep a _ st2 (c :: acc) rest h]
        simp
      · rw [if_neg h2] at h ⊢
        rw [splitSepQ_chunk sep a _ st2 (c :: acc) rest h]
        simp
  | c :: a, QSt.inside, st2, acc, rest, h => by
    rw [scanQ] at h
    rw [List.cons_append, splitSepQ]
    by_cases h1 : c = '\\'
    · rw [if_pos h1] at h ⊢
      rw [splitSepQ_chunk sep a _ st2 (c :: acc) rest h]
      simp
    · rw [if_neg h1] at h ⊢
      by_cases h2 : c = '\''
      · rw [if_pos h2] at h ⊢
        rw [splitSepQ_chunk sep a _ st2 (c :: acc) rest h]
        simp
      · rw [if_neg h2] at h ⊢
        rw [splitSepQ_chunk sep a _ st2 (c :: acc) rest h]
        simp
  | c :: a, QSt.escaped, st2, acc, rest, h => by
    rw [scanQ] at h
    rw [List.cons_append, splitSepQ]
    rw [splitSepQ_chunk sep a _ st2 (c :: acc) rest h]
    simp

theorem splitSepQ_whole (sep : Char) (a : List Char) (st st2 : QSt)
    (acc : List Char) (h : scanQ sep st a = some st2) :
    splitSepQ sep a st acc = [acc.reverse ++ a] := by
  have h2 := splitSepQ_chunk sep a st st2 acc [] h
  rw [List.append_nil] at h2
  rw [h2, splitSepQ]
  rw [List.reverse_append, List.reverse_reverse]

theorem splitSepQ_joinLines (ls : List (List Char))
    (hok : ∀ l ∈ ls, scanQ '\n' QSt.outside l = some QSt.outside) :
    splitSepQ '\n' (joinLines ls) QSt.outside [] = ls ++ [[]] := by
  induction ls with
  | nil => rfl
  | cons l ls ih =>
    rw [joinLines]
    rw [splitSepQ_chunk '\n' l QSt.outside QSt.outside [] _
      (hok l (by simp))]
    rw [splitSepQ, if_pos rfl]
    rw [List.append_nil, List.reverse_reverse]
    rw [ih (fun z hz => hok z (by simp [hz]))]
    rfl

/-! ### Rendering (`ToText`) -/

/-- Left brace character. -/
def lbraceC : Char := '\x7b'

/-- Right brace character. -/
def rbraceC : Char := '\x7d'

/-- Well-formed unsigned float literal: digits, a dot, digits. -/
def wfUFloatLit (l : List Char) : Bool :=
  match charSplit '.' l with
  | [a, b] => !a.isEmpty && a.all isDigitC && !b.isEmpty && b.all isDigitC
  | _ => false

/-- Well-formed float literal, with an optional leading minus sign. -/
def wfFloatLit : List Char → Bool
  | '-' :: rest => wfUFloatLit rest
  | l => wfUFloatLit l

mutual

/-- Modelled from the spec: the textual form of a leaf value (§4.1):
integers and floats in decimal, booleans as `True`/`False`, `None` as the
literal type-name token, strings quoted with backslash-escaping, sequences
and mappings inline with nested ConfigNodes expanded to their entries. -/
def renderLeafC : Pv → List Char
  | .vint n => intChars n
  | .vfloat lit => lit.toList
  | .vbool b => if b then "True".toList else "False".toList
  | .vstr s => '\'' :: (escC s.toList ++ ['\''])
  | .vnone => "NoneType".toList
  | .vlist xs => '[' :: (renderElems xs ++ [']'])
  | .vdict kvs => lbraceC :: (renderKvs kvs ++ [rbraceC])
  | .vnode _ es => lbraceC :: (renderEnts es ++ [rbraceC])
  | .vopq i => "opq/".toList ++ natDigits i

/-- Inline rendering of sequence elements. -/
def renderElems : List Pv → List Char
  | [] => []
  | x :: xs =>
    renderLeafC x ++ (if xs.isEmpty then [] else [',', ' ']) ++ renderElems xs

/-- Inline rendering of mapping items. -/
def renderKvs : List (String × Pv) → List Char
  | [] => []
  | (k, v) :: kvs =>
    ('\'' :: (escC k.toList ++ ['\'', ':', ' '])) ++ renderLeafC v ++
      (if kvs.isEmpty then [] else [',', ' ']) ++ renderKvs kvs

/-- Inline rendering of a nested node's entries. -/
def renderEnts : List (String × Pv × String) → List Char
  | [] => []
  | (k, v, _) :: es =>
    ('\'' :: (escC k.toList ++ ['\'', ':', ' '])) ++ renderLeafC v ++
      (if es.isEmpty then [] else [',', ' ']) ++ renderEnts es

end

/-- Modelled from the spec: the recognized type tag of a value, as used by
`ToText(include_types=True)` (§4.1). -/
def typeTag : Pv → String
  | .vint _ => "int"
  | .vfloat _ => "float"
  | .vbool _ => "bool"
  | .vstr _ => "str"
  | .vnone => "NoneType"
  | .vlist _ => "list"
  | .vdict _ => "dict"
  | .vnode _ _ => "Params"
  | .vopq _ => "opq"

mutual

/-- The flattened leaves of an entry list: every non-node value paired with
its dotted path (as a segment list); nested ConfigNodes are flattened
under their key. -/
def collectPaths : List (String × Pv × String) → List (List String × Pv)
  | [] => []
  | (k, v, _) :: rest => collectVal k v ++ collectPaths rest

/-- The flattened leaves of a single entry. -/
def collectVal (k : String) : Pv → List (List String × Pv)
  | .vnode _ es => (collectPaths es).map (fun pv => (k :: pv.1, pv.2))
  | v => [([k], v)]

end

/-- Join dotted-path segments with dots. -/
def joinDots (path : List String) : List Char :=
  charJoin '.' (path.map String.toList)

/-- Order on keyed pairs by the key. -/
def keyLe {α : Type} (x y : String × α) : Prop := x.1 ≤ y.1

instance {α : Type} : DecidableRel (@keyLe α) :=
  fun x y => inferInstanceAs (Decidable (x.1 ≤ y.1))

instance {α : Type} : IsTotal (String × α) keyLe := ⟨fun x y => le_total x.1 y.1⟩

instance {α : Type} : IsTrans (String × α) keyLe :=
  ⟨fun _ _ _ h1 h2 => le_trans h1 h2⟩

/-- The sorted leaf lines of a node: (dotted key, rendered value), sorted
by dotted key. -/
def Params.toTextPairs (p : Params) : List (String × List Char) :=
  List.insertionSort keyLe
    ((collectPaths p.entries).map fun pv => (String.mk (joinDots pv.1), renderLeafC pv.2))

/-- The key/value separator of the line format. -/
def sepChars : List Char := [' ', ':', ' ']

/-- The character stream of `ToText`. -/
def Params.toTextL (p : Params) : List Char :=
  joinLines (p.toTextPairs.map fun kv => kv.1.toList ++ sepChars ++ kv.2)

/-- Modelled from the spec: `ToText` produces a deterministic,
sorted-by-dotted-key, line-oriented text serialization, one line per
leaf-valued entry (§4.1). -/
def Params.ToText (p : Params) : String := String.mk p.toTextL

/-- The type map of `ToText(include_types=True)`: dotted key to recognized
type tag, sorted by dotted key. -/
def Params.typePairs (p : Params) : List (String × String) :=
  List.insertionSort keyLe
    ((collectPaths p.entries).map fun pv => (String.mk (joinDots pv.1), typeTag pv.2))

/-- Modelled from the spec: `ToText(include_types=True)` returns the text
and the mapping from dotted key to type tag (§4.1). -/
def Params.ToTextTypes (p : Params) : String × List (String × String) :=
  (p.ToText, p.typePairs)

/-- Modelled from the spec: `ToTextWithTypes` serializes the text followed
by a blank line and the sorted type map (§8 determinism example). -/
def Params.ToTextWithTypes (p : Params) : String :=
  p.ToText ++
    String.mk ('\n' :: joinLines (p.typePairs.map fun kv => kv.1.toList ++ sepChars ++ kv.2.toList))

/-! ### Parsing (`FromText`) -/

/-- Recognize the tail of the `" : "` separator. -/
def sepHead : List Char → Option (List Char)
  | ':' :: ' ' :: v => some v
  | _ => none

/-- Split a line at the first space, which must start a `" : "`
separator. -/
def splitKeyVal : List Char → Option (List Char × List Char)
  | [] => none
  | c :: rest =>
    if c = ' ' then (sepHead rest).map (fun v => ([], v))
    else (splitKeyVal rest).map (fun kv => (c :: kv.1, kv.2))

/-- Parse a boolean token. -/
def parseBoolTok (tok : List Char) : Option Bool :=
  if tok = "True".toList ∨ tok = "true".toList then some true
  else if tok = "False".toList ∨ tok = "false".toList then some false
  else none

/-- Parse a string token: a quoted token is unescaped, anything else is
taken raw (the type-erasure behavior when the previous value is a
string). -/
def parseStrTok (tok : List Char) : Except PErr Pv :=
  match tok with
  | '\'' :: rest =>
    (match unescC rest with
     | some cs => .ok (.vstr (String.mk cs))
     | none => .error (.parseFail (String.mk tok)))
  | _ => .ok (.vstr (String.mk tok))

/-- Parse an inline container element by its literal form (§4.1: the
inverse of the inline rendering of scalar values). -/
def parseScalarTok : List Char → Option Pv
  | [] => none
  | c :: rest =>
    if c = '\'' then
      match unescC rest with
      | some cs => some (.vstr (String.mk cs))
      | none => none
    else if c :: rest = "True".toList then some (.vbool true)
    else if c :: rest = "False".toList then some (.vbool false)
    else if c :: rest = "NoneType".toList then some .vnone
    else if wfFloatLit (c :: rest) then some (.vfloat (String.mk (c :: rest)))
    else
      match parseIntTok (c :: rest) with
      | some n => some (.vint n)
      | none => none

/-- Parse the comma-split items of an inline sequence. -/
def parseElems : List (List Char) → Option (List Pv)
  | [] => some []
  | item :: items =>
    match parseScalarTok (item.dropWhile (· = ' ')) with
    | some v =>
      match parseElems items with
      | some vs => some (v :: vs)
      | none => none
    | none => none

/-- Modelled from the spec: parse an inline sequence literal, the
inverse of the sequence rendering (§4.1): brackets around comma-joined
elements; commas inside quoted spans do not separate. -/
def parseListTok : List Char → Option (List Pv)
  | [] => none
  | c :: rest =>
    if c = '[' then
      match rest.getLast? with
      | some d =>
        if d = ']' then
          if rest.dropLast = [] then some []
          else parseElems (splitSepQ ',' rest.dropLast QSt.outside [])
        else none
      | none => none
    else none

/-- Parse one inline mapping item: quoted key, `": "`, scalar value. -/
def parseDictItem : List Char → Option (String × Pv)
  | [] => none
  | c :: rest =>
    if c = '\'' then
      match splitQuoted rest with
      | some (key, rem) =>
        match rem with
        | ':' :: ' ' :: vtok =>
          (parseScalarTok vtok).map (fun v => (String.mk key, v))
        | _ => none
      | none => none
    else none

/-- Parse the comma-split items of an inline mapping. -/
def parseItemsD : List (List Char) → Option (List (String × Pv))
  | [] => some []
  | item :: items =>
    match parseDictItem (item.dropWhile (· = ' ')) with
    | some kv =>
      match parseItemsD items with
      | some kvs => some (kv :: kvs)
      | none => none
    | none => none

/-- Modelled from the spec: parse an inline mapping literal, the
inverse of the mapping rendering (§4.1). -/
def parseDictTok : List Char → Option (List (String × Pv))
  | [] => none
  | c :: rest =>
    if c = lbraceC then
      match rest.getLast? with
      | some d =>
        if d = rbraceC then
          if rest.dropLast = [] then some []
          else parseItemsD (splitSepQ ',' rest.dropLast QSt.outside [])
        else none
      | none => none
    else none

/-- Modelled from the spec: parse a value token at a given target type tag;
a token that cannot be parsed back at its previous type, or whose previous
type gives no unambiguous parse (previous value `None` and token not
`NoneType`), fails with a type error (§4.1 `FromText`). -/
def parseByTag (tag : String) (tok : List Char) : Except PErr Pv :=
  if tag = "int" then
    match parseIntTok tok with
    | some n => .ok (.vint n)
    | none => .error (.parseFail (String.mk tok))
  else if tag = "float" then
    (if wfFloatLit tok then .ok (.vfloat (String.mk tok))
     else .error (.parseFail (String.mk tok)))
  else if tag = "bool" then
    match parseBoolTok tok with
    | some b => .ok (.vbool b)
    | none => .error (.parseFail (String.mk tok))
  else if tag = "str" then parseStrTok tok
  else if tag = "NoneType" then
    (if tok = "NoneType".toList then .ok .vnone
     else .error (.ambiguousType (String.mk tok)))
  else if tag = "list" then
    match parseListTok tok with
    | some xs => .ok (.vlist xs)
    | none => .error (.parseFail (String.mk tok))
  else if tag = "dict" then
    match parseDictTok tok with
    | some kvs => .ok (.vdict kvs)
    | none => .error (.parseFail (String.mk tok))
  else .error (.ambiguousType tag)

/-- Look a key up in the type-override map. -/
def lookupStr (k : String) : List (String × String) → Option String
  | [] => none
  | (a, b) :: rest => if a = k then some b else lookupStr k rest

/-- Modelled from the spec: process one line of the text format: blank
lines and `#`-comment lines are skipped; otherwise the line is split at
`" : "`, the dotted key resolved as in `Set`, the value token parsed at
the type-override tag when one is supplied and otherwise at the previous
value's type, and the parsed value stored (§4.1 `FromText`). -/
def parseLineP (ov : List (String × String)) (p : Params) (line : List Char) :
    Except PErr Params :=
  match line.dropWhile (· = ' ') with
  | [] => .ok p
  | c :: l' =>
    if c = '#' then .ok p
    else
      match splitKeyVal (c :: l') with
      | none => .error (.parseFail (String.mk (c :: l')))
      | some (key, tok) =>
        match lookupStr (String.mk key) ov with
        | some tag => do
          let v ← parseByTag tag tok
          p.SetPath ((charSplit '.' key).map String.mk) v
        | none => do
          let old ← p.GetPath ((charSplit '.' key).map String.mk)
          let v ← parseByTag (typeTag old) tok
          p.SetPath ((charSplit '.' key).map String.mk) v

/-- Fold `parseLineP` over the lines. -/
def fromLines (ov : List (String × String)) :
    Params → List (List Char) → Except PErr Params
  | p, [] => .ok p
  | p, line :: rest => do
    let q ← parseLineP ov p line
    fromLines ov q rest

/-- Modelled from the spec: `FromText(text, type_overrides)`, the inverse
of `ToText` (§4.1).  Lines are split with the quote-aware splitter:
newlines kept literal inside a quoted span do not end the line. -/
def Params.FromText (p : Params) (text : String)
    (ov : List (String × String)) : Except PErr Params :=
  fromLines ov p (splitSepQ '\n' text.toList QSt.outside [])

/-! ### Well-formedness and round-trip safety -/

mutual

/-- Structural well-formedness (the spec's node invariants, §3): names
valid and unique within a node, recursively. -/
def WFv : Pv → Bool
  | .vnode _ es => WFents es
  | .vlist xs => WFlist xs
  | .vdict kvs => WFdict kvs
  | _ => true

/-- Well-formedness of an entry list. -/
def WFents : List (String × Pv × String) → Bool
  | [] => true
  | (k, v, _) :: rest =>
    validName k && !(rest.any (fun e => e.1 == k)) && WFv v && WFents rest

/-- Well-formedness of a value list. -/
def WFlist : List Pv → Bool
  | [] => true
  | x :: xs => WFv x && WFlist xs

/-- Well-formedness of a mapping. -/
def WFdict : List (String × Pv) → Bool
  | [] => true
  | (_, v) :: kvs => WFv v && WFdict kvs

end

/-- Well-formedness of a node. -/
def Params.WF (p : Params) : Bool := WFents p.entries

/-- A leaf value (anything but a nested node). -/
def isLeafV : Pv → Bool
  | .vnode _ _ => false
  | _ => true

/-- A scalar container element whose rendering reparses from its
literal form: integer, well-formed float literal, boolean, string, or
`None`. -/
def scalarSafe : Pv → Bool
  | .vint _ => true
  | .vfloat lit => wfFloatLit lit.toList
  | .vbool _ => true
  | .vstr _ => true
  | .vnone => true
  | .vlist _ => false
  | .vdict _ => false
  | .vnode _ _ => false
  | .vopq _ => false

mutual

/-- The claim's hypothesis "every leaf's textual form is type-unambiguous
given that leaf's previous value", structurally: the node is unfrozen and
every leaf is an integer, a well-formed float literal, a boolean, a
string (embedded newlines stay literal inside the quoted span), `None`,
or a sequence or mapping of such scalars; nested nodes recursively so.
Opaque leaves are excluded: their textual form does not determine their
previous type. -/
def roundSafeV : Pv → Bool
  | .vnode fr es => !fr && roundSafeEnts es
  | .vint _ => true
  | .vfloat lit => wfFloatLit lit.toList
  | .vbool _ => true
  | .vstr _ => true
  | .vnone => true
  | .vlist xs => xs.all scalarSafe
  | .vdict kvs => kvs.all (fun kv => scalarSafe kv.2)
  | .vopq _ => false

/-- Round-trip safety of an entry list. -/
def roundSafeEnts : List (String × Pv × String) → Bool
  | [] => true
  | (_, v, _) :: rest => roundSafeV v && roundSafeEnts rest

end

/-- Round-trip safety of a node. -/
def Params.roundSafe (p : Params) : Bool := !p.frozen && roundSafeEnts p.entries

/-- `String.mk` and `String.toList` are inverse. -/
theorem stringMk_toList (s : String) : String.mk s.toList = s := rfl

theorem toList_stringMk (l : List Char) : (String.mk l).toList = l := rfl

/-- Explicit equations for the mutually recursive renderer. -/
theorem renderLeafC_vint (n : Int) : renderLeafC (.vint n) = intChars n := by
  rw [renderLeafC]

theorem renderLeafC_vfloat (lit : String) :
    renderLeafC (.vfloat lit) = lit.toList := by rw [renderLeafC]

theorem renderLeafC_vbool (b : Bool) :
    renderLeafC (.vbool b) = if b then "True".toList else "False".toList := by
  rw [renderLeafC]

theorem renderLeafC_vstr (s : String) :
    renderLeafC (.vstr s) = '\'' :: (escC s.toList ++ ['\'']) := by
  rw [renderLeafC]

theorem renderLeafC_vnone : renderLeafC .vnone = "NoneType".toList := by
  rw [renderLeafC]

/-- Quoted tokens unescape. -/
theorem parseStrTok_quoted (rest : List Char) :
    parseStrTok ('\'' :: rest) =
      (match unescC rest with
       | some cs => .ok (.vstr (String.mk cs))
       | none => .error (.parseFail (String.mk ('\'' :: rest)))) := rfl

/-! ### Path lemmas for the round trip -/

theorem getPath_nil (p : Params) : p.GetPath [] = .error (.undefinedName "") := rfl

theorem getPath_single (p : Params) (k : String) :
    p.GetPath [k] =
      (match lookupEntry k p.entries with
       | some (v, _) => .ok v
       | none => .error (.undefinedName k)) := rfl

theorem getPath_cons (p : Params) (k k2 : String) (t : List String) :
    p.GetPath (k :: k2 :: t) =
      (match lookupEntry k p.entries with
       | some (.vnode fr es, _) => Params.GetPath ⟨fr, es⟩ (k2 :: t)
       | some _ => .error (.cannotIntrospect k)
       | none => .error (.undefinedName k)) := rfl

theorem setPath_single (p : Params) (k : String) (v : Pv) :
    p.SetPath [k] v =
      (if p.frozen then .error .frozen
       else match lookupEntry k p.entries with
         | some _ => .ok ⟨p.frozen, setEntry k v p.entries⟩
         | none => .error (.undefinedName k)) := rfl

theorem setPath_cons (p : Params) (k k2 : String) (t : List String) (v : Pv) :
    p.SetPath (k :: k2 :: t) v =
      (if p.frozen then .error .frozen
       else match lookupEntry k p.entries with
         | some (.vnode fr es, _) => do
           let q ← Params.SetPath ⟨fr, es⟩ (k2 :: t) v
           .ok ⟨p.frozen, setEntry k q.toV p.entries⟩
         | some _ => .error (.cannotIntrospect k)
         | none => .error (.undefinedName k)) := rfl

theorem lookupEntry_cons_self (k : String) (v : Pv) (d : String)
    (rest : List (String × Pv × String)) :
    lookupEntry k ((k, v, d) :: rest) = some (v, d) := by
  rw [lookupEntry, if_pos rfl]

theorem lookupEntry_cons_ne {k k' : String} (hne : k ≠ k') (v : Pv) (d : String)
    (rest : List (String × Pv × String)) :
    lookupEntry k' ((k, v, d) :: rest) = lookupEntry k' rest := by
  rw [lookupEntry, if_neg hne]

theorem setEntry_cons_self (k : String) (v w : Pv) (d : String)
    (rest : List (String × Pv × String)) :
    setEntry k v ((k, w, d) :: rest) = (k, v, d) :: rest := by
  rw [setEntry, if_pos rfl]

theorem setEntry_cons_ne {k k' : String} (hne : k ≠ k') (v w : Pv) (d : String)
    (rest : List (String × Pv × String)) :
    setEntry k' v ((k, w, d) :: rest) = (k, w, d) :: setEntry k' v rest := by
  rw [setEntry, if_neg hne]

/-- Flattened leaves of a non-node entry. -/
theorem collectVal_leaf {w : Pv} (k : String) (hleaf : isLeafV w = true) :
    collectVal k w = [([k], w)] := by
  cases w <;> first
    | rfl
    | (rw [isLeafV] at hleaf; exact Bool.noConfusion hleaf)

/-- Flattened leaves of a node entry. -/
theorem collectVal_node (k : String) (fr : Bool)
    (es : List (String × Pv × String)) :
    collectVal k (.vnode fr es) =
      (collectPaths es).map (fun pv => (k :: pv.1, pv.2)) := by
  rw [collectVal]

theorem collectPaths_cons (k : String) (v : Pv) (d : String)
    (rest : List (String × Pv × String)) :
    collectPaths ((k, v, d) :: rest) = collectVal k v ++ collectPaths rest := by
  rw [collectPaths]

/-- Every flattened path starts with a key defined on the node. -/
theorem collect_shape : ∀ (es : List (String × Pv × String))
    (path : List String) (v : Pv), (path, v) ∈ collectPaths es →
    ∃ k path', path = k :: path' ∧ k ∈ es.map (·.1)
  | [], path, v, hm => by rw [collectPaths] at hm; exact absurd hm (by simp)
  | (k0, w, d) :: rest, path, v, hm => by
    rw [collectPaths_cons] at hm
    rcases List.mem_append.mp hm with h | h
    · cases w with
      | vnode fr es' =>
        rw [collectVal_node] at h
        rcases List.mem_map.mp h with ⟨pv, _, heq⟩
        refine ⟨k0, pv.1, ?_, by simp⟩
        have := congrArg Prod.fst heq
        simp at this
        exact this.symm
      | vint n =>
        rw [@collectVal_leaf (Pv.vint n) k0 rfl] at h
        simp at h
        exact ⟨k0, [], by simp [h.1], by simp⟩
      | vfloat lit =>
        rw [@collectVal_leaf (Pv.vfloat lit) k0 rfl] at h
        simp at h
        exact ⟨k0, [], by simp [h.1], by simp⟩
      | vbool b =>
        rw [@collectVal_leaf (Pv.vbool b) k0 rfl] at h
        simp at h
        exact ⟨k0, [], by simp [h.1], by simp⟩
      | vstr s2 =>
        rw [@collectVal_leaf (Pv.vstr s2) k0 rfl] at h
        simp at h
        exact ⟨k0, [], by simp [h.1], by simp⟩
      | vnone =>
        rw [@collectVal_leaf (Pv.vnone) k0 rfl] at h
        simp at h
        exact ⟨k0, [], by simp [h.1], by simp⟩
      | vlist xs =>
        rw [@collectVal_leaf (Pv.vlist xs) k0 rfl] at h
        simp at h
        exact ⟨k0, [], by simp [h.1], by simp⟩
      | vdict kvs =>
        rw [@collectVal_leaf (Pv.vdict kvs) k0 rfl] at h
        simp at h
        exact ⟨k0, [], by simp [h.1], by simp⟩
      | vopq i =>
        rw [@collectVal_leaf (Pv.vopq i) k0 rfl] at h
        simp at h
        exact ⟨k0, [], by simp [h.1], by simp⟩
    · rcases collect_shape rest path v h with ⟨k, path', he, hk⟩
      exact ⟨k, path', he, by simp [hk]⟩

theorem eq_vnode_of_not_leaf :
    ∀ {w : Pv}, isLeafV w = false → ∃ fr es, w = .vnode fr es
  | .vnode fr es, _ => ⟨fr, es, rfl⟩
  | .vint _, h => Bool.noConfusion h
  | .vfloat _, h => Bool.noConfusion h
  | .vbool _, h => Bool.noConfusion h
  | .vstr _, h => Bool.noConfusion h
  | .vnone, h => Bool.noConfusion h
  | .vlist _, h => Bool.noConfusion h
  | .vdict _, h => Bool.noConfusion h
  | .vopq _, h => Bool.noConfusion h

theorem WFents_cons (k : String) (v : Pv) (d : String)
    (rest : List (String × Pv × String)) :
    WFents ((k, v, d) :: rest) =
      (validName k && !(rest.any (fun e => e.1 == k)) && WFv v && WFents rest) := by
  rw [WFents]

theorem WFv_node (fr : Bool) (es : List (String × Pv × String)) :
    WFv (.vnode fr es) = WFents es := by rw [WFv]

theorem roundSafeEnts_cons (k : String) (v : Pv) (d : String)
    (rest : List (String × Pv × String)) :
    roundSafeEnts ((k, v, d) :: rest) = (roundSafeV v && roundSafeEnts rest) := by
  rw [roundSafeEnts]

theorem roundSafeV_node (fr : Bool) (es : List (String × Pv × String)) :
    roundSafeV (.vnode fr es) = (!fr && roundSafeEnts es) := by rw [roundSafeV]

/-- All names along a flattened path are valid. -/
theorem collect_validnames : ∀ (es : List (String × Pv × String)),
    WFents es = true → ∀ path v, (path, v) ∈ collectPaths es →
    ∀ s ∈ path, validName s = true
  | [], _, path, v, hm => by
    rw [collectPaths] at hm; exact absurd hm (by simp)
  | (k0, w, d) :: rest, hwf, path, v, hm => by
    rw [WFents_cons] at hwf
    simp only [Bool.and_eq_true] at hwf
    obtain ⟨⟨⟨hk0, hnd⟩, hwfw⟩, hwfrest⟩ := hwf
    rw [collectPaths_cons] at hm
    rcases List.mem_append.mp hm with h | h
    · by_cases hL : isLeafV w = true
      · rw [collectVal_leaf k0 hL] at h
        simp only [List.mem_singleton, Prod.mk.injEq] at h
        obtain ⟨rfl, rfl⟩ := h
        intro s hs
        simp only [List.mem_singleton] at hs
        subst hs
        exact hk0
      · obtain ⟨fr', es', rfl⟩ :=
          eq_vnode_of_not_leaf (Bool.eq_false_iff.mpr hL)
        rw [collectVal_node] at h
        rcases List.mem_map.mp h with ⟨⟨path', v'⟩, hm', heq⟩
        simp only [Prod.mk.injEq] at heq
        obtain ⟨h1, h2⟩ := heq
        subst h1
        subst h2
        intro s hs
        rcases List.mem_cons.mp hs with rfl | hs'
        · exact hk0
        · rw [WFv_node] at hwfw
          exact collect_validnames es' hwfw path' v' hm' s hs'
    · exact collect_validnames rest hwfrest path v h

/-- Every flattened value is a round-trip-safe leaf. -/
theorem collect_leaf_rs : ∀ (es : List (String × Pv × String)),
    roundSafeEnts es = true → ∀ path v, (path, v) ∈ collectPaths es →
    isLeafV v = true ∧ roundSafeV v = true
  | [], _, path, v, hm => by
    rw [collectPaths] at hm; exact absurd hm (by simp)
  | (k0, w, d) :: rest, hrs, path, v, hm => by
    rw [roundSafeEnts_cons] at hrs
    simp only [Bool.and_eq_true] at hrs
    obtain ⟨hrsw, hrsrest⟩ := hrs
    rw [collectPaths_cons] at hm
    rcases List.mem_append.mp hm with h | h
    · by_cases hL : isLeafV w = true
      · rw [collectVal_leaf k0 hL] at h
        simp only [List.mem_singleton, Prod.mk.injEq] at h
        obtain ⟨rfl, rfl⟩ := h
        exact ⟨hL, hrsw⟩
      · obtain ⟨fr', es', rfl⟩ :=
          eq_vnode_of_not_leaf (Bool.eq_false_iff.mpr hL)
        rw [collectVal_node] at h
        rcases List.mem_map.mp h with ⟨⟨path', v'⟩, hm', heq⟩
        simp only [Prod.mk.injEq] at heq
        obtain ⟨h1, h2⟩ := heq
        subst h1
        subst h2
        rw [roundSafeV_node] at hrsw
        simp only [Bool.and_eq_true] at hrsw
        exact collect_leaf_rs es' hrsw.2 path' v' hm'
    · exact collect_leaf_rs rest hrsrest path v h

/-- Resolving a path whose head is not the first entry's key skips that
entry. -/
theorem getPath_skip {k k0 : String} (hne : k ≠ k0) (fr : Bool) (w : Pv)
    (d : String) (rest : List (String × Pv × String)) (t : List String) :
    Params.GetPath ⟨fr, (k, w, d) :: rest⟩ (k0 :: t) =
      Params.GetPath ⟨fr, rest⟩ (k0 :: t) := by
  cases t with
  | nil => rw [getPath_single, getPath_single, lookupEntry_cons_ne hne]
  | cons k2 t' => rw [getPath_cons, getPath_cons, lookupEntry_cons_ne hne]

/-- Setting along a path whose head is not the first entry's key leaves
that entry in place and acts on the rest. -/
theorem setPath_skip {k k0 : String} (hne : k ≠ k0) (fr : Bool) (w : Pv)
    (d : String) (rest : List (String × Pv × String)) (t : List String)
    (v : Pv) :
    Params.SetPath ⟨fr, (k, w, d) :: rest⟩ (k0 :: t) v =
      (Params.SetPath ⟨fr, rest⟩ (k0 :: t) v).map
        (fun q => ⟨q.frozen, (k, w, d) :: q.entries⟩) := by
  cases t with
  | nil =>
    rw [setPath_single, setPath_single]
    show (if fr = true then _ else _) = _
    cases fr with
    | true => rfl
    | false =>
      simp only [if_neg (by simp : ¬false = true)]
      rw [lookupEntry_cons_ne hne]
      cases hlk : lookupEntry k0 rest with
      | none => rfl
      | some vd =>
        simp only [Except.map]
        rw [setEntry_cons_ne hne]
  | cons k2 t' =>
    rw [setPath_cons, setPath_cons]
    show (if fr = true then _ else _) = _
    cases fr with
    | true => rfl
    | false =>
      simp only [if_neg (by simp : ¬false = true)]
      rw [lookupEntry_cons_ne hne]
      cases hlk : lookupEntry k0 rest with
      | none => rfl
      | some vd =>
        obtain ⟨w0, d0⟩ := vd
        cases w0 with
        | vnode fr' es' =>
          show (do let q ← Params.SetPath ⟨fr', es'⟩ (k2 :: t') v
                   Except.ok (⟨false, setEntry k0 q.toV ((k, w, d) :: rest)⟩ :
                     Params)) =
            Except.map (fun q => ⟨q.frozen, (k, w, d) :: q.entries⟩)
              (do let q ← Params.SetPath ⟨fr', es'⟩ (k2 :: t') v
                  Except.ok (⟨false, setEntry k0 q.toV rest⟩ : Params))
          cases hsp : Params.SetPath ⟨fr', es'⟩ (k2 :: t') v with
          | error e => rfl
          | ok q =>
            show (Except.ok (⟨false, setEntry k0 q.toV ((k, w, d) :: rest)⟩ :
                Params) : Except PErr Params) =
              Except.map (fun q2 => (⟨q2.frozen, (k, w, d) :: q2.entries⟩ : Params))
                (Except.ok (⟨false, setEntry k0 q.toV rest⟩ : Params))
            rw [setEntry_cons_ne hne]
            rfl
        | vint n => rfl
        | vfloat lit => rfl
        | vbool b => rfl
        | vstr s2 => rfl
        | vnone => rfl
        | vlist xs => rfl
        | vdict kvs => rfl
        | vopq i => rfl

/-- Setting the value already stored under a flattened path is the
identity; reading it back returns it (the core of the `ToText`/`FromText`
round trip). -/
theorem collect_get_set : ∀ (es : List (String × Pv × String)) (fr : Bool),
    WFents es = true → roundSafeEnts es = true →
    ∀ path v, (path, v) ∈ collectPaths es →
    Params.GetPath ⟨fr, es⟩ path = .ok v ∧
      (fr = false → Params.SetPath ⟨fr, es⟩ path v = .ok ⟨fr, es⟩)
  | [], _, _, _, path, v, hm => by
    rw [collectPaths] at hm; exact absurd hm (by simp)
  | (k0, w, d) :: rest, fr, hwf, hrs, path, v, hm => by
    rw [WFents_cons] at hwf
    simp only [Bool.and_eq_true] at hwf
    obtain ⟨⟨⟨hk0, hnd⟩, hwfw⟩, hwfrest⟩ := hwf
    rw [roundSafeEnts_cons] at hrs
    simp only [Bool.and_eq_true] at hrs
    obtain ⟨hrsw, hrsrest⟩ := hrs
    rw [collectPaths_cons] at hm
    rcases List.mem_append.mp hm with h | h
    · by_cases hL : isLeafV w = true
      · rw [collectVal_leaf k0 hL] at h
        simp only [List.mem_singleton, Prod.mk.injEq] at h
        obtain ⟨rfl, rfl⟩ := h
        constructor
        · rw [getPath_single, lookupEntry_cons_self]
        · intro hfr
          rw [setPath_single, lookupEntry_cons_self]
          rw [setEntry_cons_self]
          simp [hfr]
      · obtain ⟨fr', es', rfl⟩ :=
          eq_vnode_of_not_leaf (Bool.eq_false_iff.mpr hL)
        rw [collectVal_node] at h
        rcases List.mem_map.mp h with ⟨⟨path', v'⟩, hm', heq⟩
        simp only [Prod.mk.injEq] at heq
        obtain ⟨h1, h2⟩ := heq
        subst h1
        subst h2
        rw [WFv_node] at hwfw
        rw [roundSafeV_node] at hrsw
        simp only [Bool.and_eq_true, Bool.not_eq_true'] at hrsw
        obtain ⟨hfr', hrs'⟩ := hrsw
        obtain ⟨k1, path'', rfl, _⟩ := collect_shape es' path' v' hm'
        obtain ⟨hget, hset⟩ := collect_get_set es' fr' hwfw hrs' _ v' hm'
        constructor
        · rw [getPath_cons, lookupEntry_cons_self]
          exact hget
        · intro hfr
          rw [setPath_cons, lookupEntry_cons_self]
          rw [if_neg (by simp [hfr])]
          show (do let q ← Params.SetPath ⟨fr', es'⟩ (k1 :: path'') v'
                   Except.ok (⟨fr, setEntry k0 q.toV
                     ((k0, Pv.vnode fr' es', d) :: rest)⟩ : Params)) =
            Except.ok ⟨fr, (k0, Pv.vnode fr' es', d) :: rest⟩
          rw [hset hfr']
          show Except.ok (⟨fr, setEntry k0 (Params.toV ⟨fr', es'⟩)
              ((k0, Pv.vnode fr' es', d) :: rest)⟩ : Params) =
            Except.ok ⟨fr, (k0, Pv.vnode fr' es', d) :: rest⟩
          rw [show Params.toV ⟨fr', es'⟩ = Pv.vnode fr' es' from rfl]
          rw [setEntry_cons_self]
    · obtain ⟨k1, path', rfl, hk1⟩ := collect_shape rest path v h
      have hne : k0 ≠ k1 := by
        rcases List.mem_map.mp hk1 with ⟨e, he, hke⟩
        intro hkk
        have : rest.any (fun e => e.1 == k0) = true := by
          rw [List.any_eq_true]
          exact ⟨e, he, by rw [hke, ← hkk]; simp⟩
        rw [this] at hnd
        exact Bool.noConfusion hnd
      obtain ⟨hget, hset⟩ := collect_get_set rest fr hwfrest hrsrest _ v h
      constructor
      · rw [getPath_skip hne]
        exact hget
      · intro hfr
        rw [setPath_skip hne]
        rw [hset hfr]
        rfl

/-! ### Character facts for line assembly -/

theorem isDigitC_ne {c : Char} (h : isDigitC c = true) :
    c ≠ '\n' ∧ c ≠ ' ' := by
  constructor <;> intro hc <;> rw [hc] at h <;> exact absurd h (by decide)

theorem validNameChar_ne {c : Char} (h : validNameChar c = true) :
    c ≠ '.' ∧ c ≠ ' ' ∧ c ≠ '\n' := by
  refine ⟨?_, ?_, ?_⟩ <;> intro hc <;> rw [hc] at h <;> exact absurd h (by decide)

theorem lowerChar_validNameChar {c : Char} (h : ('a' ≤ c && c ≤ 'z') = true) :
    validNameChar c = true := by
  rw [validNameChar, h]
  rfl

theorem lowerChar_ne {c : Char} (h : ('a' ≤ c && c ≤ 'z') = true) :
    c ≠ ' ' ∧ c ≠ '#' := by
  constructor <;> intro hc <;> rw [hc] at h <;> exact absurd h (by decide)

theorem validName_shape {s : String} (h : validName s = true) :
    ∃ c cs, s.toList = c :: cs ∧ ('a' ≤ c && c ≤ 'z') = true ∧
      ∀ x ∈ s.toList, validNameChar x = true := by
  rw [validName] at h
  cases hl : s.toList with
  | nil => rw [hl] at h; exact Bool.noConfusion h
  | cons c cs =>
    rw [hl] at h
    have h' : (('a' ≤ c && c ≤ 'z') && cs.all validNameChar) = true := h
    rw [Bool.and_eq_true] at h'
    obtain ⟨h1, h2⟩ := h'
    refine ⟨c, cs, rfl, h1, ?_⟩
    intro x hx
    rcases List.mem_cons.mp hx with rfl | hx'
    · exact lowerChar_validNameChar h1
    · exact List.all_eq_true.mp h2 x hx'

/-- Characters of a joined list come from the separator or a segment. -/
theorem charJoin_mem {c y : Char} : ∀ {xss : List (List Char)},
    y ∈ charJoin c xss → y = c ∨ ∃ xs ∈ xss, y ∈ xs
  | [], h => by rw [charJoin] at h; exact absurd h (by simp)
  | [x], h => by rw [charJoin] at h; exact Or.inr ⟨x, by simp, h⟩
  | x :: x2 :: xs, h => by
    have hj : charJoin c (x :: x2 :: xs) = x ++ c :: charJoin c (x2 :: xs) := rfl
    rw [hj] at h
    rcases List.mem_append.mp h with h' | h'
    · exact Or.inr ⟨x, by simp, h'⟩
    · rcases List.mem_cons.mp h' with rfl | h''
      · exact Or.inl rfl
      · rcases charJoin_mem h'' with h3 | ⟨xs', hxs', hy⟩
        · exact Or.inl h3
        · exact Or.inr ⟨xs', by simp [hxs'], hy⟩

/-- The head of a joined list is the head of its first segment. -/
theorem charJoin_head (c : Char) (x : List Char) (xss : List (List Char))
    (hx : x ≠ []) :
    ∃ a t, x = a :: t ∧ charJoin c (x :: xss) = a :: (t ++ (charJoin c (x :: xss)).drop x.length) := by
  cases x with
  | nil => exact absurd rfl hx
  | cons a t =>
    refine ⟨a, t, rfl, ?_⟩
    cases xss with
    | nil =>
      rw [charJoin]
      simp
    | cons y ys =>
      have hj : charJoin c ((a :: t) :: y :: ys) =
          (a :: t) ++ c :: charJoin c (y :: ys) := rfl
      rw [hj]
      simp

/-- Every line of the text format is newline-free for round-safe leaves. -/
theorem intChars_mem {c : Char} {n : Int} (h : c ∈ intChars n) :
    c = '-' ∨ isDigitC c = true := by
  cases n with
  | ofNat m =>
    rw [intChars] at h
    exact Or.inr (List.all_eq_true.mp (natDigits_all_digits m) c h)
  | negSucc m =>
    rw [intChars] at h
    rcases List.mem_cons.mp h with rfl | h'
    · exact Or.inl rfl
    · exact Or.inr (List.all_eq_true.mp (natDigits_all_digits (m + 1)) c h')

/-- Joining the splits gives back the original list. -/
theorem charJoin_charSplit (c : Char) : ∀ (l : List Char),
    charJoin c (charSplit c l) = l
  | [] => rfl
  | x :: xs => by
    rw [charSplit]
    by_cases hx : x = c
    · rw [if_pos hx]
      cases hcs : charSplit c xs with
      | nil => exact absurd hcs (charSplit_ne_nil c xs)
      | cons seg segs =>
        have hj : charJoin c ([] :: seg :: segs) =
            [] ++ c :: charJoin c (seg :: segs) := rfl
        rw [hj, ← hcs, charJoin_charSplit c xs, hx]
        rfl
    · rw [if_neg hx]
      cases hcs : charSplit c xs with
      | nil => exact absurd hcs (charSplit_ne_nil c xs)
      | cons seg segs =>
        cases segs with
        | nil =>
          have hj : charJoin c [x :: seg] = x :: seg := rfl
          rw [hj]
          have := charJoin_charSplit c xs
          rw [hcs] at this
          have hjs : charJoin c [seg] = seg := rfl
          rw [hjs] at this
          rw [this]
        | cons s2 ss =>
          have hj : charJoin c ((x :: seg) :: s2 :: ss) =
              (x :: seg) ++ c :: charJoin c (s2 :: ss) := rfl
          rw [hj]
          have := charJoin_charSplit c xs
          rw [hcs] at this
          have hjs : charJoin c (seg :: s2 :: ss) =
              seg ++ c :: charJoin c (s2 :: ss) := rfl
          rw [hjs] at this
          simp [this]

theorem wfUFloatLit_mem {l : List Char} (h : wfUFloatLit l = true) :
    ∀ c ∈ l, isDigitC c = true ∨ c = '.' := by
  rw [wfUFloatLit] at h
  intro c hc
  cases hcs : charSplit '.' l with
  | nil => exact absurd hcs (charSplit_ne_nil _ _)
  | cons a segs =>
    rw [hcs] at h
    cases segs with
    | nil => exact absurd h (by simp)
    | cons b segs2 =>
      cases segs2 with
      | nil =>
        simp only [Bool.and_eq_true] at h
        have hl : l = a ++ '.' :: b := by
          have := charJoin_charSplit '.' l
          rw [hcs] at this
          have hj : charJoin '.' [a, b] = a ++ '.' :: b := rfl
          rw [hj] at this
          exact this.symm
        rw [hl] at hc
        rcases List.mem_append.mp hc with h' | h'
        · exact Or.inl (List.all_eq_true.mp h.1.1.2 c h')
        · rcases List.mem_cons.mp h' with rfl | h''
          · exact Or.inr rfl
          · exact Or.inl (List.all_eq_true.mp h.2 c h'')
      | cons s3 ss => exact absurd h (by simp)

theorem wfFloatLit_mem {l : List Char} (h : wfFloatLit l = true) :
    ∀ c ∈ l, isDigitC c = true ∨ c = '.' ∨ c = '-' := by
  intro c hc
  cases l with
  | nil => exact absurd hc (by simp)
  | cons x xs =>
    by_cases hx : x = '-'
    · subst hx
      rw [wfFloatLit] at h
      rcases List.mem_cons.mp hc with rfl | h'
      · exact Or.inr (Or.inr rfl)
      · rcases wfUFloatLit_mem h c h' with h2 | h2
        · exact Or.inl h2
        · exact Or.inr (Or.inl h2)
    · have hw : wfFloatLit (x :: xs) = wfUFloatLit (x :: xs) := by
        rw [wfFloatLit.eq_def]
        split
        · rename_i heq
          exact absurd (List.cons_eq_cons.mp heq).1 hx
        · rfl
      rw [hw] at h
      rcases wfUFloatLit_mem h c hc with h2 | h2
      · exact Or.inl h2
      · exact Or.inr (Or.inl h2)

/-- The decimal rendering of an integer is non-empty. -/
theorem intChars_ne_nil (n : Int) : intChars n ≠ [] := by
  cases n with
  | ofNat m => rw [intChars]; exact natDigits_ne_nil m
  | negSucc m => rw [intChars]; simp

/-- No dot occurs in the decimal rendering of an integer. -/
theorem intChars_no_dot (n : Int) : '.' ∉ intChars n := by
  intro h
  rcases intChars_mem h with h' | h'
  · exact absurd h' (by decide)
  · exact absurd h' (by decide)

/-- A dot-free token is not an unsigned float literal. -/
theorem wfUFloatLit_no_dot {l : List Char} (h : '.' ∉ l) :
    wfUFloatLit l = false := by
  rw [wfUFloatLit, charSplit_no_sep h]

/-- A dot-free token is not a float literal. -/
theorem wfFloatLit_no_dot : ∀ {l : List Char}, '.' ∉ l → wfFloatLit l = false
  | [], _ => rfl
  | c :: cs, h => by
    by_cases hc : c = '-'
    · subst hc
      rw [wfFloatLit]
      exact wfUFloatLit_no_dot (fun hm => h (by simp [hm]))
    · have hw : wfFloatLit (c :: cs) = wfUFloatLit (c :: cs) := by
        rw [wfFloatLit.eq_def]
        split
        · rename_i heq
          exact absurd (List.cons_eq_cons.mp heq).1 hc
        · rfl
      rw [hw]
      exact wfUFloatLit_no_dot h

/-- Explicit equation for the scalar-element parser. -/
theorem parseScalarTok_cons (c : Char) (rest : List Char) :
    parseScalarTok (c :: rest) =
      (if c = '\'' then
        match unescC rest with
        | some cs => some (.vstr (String.mk cs))
        | none => none
      else if c :: rest = "True".toList then some (.vbool true)
      else if c :: rest = "False".toList then some (.vbool false)
      else if c :: rest = "NoneType".toList then some .vnone
      else if wfFloatLit (c :: rest) then
        some (.vfloat (String.mk (c :: rest)))
      else
        match parseIntTok (c :: rest) with
        | some n => some (.vint n)
        | none => none) := rfl

/-- A scalar's rendering parses back as a container element. -/
theorem parse_render_scalar (v : Pv) (hs : scalarSafe v = true) :
    parseScalarTok (renderLeafC v) = some v := by
  cases v with
  | vint n =>
    rw [renderLeafC_vint]
    cases hl : intChars n with
    | nil => exact absurd hl (intChars_ne_nil n)
    | cons c rest =>
      have hc : c ∈ intChars n := by rw [hl]; simp
      have hq : ¬ c = '\'' := by
        intro he
        subst he
        rcases intChars_mem hc with h | h
        · exact absurd h (by decide)
        · exact absurd h (by decide)
      have hT : ¬ (c :: rest = "True".toList) := by
        intro he
        have hm : 'T' ∈ intChars n := by rw [hl, he]; decide
        rcases intChars_mem hm with h | h
        · exact absurd h (by decide)
        · exact absurd h (by decide)
      have hF : ¬ (c :: rest = "False".toList) := by
        intro he
        have hm : 'F' ∈ intChars n := by rw [hl, he]; decide
        rcases intChars_mem hm with h | h
        · exact absurd h (by decide)
        · exact absurd h (by decide)
      have hN : ¬ (c :: rest = "NoneType".toList) := by
        intro he
        have hm : 'N' ∈ intChars n := by rw [hl, he]; decide
        rcases intChars_mem hm with h | h
        · exact absurd h (by decide)
        · exact absurd h (by decide)
      have hfl : ¬ (wfFloatLit (c :: rest) = true) := by
        rw [← hl, wfFloatLit_no_dot (intChars_no_dot n)]
        exact Bool.false_ne_true
      rw [parseScalarTok_cons, if_neg hq, if_neg hT, if_neg hF, if_neg hN,
        if_neg hfl, ← hl, parseIntTok_intChars]
  | vfloat lit =>
    rw [scalarSafe] at hs
    rw [renderLeafC_vfloat]
    cases hl : lit.toList with
    | nil =>
      rw [hl] at hs
      exact absurd hs (by decide)
    | cons c rest =>
      have hc : c ∈ lit.toList := by rw [hl]; simp
      have hfm := wfFloatLit_mem hs
      have hq : ¬ c = '\'' := by
        intro he
        subst he
        rcases hfm _ hc with h | h | h
        · exact absurd h (by decide)
        · exact absurd h (by decide)
        · exact absurd h (by decide)
      have hT : ¬ (c :: rest = "True".toList) := by
        intro he
        have hm : 'T' ∈ lit.toList := by rw [hl, he]; decide
        rcases hfm _ hm with h | h | h
        · exact absurd h (by decide)
        · exact absurd h (by decide)
        · exact absurd h (by decide)
      have hF : ¬ (c :: rest = "False".toList) := by
        intro he
        have hm : 'F' ∈ lit.toList := by rw [hl, he]; decide
        rcases hfm _ hm with h | h | h
        · exact absurd h (by decide)
        · exact absurd h (by decide)
        · exact absurd h (by decide)
      have hN : ¬ (c :: rest = "NoneType".toList) := by
        intro he
        have hm : 'N' ∈ lit.toList := by rw [hl, he]; decide
        rcases hfm _ hm with h | h | h
        · exact absurd h (by decide)
        · exact absurd h (by decide)
        · exact absurd h (by decide)
      have hfl : wfFloatLit (c :: rest) = true := by rw [← hl]; exact hs
      rw [parseScalarTok_cons, if_neg hq, if_neg hT, if_neg hF, if_neg hN,
        if_pos hfl, ← hl, stringMk_toList]
  | vbool b =>
    cases b with
    | true =>
      have h1 : renderLeafC (.vbool true) = "True".toList := by
        rw [renderLeafC_vbool]; rfl
      rw [h1]
      rfl
    | false =>
      have h1 : renderLeafC (.vbool false) = "False".toList := by
        rw [renderLeafC_vbool]; rfl
      rw [h1]
      rfl
  | vstr s =>
    rw [renderLeafC_vstr, parseScalarTok_cons, if_pos rfl, unescC_escC]
    rfl
  | vnone =>
    rw [renderLeafC_vnone]
    rfl
  | vlist xs => rw [scalarSafe] at hs; exact Bool.noConfusion hs
  | vdict kvs => rw [scalarSafe] at hs; exact Bool.noConfusion hs
  | vnode fr es => rw [scalarSafe] at hs; exact Bool.noConfusion hs
  | vopq i => rw [scalarSafe] at hs; exact Bool.noConfusion hs

/-- Dropping leading spaces passes a leading non-space untouched. -/
theorem dropSpace_head {c : Char} (hc : c ≠ ' ') (l : List Char) :
    (c :: l).dropWhile (· = ' ') = c :: l := by
  simp [List.dropWhile_cons, hc]

/-- Dropping leading spaces skips a leading space. -/
theorem dropSpace_space (l : List Char) :
    (' ' :: l).dropWhile (· = ' ') = l.dropWhile (· = ' ') := by
  simp [List.dropWhile_cons]

/-- The rendering of a scalar starts with a non-space character. -/
theorem renderScalar_head (v : Pv) (hs : scalarSafe v = true) :
    ∃ c rest, renderLeafC v = c :: rest ∧ c ≠ ' ' := by
  cases v with
  | vint n =>
    rw [renderLeafC_vint]
    cases hl : intChars n with
    | nil => exact absurd hl (intChars_ne_nil n)
    | cons c rest =>
      refine ⟨c, rest, rfl, ?_⟩
      have hc : c ∈ intChars n := by rw [hl]; simp
      intro he
      subst he
      rcases intChars_mem hc with h | h
      · exact absurd h (by decide)
      · exact absurd h (by decide)
  | vfloat lit =>
    rw [scalarSafe] at hs
    rw [renderLeafC_vfloat]
    cases hl : lit.toList with
    | nil => rw [hl] at hs; exact absurd hs (by decide)
    | cons c rest =>
      refine ⟨c, rest, rfl, ?_⟩
      have hc : c ∈ lit.toList := by rw [hl]; simp
      intro he
      subst he
      rcases wfFloatLit_mem hs _ hc with h | h | h
      · exact absurd h (by decide)
      · exact absurd h (by decide)
      · exact absurd h (by decide)
  | vbool b =>
    cases b with
    | true =>
      refine ⟨'T', "rue".toList, ?_, by decide⟩
      rw [renderLeafC_vbool]
      rfl
    | false =>
      refine ⟨'F', "alse".toList, ?_, by decide⟩
      rw [renderLeafC_vbool]
      rfl
  | vstr s =>
    exact ⟨'\'', escC s.toList ++ ['\''], by rw [renderLeafC_vstr], by decide⟩
  | vnone =>
    refine ⟨'N', "oneType".toList, ?_, by decide⟩
    rw [renderLeafC_vnone]
    rfl
  | vlist xs => rw [scalarSafe] at hs; exact Bool.noConfusion hs
  | vdict kvs => rw [scalarSafe] at hs; exact Bool.noConfusion hs
  | vnode fr es => rw [scalarSafe] at hs; exact Bool.noConfusion hs
  | vopq i => rw [scalarSafe] at hs; exact Bool.noConfusion hs

/-- The rendering of a scalar is non-empty. -/
theorem renderScalar_ne_nil (v : Pv) (hs : scalarSafe v = true) :
    renderLeafC v ≠ [] := by
  obtain ⟨c, rest, heq, -⟩ := renderScalar_head v hs
  rw [heq]
  simp

/-- The rendering of a scalar is unchanged by leading-space stripping. -/
theorem renderScalar_dropSpace (v : Pv) (hs : scalarSafe v = true) :
    (renderLeafC v).dropWhile (· = ' ') = renderLeafC v := by
  obtain ⟨c, rest, heq, hc⟩ := renderScalar_head v hs
  rw [heq, dropSpace_head hc]

/-- A chunk free of the separator and of quotes scans outside-to-outside. -/
theorem scanQ_plain (sep : Char) : ∀ l : List Char,
    (∀ c ∈ l, c ≠ sep ∧ c ≠ '\'') →
    scanQ sep QSt.outside l = some QSt.outside
  | [], _ => by rw [scanQ]
  | c :: rest, h => by
    obtain ⟨h1, h2⟩ := h c (by simp)
    rw [scanQ, if_neg h1, if_neg h2]
    exact scanQ_plain sep rest (fun d hd => h d (by simp [hd]))

/-- Scanning an escaped span from inside a quote ends at the closing
quote. -/
theorem scanQ_escC_close (sep : Char) : ∀ (l rem : List Char),
    scanQ sep QSt.inside (escC l ++ '\'' :: rem) = scanQ sep QSt.outside rem
  | [], rem => by
    show scanQ sep QSt.inside ('\'' :: rem) = scanQ sep QSt.outside rem
    rw [scanQ, if_neg (by decide), if_pos rfl]
  | c :: cs, rem => by
    by_cases hc : c = '\\' ∨ c = '\''
    · rw [escC, if_pos hc]
      simp only [List.cons_append]
      rw [scanQ, if_pos rfl]
      rw [scanQ]
      exact scanQ_escC_close sep cs rem
    · have hc1 : c ≠ '\\' := fun h => hc (Or.inl h)
      have hc2 : c ≠ '\'' := fun h => hc (Or.inr h)
      rw [escC, if_neg hc]
      simp only [List.cons_append]
      rw [scanQ, if_neg hc1, if_neg hc2]
      exact scanQ_escC_close sep cs rem

/-- Rendered scalars scan outside-to-outside for the separators the
format uses (commas inside containers, newlines between lines): a
separator character only ever occurs inside a quoted span. -/
theorem scalarSafe_scan {sep : Char} (hsep : sep = ',' ∨ sep = '\n')
    (v : Pv) (hs : scalarSafe v = true) :
    scanQ sep QSt.outside (renderLeafC v) = some QSt.outside := by
  cases v with
  | vint n =>
    rw [renderLeafC_vint]
    apply scanQ_plain
    intro c hc
    constructor
    · intro he
      subst he
      rcases intChars_mem hc with h | h
      · rcases hsep with rfl | rfl
        · exact absurd h (by decide)
        · exact absurd h (by decide)
      · rcases hsep with rfl | rfl
        · exact absurd h (by decide)
        · exact absurd h (by decide)
    · intro he
      subst he
      rcases intChars_mem hc with h | h
      · exact absurd h (by decide)
      · exact absurd h (by decide)
  | vfloat lit =>
    rw [scalarSafe] at hs
    rw [renderLeafC_vfloat]
    apply scanQ_plain
    intro c hc
    constructor
    · intro he
      subst he
      rcases wfFloatLit_mem hs _ hc with h | h | h
      · rcases hsep with rfl | rfl
        · exact absurd h (by decide)
        · exact absurd h (by decide)
      · rcases hsep with rfl | rfl
        · exact absurd h (by decide)
        · exact absurd h (by decide)
      · rcases hsep with rfl | rfl
        · exact absurd h (by decide)
        · exact absurd h (by decide)
    · intro he
      subst he
      rcases wfFloatLit_mem hs _ hc with h | h | h
      · exact absurd h (by decide)
      · exact absurd h (by decide)
      · exact absurd h (by decide)
  | vbool b =>
    cases b with
    | true =>
      have h1 : renderLeafC (.vbool true) = "True".toList := by
        rw [renderLeafC_vbool]; rfl
      rw [h1]
      apply scanQ_plain
      rcases hsep with rfl | rfl
      · decide
      · decide
    | false =>
      have h1 : renderLeafC (.vbool false) = "False".toList := by
        rw [renderLeafC_vbool]; rfl
      rw [h1]
      apply scanQ_plain
      rcases hsep with rfl | rfl
      · decide
      · decide
  | vstr s =>
    rw [renderLeafC_vstr]
    have hq : ¬ ('\'' = sep) := by
      rcases hsep with rfl | rfl
      · decide
      · decide
    rw [scanQ, if_neg hq, if_pos rfl]
    rw [scanQ_escC_close sep s.toList []]
    rw [scanQ]
  | vnone =>
    rw [renderLeafC_vnone]
    apply scanQ_plain
    rcases hsep with rfl | rfl
    · decide
    · decide
  | vlist xs => rw [scalarSafe] at hs; exact Bool.noConfusion hs
  | vdict kvs => rw [scalarSafe] at hs; exact Bool.noConfusion hs
  | vnode fr es => rw [scalarSafe] at hs; exact Bool.noConfusion hs
  | vopq i => rw [scalarSafe] at hs; exact Bool.noConfusion hs

/-- Explicit equations for the inline sequence renderer. -/
theorem renderElems_nil : renderElems [] = [] := by rw [renderElems]

theorem renderElems_one (x : Pv) : renderElems [x] = renderLeafC x := by
  rw [renderElems, renderElems_nil]
  show renderLeafC x ++ [] ++ [] = renderLeafC x
  rw [List.append_nil, List.append_nil]

theorem renderElems_cons₂ (x y : Pv) (ys : List Pv) :
    renderElems (x :: y :: ys) =
      renderLeafC x ++ (',' :: ' ' :: renderElems (y :: ys)) := by
  rw [renderElems]
  show renderLeafC x ++ [',', ' '] ++ renderElems (y :: ys) =
    renderLeafC x ++ (',' :: ' ' :: renderElems (y :: ys))
  rw [List.append_assoc]
  rfl

/-- The rendering of one inline mapping item. -/
def renderKv (k : String) (v : Pv) : List Char :=
  '\'' :: (escC k.toList ++ '\'' :: ':' :: ' ' :: renderLeafC v)

/-- Explicit equations for the inline mapping renderer. -/
theorem renderKvs_nil : renderKvs [] = [] := by rw [renderKvs]

theorem renderKvs_one (k : String) (v : Pv) :
    renderKvs [(k, v)] = renderKv k v := by
  rw [renderKvs, renderKvs_nil, renderKv]
  show ('\'' :: (escC k.toList ++ ['\'', ':', ' '])) ++ renderLeafC v ++
      [] ++ [] =
    '\'' :: (escC k.toList ++ '\'' :: ':' :: ' ' :: renderLeafC v)
  simp

theorem renderKvs_cons₂ (k : String) (v : Pv) (k2 : String) (v2 : Pv)
    (kvs : List (String × Pv)) :
    renderKvs ((k, v) :: (k2, v2) :: kvs) =
      renderKv k v ++ (',' :: ' ' :: renderKvs ((k2, v2) :: kvs)) := by
  rw [renderKvs, renderKv]
  show ('\'' :: (escC k.toList ++ ['\'', ':', ' '])) ++ renderLeafC v ++
      [',', ' '] ++ renderKvs ((k2, v2) :: kvs) =
    ('\'' :: (escC k.toList ++ '\'' :: ':' :: ' ' :: renderLeafC v)) ++
      (',' :: ' ' :: renderKvs ((k2, v2) :: kvs))
  simp

/-- An inline mapping item scans outside-to-outside. -/
theorem renderKv_scan {sep : Char} (hsep : sep = ',' ∨ sep = '\n')
    (k : String) (v : Pv) (hs : scalarSafe v = true) :
    scanQ sep QSt.outside (renderKv k v) = some QSt.outside := by
  rw [renderKv]
  have hq : ¬ ('\'' = sep) := by
    rcases hsep with rfl | rfl
    · decide
    · decide
  rw [scanQ, if_neg hq, if_pos rfl]
  rw [scanQ_escC_close sep k.toList (':' :: ' ' :: renderLeafC v)]
  have hc1 : ¬ (':' = sep) := by
    rcases hsep with rfl | rfl
    · decide
    · decide
  rw [scanQ, if_neg hc1, if_neg (by decide)]
  have hc2 : ¬ (' ' = sep) := by
    rcases hsep with rfl | rfl
    · decide
    · decide
  rw [scanQ, if_neg hc2, if_neg (by decide)]
  exact scalarSafe_scan hsep v hs

/-- Sequence elements scan outside-to-outside on the newline separator. -/
theorem renderElems_scan : ∀ xs : List Pv, xs.all scalarSafe = true →
    scanQ '\n' QSt.outside (renderElems xs) = some QSt.outside
  | [], _ => by rw [renderElems_nil, scanQ]
  | [x], hall => by
    rw [List.all_cons, Bool.and_eq_true] at hall
    rw [renderElems_one]
    exact scalarSafe_scan (Or.inr rfl) x hall.1
  | x :: y :: ys, hall => by
    rw [List.all_cons, Bool.and_eq_true] at hall
    rw [renderElems_cons₂]
    rw [scanQ_append '\n' (renderLeafC x) QSt.outside QSt.outside
      (',' :: ' ' :: renderElems (y :: ys))
      (scalarSafe_scan (Or.inr rfl) x hall.1)]
    rw [scanQ, if_neg (by decide), if_neg (by decide)]
    rw [scanQ, if_neg (by decide), if_neg (by decide)]
    exact renderElems_scan (y :: ys) hall.2

/-- Mapping items scan outside-to-outside on the newline separator. -/
theorem renderKvs_scan : ∀ kvs : List (String × Pv),
    kvs.all (fun kv => scalarSafe kv.2) = true →
    scanQ '\n' QSt.outside (renderKvs kvs) = some QSt.outside
  | [], _ => by rw [renderKvs_nil, scanQ]
  | [(k, v)], hall => by
    rw [List.all_cons, Bool.and_eq_true] at hall
    rw [renderKvs_one]
    exact renderKv_scan (Or.inr rfl) k v hall.1
  | (k, v) :: (k2, v2) :: kvs, hall => by
    rw [List.all_cons, Bool.and_eq_true] at hall
    rw [renderKvs_cons₂]
    rw [scanQ_append '\n' (renderKv k v) QSt.outside QSt.outside
      (',' :: ' ' :: renderKvs ((k2, v2) :: kvs))
      (renderKv_scan (Or.inr rfl) k v hall.1)]
    rw [scanQ, if_neg (by decide), if_neg (by decide)]
    rw [scanQ, if_neg (by decide), if_neg (by decide)]
    exact renderKvs_scan ((k2, v2) :: kvs) hall.2

/-- Explicit equations for the container renderings. -/
theorem renderLeafC_vlist (xs : List Pv) :
    renderLeafC (.vlist xs) = '[' :: (renderElems xs ++ [']']) := by
  rw [renderLeafC]

theorem renderLeafC_vdict (kvs : List (String × Pv)) :
    renderLeafC (.vdict kvs) = lbraceC :: (renderKvs kvs ++ [rbraceC]) := by
  rw [renderLeafC]

/-- Every line value of the text format scans outside-to-outside: a
newline occurs at most inside a quoted span, where the splitter keeps
it literal. -/
theorem renderLeaf_scan (v : Pv) (hleaf : isLeafV v = true)
    (hrs : roundSafeV v = true) :
    scanQ '\n' QSt.outside (renderLeafC v) = some QSt.outside := by
  cases v with
  | vint n => exact scalarSafe_scan (Or.inr rfl) _ rfl
  | vfloat lit =>
    rw [roundSafeV] at hrs
    exact scalarSafe_scan (Or.inr rfl) (.vfloat lit) hrs
  | vbool b => exact scalarSafe_scan (Or.inr rfl) _ rfl
  | vstr s => exact scalarSafe_scan (Or.inr rfl) _ rfl
  | vnone => exact scalarSafe_scan (Or.inr rfl) _ rfl
  | vlist xs =>
    rw [roundSafeV] at hrs
    rw [renderLeafC_vlist]
    rw [scanQ, if_neg (by decide), if_neg (by decide)]
    rw [scanQ_append '\n' (renderElems xs) QSt.outside QSt.outside [']']
      (renderElems_scan xs hrs)]
    rw [scanQ, if_neg (by decide), if_neg (by decide), scanQ]
  | vdict kvs =>
    rw [roundSafeV] at hrs
    rw [renderLeafC_vdict]
    rw [scanQ, if_neg (by decide), if_neg (by decide)]
    rw [scanQ_append '\n' (renderKvs kvs) QSt.outside QSt.outside [rbraceC]
      (renderKvs_scan kvs hrs)]
    rw [scanQ, if_neg (by decide), if_neg (by decide), scanQ]
  | vnode fr es => rw [isLeafV] at hleaf; exact Bool.noConfusion hleaf
  | vopq i => rw [roundSafeV] at hrs; exact Bool.noConfusion hrs

/-- Comma-splitting the rendering of a non-empty element list yields one
chunk per element. -/
theorem splitElems_render : ∀ (x : Pv) (xs : List Pv), scalarSafe x = true →
    xs.all scalarSafe = true → ∀ acc : List Char,
    splitSepQ ',' (renderElems (x :: xs)) QSt.outside acc =
      (acc.reverse ++ renderLeafC x) ::
        xs.map (fun y => ' ' :: renderLeafC y)
  | x, [], hx, _, acc => by
    rw [renderElems_one]
    rw [splitSepQ_whole ',' (renderLeafC x) QSt.outside QSt.outside acc
      (scalarSafe_scan (Or.inl rfl) x hx)]
    rfl
  | x, y :: ys, hx, hall, acc => by
    rw [List.all_cons, Bool.and_eq_true] at hall
    rw [renderElems_cons₂]
    rw [splitSepQ_chunk ',' (renderLeafC x) QSt.outside QSt.outside acc
      (',' :: ' ' :: renderElems (y :: ys))
      (scalarSafe_scan (Or.inl rfl) x hx)]
    rw [splitSepQ, if_pos rfl]
    rw [splitSepQ, if_neg (by decide), if_neg (by decide)]
    rw [splitElems_render y ys hall.1 hall.2 [' ']]
    rw [List.reverse_append, List.reverse_reverse]
    rfl

/-- Comma-splitting the rendering of a non-empty item list yields one
chunk per item. -/
theorem splitItems_render : ∀ (k : String) (v : Pv)
    (kvs : List (String × Pv)), scalarSafe v = true →
    kvs.all (fun kv => scalarSafe kv.2) = true → ∀ acc : List Char,
    splitSepQ ',' (renderKvs ((k, v) :: kvs)) QSt.outside acc =
      (acc.reverse ++ renderKv k v) ::
        kvs.map (fun kv => ' ' :: renderKv kv.1 kv.2)
  | k, v, [], hv, _, acc => by
    rw [renderKvs_one]
    rw [splitSepQ_whole ',' (renderKv k v) QSt.outside QSt.outside acc
      (renderKv_scan (Or.inl rfl) k v hv)]
    rfl
  | k, v, (k2, v2) :: kvs, hv, hall, acc => by
    rw [List.all_cons, Bool.and_eq_true] at hall
    rw [renderKvs_cons₂]
    rw [splitSepQ_chunk ',' (renderKv k v) QSt.outside QSt.outside acc
      (',' :: ' ' :: renderKvs ((k2, v2) :: kvs))
      (renderKv_scan (Or.inl rfl) k v hv)]
    rw [splitSepQ, if_pos rfl]
    rw [splitSepQ, if_neg (by decide), if_neg (by decide)]
    rw [splitItems_render k2 v2 kvs hall.1 hall.2 [' ']]
    rw [List.reverse_append, List.reverse_reverse]
    rfl

/-- Parsing the space-prefixed rendered elements of a sequence. -/
theorem parseElems_map : ∀ xs : List Pv, xs.all scalarSafe = true →
    parseElems (xs.map (fun y => ' ' :: renderLeafC y)) = some xs
  | [], _ => rfl
  | y :: ys, hall => by
    rw [List.all_cons, Bool.and_eq_true] at hall
    rw [List.map_cons]
    show parseElems ((' ' :: renderLeafC y) ::
      ys.map (fun z => ' ' :: renderLeafC z)) = some (y :: ys)
    rw [parseElems, dropSpace_space, renderScalar_dropSpace y hall.1,
      parse_render_scalar y hall.1, parseElems_map ys hall.2]

/-- Parsing the rendered elements of a sequence, head chunk unspaced. -/
theorem parseElems_render (x : Pv) (xs : List Pv) (hx : scalarSafe x = true)
    (hxs : xs.all scalarSafe = true) :
    parseElems (renderLeafC x :: xs.map (fun y => ' ' :: renderLeafC y)) =
      some (x :: xs) := by
  rw [parseElems, renderScalar_dropSpace x hx, parse_render_scalar x hx,
    parseElems_map xs hxs]

/-- The last element of a list extended by one element. -/
theorem getLast_app_single (l : List Char) (a : Char) :
    (l ++ [a]).getLast? = some a := by simp

/-- Dropping the last element of a list extended by one element. -/
theorem dropLast_app_single (l : List Char) (a : Char) :
    (l ++ [a]).dropLast = l := by simp

/-- The bracket-stripping step of the sequence parser. -/
theorem parseListTok_bracket (inner : List Char) :
    parseListTok ('[' :: (inner ++ [']'])) =
      (if inner = [] then some []
       else parseElems (splitSepQ ',' inner QSt.outside [])) := by
  rw [parseListTok, if_pos rfl, getLast_app_single]
  show (if (inner ++ [']']).dropLast = [] then some []
      else parseElems (splitSepQ ','
        ((inner ++ [']']).dropLast) QSt.outside [])) =
    (if inner = [] then some []
     else parseElems (splitSepQ ',' inner QSt.outside []))
  rw [dropLast_app_single]

/-- A scalar sequence parses back from its inline rendering. -/
theorem parse_render_list (xs : List Pv) (hall : xs.all scalarSafe = true) :
    parseListTok (renderLeafC (.vlist xs)) = some xs := by
  rw [renderLeafC_vlist, parseListTok_bracket]
  cases xs with
  | nil => rw [renderElems_nil, if_pos rfl]
  | cons x xs2 =>
    rw [List.all_cons, Bool.and_eq_true] at hall
    have hne : renderElems (x :: xs2) ≠ [] := by
      cases xs2 with
      | nil =>
        rw [renderElems_one]
        exact renderScalar_ne_nil x hall.1
      | cons y ys =>
        rw [renderElems_cons₂]
        obtain ⟨c, rest, heq, -⟩ := renderScalar_head x hall.1
        rw [heq]
        simp
    rw [if_neg hne]
    rw [splitElems_render x xs2 hall.1 hall.2 []]
    show parseElems (renderLeafC x ::
      xs2.map (fun y => ' ' :: renderLeafC y)) = some (x :: xs2)
    exact parseElems_render x xs2 hall.1 hall.2

/-- An inline mapping item is unchanged by leading-space stripping. -/
theorem renderKv_dropSpace (k : String) (v : Pv) :
    (renderKv k v).dropWhile (· = ' ') = renderKv k v := by
  rw [renderKv]
  exact dropSpace_head (by decide) _

/-- An inline mapping item parses back to its key/value pair. -/
theorem parseDictItem_render (k : String) (v : Pv)
    (hv : scalarSafe v = true) :
    parseDictItem (renderKv k v) = some (k, v) := by
  rw [renderKv, parseDictItem, if_pos rfl,
    splitQuoted_escC k.toList (':' :: ' ' :: renderLeafC v)]
  show (parseScalarTok (renderLeafC v)).map
    (fun w => (String.mk k.toList, w)) = some (k, v)
  rw [parse_render_scalar v hv]
  rfl

/-- Parsing the space-prefixed rendered items of a mapping. -/
theorem parseItemsD_map : ∀ kvs : List (String × Pv),
    kvs.all (fun kv => scalarSafe kv.2) = true →
    parseItemsD (kvs.map (fun kv => ' ' :: renderKv kv.1 kv.2)) = some kvs
  | [], _ => rfl
  | (k, v) :: kvs, hall => by
    rw [List.all_cons, Bool.and_eq_true] at hall
    rw [List.map_cons]
    show parseItemsD ((' ' :: renderKv k v) ::
      kvs.map (fun kv => ' ' :: renderKv kv.1 kv.2)) = some ((k, v) :: kvs)
    rw [parseItemsD, dropSpace_space, renderKv_dropSpace,
      parseDictItem_render k v hall.1, parseItemsD_map kvs hall.2]

/-- Parsing the rendered items of a mapping, head chunk unspaced. -/
theorem parseItemsD_render (k : String) (v : Pv)
    (kvs : List (String × Pv)) (hv : scalarSafe v = true)
    (hkvs : kvs.all (fun kv => scalarSafe kv.2) = true) :
    parseItemsD (renderKv k v ::
      kvs.map (fun kv => ' ' :: renderKv kv.1 kv.2)) =
      some ((k, v) :: kvs) := by
  rw [parseItemsD, renderKv_dropSpace, parseDictItem_render k v hv,
    parseItemsD_map kvs hkvs]

/-- The brace-stripping step of the mapping parser. -/
theorem parseDictTok_brace (inner : List Char) :
    parseDictTok (lbraceC :: (inner ++ [rbraceC])) =
      (if inner = [] then some []
       else parseItemsD (splitSepQ ',' inner QSt.outside [])) := by
  rw [parseDictTok, if_pos rfl, getLast_app_single]
  show (if (inner ++ [rbraceC]).dropLast = [] then some []
      else parseItemsD (splitSepQ ','
        ((inner ++ [rbraceC]).dropLast) QSt.outside [])) =
    (if inner = [] then some []
     else parseItemsD (splitSepQ ',' inner QSt.outside []))
  rw [dropLast_app_single]

/-- A scalar mapping parses back from its inline rendering. -/
theorem parse_render_dict (kvs : List (String × Pv))
    (hall : kvs.all (fun kv => scalarSafe kv.2) = true) :
    parseDictTok (renderLeafC (.vdict kvs)) = some kvs := by
  rw [renderLeafC_vdict, parseDictTok_brace]
  cases kvs with
  | nil => rw [renderKvs_nil, if_pos rfl]
  | cons kv kvs2 =>
    obtain ⟨k, v⟩ := kv
    rw [List.all_cons, Bool.and_eq_true] at hall
    have hne : renderKvs ((k, v) :: kvs2) ≠ [] := by
      cases kvs2 with
      | nil =>
        rw [renderKvs_one, renderKv]
        simp
      | cons kv2 kvs3 =>
        obtain ⟨k2, v2⟩ := kv2
        rw [renderKvs_cons₂, renderKv]
        simp
    rw [if_neg hne]
    rw [splitItems_render k v kvs2 hall.1 hall.2 []]
    show parseItemsD (renderKv k v ::
      kvs2.map (fun kv => ' ' :: renderKv kv.1 kv.2)) = some ((k, v) :: kvs2)
    exact parseItemsD_render k v kvs2 hall.1 hall.2

/-- Leaf-level round trip: a round-trip-safe leaf parses back from its
rendering at its own type tag. -/
theorem parse_render_leaf (v : Pv) (hleaf : isLeafV v = true)
    (hrs : roundSafeV v = true) :
    parseByTag (typeTag v) (renderLeafC v) = .ok v := by
  cases v with
  | vint n =>
    rw [renderLeafC_vint, typeTag, parseByTag]
    rw [if_pos rfl, parseIntTok_intChars]
  | vfloat lit =>
    rw [renderLeafC_vfloat, typeTag, parseByTag]
    rw [if_neg (by decide), if_pos rfl]
    rw [roundSafeV] at hrs
    rw [if_pos hrs, stringMk_toList]
  | vbool b =>
    cases b with
    | true =>
      have h1 : renderLeafC (.vbool true) = "True".toList := by
        rw [renderLeafC_vbool]; rfl
      rw [h1, typeTag, parseByTag]
      rw [if_neg (by decide), if_neg (by decide), if_pos rfl]
      rfl
    | false =>
      have h1 : renderLeafC (.vbool false) = "False".toList := by
        rw [renderLeafC_vbool]; rfl
      rw [h1, typeTag, parseByTag]
      rw [if_neg (by decide), if_neg (by decide), if_pos rfl]
      rfl
  | vstr s =>
    rw [renderLeafC_vstr, typeTag, parseByTag]
    rw [if_neg (by decide), if_neg (by decide), if_neg (by decide), if_pos rfl]
    rw [parseStrTok_quoted, unescC_escC]
    rfl
  | vnone =>
    rw [renderLeafC_vnone, typeTag, parseByTag]
    rw [if_neg (by decide), if_neg (by decide), if_neg (by decide),
      if_neg (by decide), if_pos rfl]
    rw [if_pos rfl]
  | vlist xs =>
    rw [roundSafeV] at hrs
    rw [typeTag, parseByTag]
    rw [if_neg (by decide), if_neg (by decide), if_neg (by decide),
      if_neg (by decide), if_neg (by decide), if_pos rfl]
    rw [parse_render_list xs hrs]
  | vdict kvs =>
    rw [roundSafeV] at hrs
    rw [typeTag, parseByTag]
    rw [if_neg (by decide), if_neg (by decide), if_neg (by decide),
      if_neg (by decide), if_neg (by decide), if_neg (by decide), if_pos rfl]
    rw [parse_render_dict kvs hrs]
  | vnode fr es => rw [isLeafV] at hleaf; exact Bool.noConfusion hleaf
  | vopq i => rw [roundSafeV] at hrs; exact Bool.noConfusion hrs

/-- The dotted key of a flattened path scans outside-to-outside: none
of its characters is a newline or a quote. -/
theorem joinDots_scan (path : List String)
    (hval : ∀ s ∈ path, validName s = true) :
    scanQ '\n' QSt.outside (joinDots path) = some QSt.outside := by
  apply scanQ_plain
  intro c hc
  rw [joinDots] at hc
  rcases charJoin_mem hc with h | ⟨xs, hxs, hy⟩
  · subst h
    exact ⟨by decide, by decide⟩
  · rcases List.mem_map.mp hxs with ⟨s, hs, rfl⟩
    obtain ⟨-, -, -, -, hall⟩ := validName_shape (hval s hs)
    have hvc := hall c hy
    constructor
    · intro he
      rw [he] at hvc
      exact absurd hvc (by decide)
    · intro he
      rw [he] at hvc
      exact absurd hvc (by decide)

theorem charJoin_cons_head (c a : Char) (t : List Char)
    (xss : List (List Char)) :
    ∃ t2, charJoin c ((a :: t) :: xss) = a :: t2 := by
  cases xss with
  | nil => exact ⟨t, rfl⟩
  | cons y ys => exact ⟨t ++ c :: charJoin c (y :: ys), rfl⟩

theorem sepHead_eq (v : List Char) : sepHead (':' :: ' ' :: v) = some v := rfl

theorem splitKeyVal_append : ∀ (k : List Char), ' ' ∉ k → ∀ v,
    splitKeyVal (k ++ ' ' :: ':' :: ' ' :: v) = some (k, v)
  | [], _, v => by
    show splitKeyVal (' ' :: ':' :: ' ' :: v) = some ([], v)
    rw [splitKeyVal, if_pos rfl, sepHead_eq]
    rfl
  | c :: k', hk, v => by
    have hc : c ≠ ' ' := fun h => hk (by simp [h])
    show splitKeyVal (c :: (k' ++ ' ' :: ':' :: ' ' :: v)) = some (c :: k', v)
    rw [splitKeyVal, if_neg hc,
      splitKeyVal_append k' (fun h => hk (by simp [h])) v]
    rfl

/-- The dotted key of a flattened path has no space and no newline, and
starts with a lowercase letter. -/
theorem joinDots_no (path : List String)
    (hval : ∀ s ∈ path, validName s = true) :
    ' ' ∉ joinDots path ∧ '\n' ∉ joinDots path ∧ '#' ∉ joinDots path := by
  have key : ∀ y : Char, y ∈ joinDots path →
      y = '.' ∨ ∃ s ∈ path, y ∈ s.toList := by
    intro y hmem
    rw [joinDots] at hmem
    rcases charJoin_mem hmem with h | ⟨xs, hxs, hy⟩
    · exact Or.inl h
    · rcases List.mem_map.mp hxs with ⟨s, hs, rfl⟩
      exact Or.inr ⟨s, hs, hy⟩
  refine ⟨?_, ?_, ?_⟩ <;> intro hmem
  · rcases key _ hmem with h | ⟨s, hs, hy⟩
    · exact absurd h (by decide)
    · obtain ⟨-, -, -, -, hall⟩ := validName_shape (hval s hs)
      exact absurd (hall ' ' hy) (by decide)
  · rcases key _ hmem with h | ⟨s, hs, hy⟩
    · exact absurd h (by decide)
    · obtain ⟨-, -, -, -, hall⟩ := validName_shape (hval s hs)
      exact absurd (hall '\n' hy) (by decide)
  · rcases key _ hmem with h | ⟨s, hs, hy⟩
    · exact absurd h (by decide)
    · obtain ⟨-, -, -, -, hall⟩ := validName_shape (hval s hs)
      exact absurd (hall '#' hy) (by decide)

/-- Splitting the dotted key recovers the path segments. -/
theorem splitDots_joinDots (path : List String) (hne : path ≠ [])
    (hval : ∀ s ∈ path, validName s = true) :
    (charSplit '.' (joinDots path)).map String.mk = path := by
  rw [joinDots]
  rw [charSplit_charJoin '.' (path.map String.toList)
    (by intro h; exact hne (List.map_eq_nil_iff.mp h))
    (by
      intro xs hxs hdot
      rcases List.mem_map.mp hxs with ⟨s, hs, rfl⟩
      obtain ⟨-, -, -, -, hall⟩ := validName_shape (hval s hs)
      exact absurd (hall '.' hdot) (by decide))]
  rw [List.map_map]
  have hid : String.mk ∘ String.toList = id := funext stringMk_toList
  rw [hid, List.map_id]

/-- Folding `parseLineP` over lines that each leave the node unchanged
leaves the node unchanged. -/
theorem fromLines_const (ov : List (String × String)) (p : Params) :
    ∀ (ls : List (List Char)), (∀ l ∈ ls, parseLineP ov p l = .ok p) →
    fromLines ov p ls = .ok p
  | [], _ => rfl
  | l :: ls, h => by
    rw [fromLines]
    rw [h l (by simp)]
    show fromLines ov p ls = .ok p
    exact fromLines_const ov p ls (fun l' hl' => h l' (by simp [hl']))

/-- One rendered line of `ToText` parses back to the same node. -/
theorem parseLine_roundtrip (es : List (String × Pv × String))
    (hwf : WFents es = true) (hrs : roundSafeEnts es = true)
    (path : List String) (v : Pv) (hm : (path, v) ∈ collectPaths es) :
    parseLineP [] ⟨false, es⟩ (joinDots path ++ sepChars ++ renderLeafC v) =
      .ok ⟨false, es⟩ := by
  obtain ⟨k1, path', hpe, -⟩ := collect_shape es path v hm
  have hval := collect_validnames es hwf _ v hm
  have hnempty : path ≠ [] := by rw [hpe]; simp
  obtain ⟨hspc, hnl, hhash⟩ := joinDots_no path hval
  have hv1 : validName k1 = true := hval k1 (by rw [hpe]; simp)
  obtain ⟨c, cs, hk1, hlow, -⟩ := validName_shape hv1
  have hjd : ∃ t2, joinDots path = c :: t2 := by
    rw [hpe, joinDots, List.map_cons, hk1]
    exact charJoin_cons_head '.' c cs _
  obtain ⟨t2, hjd⟩ := hjd
  have hline : joinDots path ++ sepChars ++ renderLeafC v =
      c :: (t2 ++ (' ' :: ':' :: ' ' :: renderLeafC v)) := by
    rw [hjd]
    show (c :: t2) ++ sepChars ++ renderLeafC v = _
    simp [sepChars]
  have hsplit : splitKeyVal (c :: (t2 ++ (' ' :: ':' :: ' ' :: renderLeafC v))) =
      some (joinDots path, renderLeafC v) := by
    have h2 : c :: (t2 ++ (' ' :: ':' :: ' ' :: renderLeafC v)) =
        joinDots path ++ ' ' :: ':' :: ' ' :: renderLeafC v := by
      rw [hjd]; simp
    rw [h2]
    exact splitKeyVal_append (joinDots path) hspc (renderLeafC v)
  have hcs : ¬ (c = ' ') := (lowerChar_ne hlow).1
  have hch : ¬ (c = '#') := (lowerChar_ne hlow).2
  obtain ⟨hget, hset⟩ := collect_get_set es false hwf hrs path v hm
  obtain ⟨hleaf, hrsv⟩ := collect_leaf_rs es hrs path v hm
  have hparse := parse_render_leaf v hleaf hrsv
  rw [hline, parseLineP]
  have hdw : (c :: (t2 ++ (' ' :: ':' :: ' ' :: renderLeafC v))).dropWhile
      (· = ' ') = c :: (t2 ++ (' ' :: ':' :: ' ' :: renderLeafC v)) := by
    rw [List.dropWhile_cons]
    simp [hcs]
  rw [hdw]
  show (if c = '#' then Except.ok ⟨false, es⟩
    else match splitKeyVal (c :: (t2 ++ (' ' :: ':' :: ' ' :: renderLeafC v))) with
      | none => .error (.parseFail _)
      | some (key, tok) =>
        match lookupStr (String.mk key) [] with
        | some tag => do
          let w ← parseByTag tag tok
          Params.SetPath ⟨false, es⟩ ((charSplit '.' key).map String.mk) w
        | none => do
          let old ← Params.GetPath ⟨false, es⟩ ((charSplit '.' key).map String.mk)
          let w ← parseByTag (typeTag old) tok
          Params.SetPath ⟨false, es⟩ ((charSplit '.' key).map String.mk) w) =
    Except.ok ⟨false, es⟩
  rw [if_neg hch, hsplit]
  show (do
    let old ← Params.GetPath ⟨false, es⟩
      ((charSplit '.' (joinDots path)).map String.mk)
    let w ← parseByTag (typeTag old) (renderLeafC v)
    Params.SetPath ⟨false, es⟩
      ((charSplit '.' (joinDots path)).map String.mk) w) =
    Except.ok ⟨false, es⟩
  rw [splitDots_joinDots path hnempty hval]
  rw [hget]
  show (do
    let w ← parseByTag (typeTag v) (renderLeafC v)
    Params.SetPath ⟨false, es⟩ path w) = Except.ok ⟨false, es⟩
  rw [hparse]
  show Params.SetPath ⟨false, es⟩ path v = Except.ok ⟨false, es⟩
  exact hset rfl

theorem parseLineP_nil (ov : List (String × String)) (p : Params) :
    parseLineP ov p [] = .ok p := rfl

/-- Membership in the sorted leaf lines comes from a flattened leaf. -/
theorem toTextPairs_mem {fr : Bool} {es : List (String × Pv × String)}
    {key : String} {rv : List Char}
    (h : (key, rv) ∈ Params.toTextPairs ⟨fr, es⟩) :
    ∃ path v, (path, v) ∈ collectPaths es ∧
      key = String.mk (joinDots path) ∧ rv = renderLeafC v := by
  rw [Params.toTextPairs] at h
  have h2 := (List.perm_insertionSort (@keyLe (List Char)) _).mem_iff.mp h
  rcases List.mem_map.mp h2 with ⟨⟨path, v⟩, hm, heq⟩
  simp only [Prod.mk.injEq] at heq
  exact ⟨path, v, hm, heq.1.symm, heq.2.symm⟩

/-- `ToText` followed by `FromText` (no type overrides) is the identity on
well-formed, round-trip-safe nodes. -/
theorem fromText_toText (p : Params) (hwf : p.WF = true)
    (hrs : p.roundSafe = true) :
    p.FromText p.ToText [] = .ok p := by
  obtain ⟨fr, es⟩ := p
  have hwf' : WFents es = true := hwf
  have hrs0 : (!fr && roundSafeEnts es) = true := hrs
  rw [Bool.and_eq_true, Bool.not_eq_true'] at hrs0
  obtain ⟨hfr, hrs'⟩ := hrs0
  subst hfr
  show Params.FromText ⟨false, es⟩ (Params.ToText ⟨false, es⟩) [] =
    .ok ⟨false, es⟩
  rw [Params.FromText, Params.ToText, toList_stringMk, Params.toTextL]
  have hok : ∀ l ∈ (Params.toTextPairs ⟨false, es⟩).map
      (fun kv => kv.1.toList ++ sepChars ++ kv.2),
      scanQ '\n' QSt.outside l = some QSt.outside := by
    intro l hl
    rcases List.mem_map.mp hl with ⟨⟨key, rv⟩, hkv, rfl⟩
    obtain ⟨path, v, hm, rfl, rfl⟩ := toTextPairs_mem hkv
    have hval := collect_validnames es hwf' _ v hm
    obtain ⟨hleaf, hrsv⟩ := collect_leaf_rs es hrs' _ v hm
    have hkey : scanQ '\n' QSt.outside (String.mk (joinDots path)).toList =
        some QSt.outside := by
      rw [toList_stringMk]
      exact joinDots_scan path hval
    have hpre : scanQ '\n' QSt.outside
        ((String.mk (joinDots path)).toList ++ sepChars) =
        some QSt.outside := by
      rw [scanQ_append '\n' (String.mk (joinDots path)).toList QSt.outside
        QSt.outside sepChars hkey]
      exact scanQ_plain '\n' sepChars (by decide)
    rw [scanQ_append '\n' ((String.mk (joinDots path)).toList ++ sepChars)
      QSt.outside QSt.outside (renderLeafC v) hpre]
    exact renderLeaf_scan v hleaf hrsv
  rw [splitSepQ_joinLines _ hok]
  apply fromLines_const
  intro l hl
  rcases List.mem_append.mp hl with h1 | h1
  · rcases List.mem_map.mp h1 with ⟨⟨key, rv⟩, hkv, rfl⟩
    obtain ⟨path, v, hm, rfl, rfl⟩ := toTextPairs_mem hkv
    rw [toList_stringMk]
    exact parseLine_roundtrip es hwf' hrs' path v hm
  · simp only [List.mem_singleton] at h1
    subst h1
    exact parseLineP_nil [] _

/-! ### Structural diff (`TextDiff`) -/

/-- Raw rendering used by diff lines (strings are printed unquoted). -/
def diffRender : Pv → List Char
  | .vstr s => s.toList
  | v => renderLeafC v

/-- Match a pair of nested nodes. -/
def bothNodes : Pv → Pv →
    Option ((Bool × List (String × Pv × String)) ×
      (Bool × List (String × Pv × String)))
  | .vnode fa ea, .vnode fb eb => some ((fa, ea), (fb, eb))
  | _, _ => none

/-- A `>` diff line (this node's value). -/
def gtLine (ind : List Char) (k : String) (a : Pv) : List Char :=
  '>' :: ' ' :: (ind ++ k.toList ++ ':' :: ' ' :: diffRender a ++ ['\n'])

/-- A `<` diff line (the other node's value). -/
def ltLine (ind : List Char) (k : String) (b : Pv) : List Char :=
  '<' :: ' ' :: (ind ++ k.toList ++ ':' :: ' ' :: diffRender b ++ ['\n'])

/-- The keys walked by the diff: union of both nodes' names, in the
serialization's sorted order. -/
def sortedKeys (p q : Params) : List String :=
  List.insertionSort (· ≤ ·)
    (p.names ++ q.names.filter (fun k => !(p.names.contains k)))

mutual

/-- Modelled from the spec: line-oriented diff of two nodes (§4.1
`TextDiff`): walk the union of keys in sorted order; equal values produce
no output; differing leaves produce a `>`/`<` pair; differing nested nodes
produce a `? key:` grouping line followed by the indented recursive diff.
The fuel argument bounds the nesting depth. -/
def textDiffGo : Nat → List Char → Params → Params → List Char
  | 0, _, _, _ => []
  | fuel + 1, ind, p, q =>
    (sortedKeys p q).foldr (fun k acc => diffKey fuel ind p q k ++ acc) []

/-- The diff contribution of one key. -/
def diffKey (fuel : Nat) (ind : List Char) (p q : Params) (k : String) :
    List Char :=
  match lookupEntry k p.entries, lookupEntry k q.entries with
  | some (a, _), some (b, _) =>
    if Pv.beq a b then []
    else
      match bothNodes a b with
      | some ((fa, ea), (fb, eb)) =>
        '?' :: ' ' :: (ind ++ k.toList ++ [':', '\n']) ++
          textDiffGo fuel (ind ++ [' ', ' ']) ⟨fa, ea⟩ ⟨fb, eb⟩
      | none => gtLine ind k a ++ ltLine ind k b
  | some (a, _), none => gtLine ind k a
  | none, some (b, _) => ltLine ind k b
  | none, none => []

end

mutual

/-- Executable size of a value, used as the diff's depth bound. -/
def pvSize : Pv → Nat
  | .vnode _ es => 1 + entsSize es
  | .vlist xs => 1 + pvListSize xs
  | .vdict kvs => 1 + pvDictSize kvs
  | .vint _ => 1
  | .vfloat _ => 1
  | .vbool _ => 1
  | .vstr _ => 1
  | .vnone => 1
  | .vopq _ => 1

/-- Size of an entry list. -/
def entsSize : List (String × Pv × String) → Nat
  | [] => 0
  | (_, v, _) :: rest => pvSize v + entsSize rest

/-- Size of a value list. -/
def pvListSize : List Pv → Nat
  | [] => 0
  | x :: xs => pvSize x + pvListSize xs

/-- Size of a mapping. -/
def pvDictSize : List (String × Pv) → Nat
  | [] => 0
  | (_, v) :: kvs => pvSize v + pvDictSize kvs

end

theorem pvSize_pos (v : Pv) : 1 ≤ pvSize v := by
  cases v <;> rw [pvSize] <;> omega

/-- Modelled from the spec: `TextDiff(other)` over the whole tree; the
depth bound is large enough for every nesting the two nodes contain. -/
def Params.TextDiff (p q : Params) : String :=
  String.mk (textDiffGo (pvSize p.toV + pvSize q.toV) [] p q)

theorem textDiffGo_zero (ind : List Char) (p q : Params) :
    textDiffGo 0 ind p q = [] := by rw [textDiffGo]

theorem textDiffGo_succ (fuel : Nat) (ind : List Char) (p q : Params) :
    textDiffGo (fuel + 1) ind p q =
      (sortedKeys p q).foldr (fun k acc => diffKey fuel ind p q k ++ acc) [] := by
  rw [textDiffGo]

theorem foldr_all_nil (f : String → List Char) :
    ∀ ks : List String, (∀ k ∈ ks, f k = []) →
    ks.foldr (fun k acc => f k ++ acc) [] = []
  | [], _ => rfl
  | k :: ks, h => by
    rw [List.foldr_cons, h k (by simp), foldr_all_nil f ks
      (fun k' hk' => h k' (by simp [hk']))]
    rfl

/-- Folding the per-key contributions when exactly one key contributes. -/
theorem foldr_single (f : String → List Char) (k : String) :
    ∀ ks : List String, k ∈ ks → ks.Nodup →
    (∀ k' ∈ ks, k' ≠ k → f k' = []) →
    ks.foldr (fun k' acc => f k' ++ acc) [] = f k
  | [], hk, _, _ => absurd hk (by simp)
  | k0 :: ks, hk, hnd, h => by
    rcases List.mem_cons.mp hk with rfl | hk'
    · rw [List.foldr_cons, foldr_all_nil f ks
        (fun k' hk' => h k' (by simp [hk'])
          (by
            intro he
            subst he
            exact (List.nodup_cons.mp hnd).1 hk'))]
      simp
    · rw [List.foldr_cons, h k0 (by simp)
        (by
          intro he
          subst he
          exact (List.nodup_cons.mp hnd).1 hk'),
        foldr_single f k ks hk' (List.nodup_cons.mp hnd).2
          (fun k' hm hne => h k' (by simp [hm]) hne)]
      rfl

/-- Equal nodes diff to nothing. -/
theorem diffKey_self (fuel : Nat) (ind : List Char) (p : Params)
    (k : String) : diffKey fuel ind p p k = [] := by
  rw [diffKey]
  cases hlk : lookupEntry k p.entries with
  | none => rfl
  | some ad =>
    obtain ⟨a, d⟩ := ad
    show (if Pv.beq a a then [] else _) = []
    rw [Pv.beq_refl, if_pos rfl]

theorem textDiffGo_self (fuel : Nat) (ind : List Char) (p : Params) :
    textDiffGo fuel ind p p = [] := by
  cases fuel with
  | zero => exact textDiffGo_zero ind p p
  | succ fuel =>
    rw [textDiffGo_succ]
    exact foldr_all_nil _ _ (fun k _ => diffKey_self fuel ind p k)

theorem diffKey_eq_lookup {p q : Params} {k : String}
    (h : lookupEntry k p.entries = lookupEntry k q.entries)
    (fuel : Nat) (ind : List Char) :
    diffKey fuel ind p q k = [] := by
  rw [diffKey, ← h]
  cases hlk : lookupEntry k p.entries with
  | none => rfl
  | some ad =>
    obtain ⟨a, d⟩ := ad
    show (if Pv.beq a a then [] else _) = []
    rw [Pv.beq_refl, if_pos rfl]

theorem diffKey_pair {p q : Params} {k : String} {va vb : Pv} {da db : String}
    (hpa : lookupEntry k p.entries = some (va, da))
    (hqb : lookupEntry k q.entries = some (vb, db))
    (hne : Pv.beq va vb = false) (hnodes : bothNodes va vb = none)
    (fuel : Nat) (ind : List Char) :
    diffKey fuel ind p q k = gtLine ind k va ++ ltLine ind k vb := by
  rw [diffKey, hpa, hqb]
  show (if Pv.beq va vb = true then [] else _) = _
  rw [if_neg (by rw [hne]; exact Bool.false_ne_true)]
  rw [hnodes]

theorem diffKey_node {p q : Params} {k : String} {fa fb : Bool}
    {ea eb : List (String × Pv × String)} {da db : String}
    (hpa : lookupEntry k p.entries = some (.vnode fa ea, da))
    (hqb : lookupEntry k q.entries = some (.vnode fb eb, db))
    (hne : Pv.beq (.vnode fa ea) (.vnode fb eb) = false)
    (fuel : Nat) (ind : List Char) :
    diffKey fuel ind p q k =
      '?' :: ' ' :: (ind ++ k.toList ++ [':', '\n']) ++
        textDiffGo fuel (ind ++ [' ', ' ']) ⟨fa, ea⟩ ⟨fb, eb⟩ := by
  rw [diffKey, hpa, hqb]
  show (if Pv.beq (.vnode fa ea) (.vnode fb eb) = true then [] else _) = _
  rw [if_neg (by rw [hne]; exact Bool.false_ne_true)]
  rfl

theorem lookup_some_mem {k : String} {x : Pv × String} :
    ∀ {es : List (String × Pv × String)}, lookupEntry k es = some x →
    k ∈ es.map (·.1)
  | [], h => by rw [lookupEntry] at h; exact Option.noConfusion h
  | (k0, v0, d0) :: rest, h => by
    rw [lookupEntry] at h
    by_cases hk : k0 = k
    · simp [hk]
    · rw [if_neg hk] at h
      simp [lookup_some_mem h]

theorem sortedKeys_same {p q : Params} (hnames : p.names = q.names) :
    sortedKeys p q = List.insertionSort (· ≤ ·) p.names := by
  rw [sortedKeys]
  have hf : q.names.filter (fun k => !(p.names.contains k)) = [] := by
    rw [List.filter_eq_nil_iff]
    intro a ha
    have hap : a ∈ p.names := hnames ▸ ha
    intro hcon
    rw [Bool.not_eq_true'] at hcon
    exact Bool.noConfusion ((List.elem_eq_true_of_mem hap).symm.trans hcon)
  rw [hf, List.append_nil]

/-- Diff of two nodes that agree everywhere except at one leaf key: a
single `>`/`<` pair. -/
theorem textDiffGo_one_leaf (fuel : Nat) (ind : List Char) (p q : Params)
    (k : String) (va vb : Pv) (da db : String)
    (hnames : p.names = q.names) (hnodup : p.names.Nodup)
    (hagree : ∀ k', k' ≠ k →
      lookupEntry k' p.entries = lookupEntry k' q.entries)
    (hpa : lookupEntry k p.entries = some (va, da))
    (hqb : lookupEntry k q.entries = some (vb, db))
    (hne : Pv.beq va vb = false) (hnodes : bothNodes va vb = none) :
    textDiffGo (fuel + 1) ind p q = gtLine ind k va ++ ltLine ind k vb := by
  rw [textDiffGo_succ]
  rw [sortedKeys_same hnames]
  have hperm := List.perm_insertionSort (α := String) (· ≤ ·) p.names
  rw [foldr_single _ k _
    (hperm.mem_iff.mpr (lookup_some_mem hpa))
    (hperm.nodup_iff.mpr hnodup)
    (fun k' _ hk' => diffKey_eq_lookup (hagree k' hk') fuel ind)]
  exact diffKey_pair hpa hqb hne hnodes fuel ind

/-- Diff of two nodes that agree everywhere except inside one nested node,
which itself differs at exactly one leaf: a `?`-grouped block with the
single indented pair. -/
theorem textDiffGo_one_nested (fuel : Nat) (ind : List Char) (p q : Params)
    (k : String) (fa fb : Bool) (ea eb : List (String × Pv × String))
    (da db : String) (k' : String) (wa wb : Pv) (da' db' : String)
    (hnames : p.names = q.names) (hnodup : p.names.Nodup)
    (hagree : ∀ k2, k2 ≠ k →
      lookupEntry k2 p.entries = lookupEntry k2 q.entries)
    (hpa : lookupEntry k p.entries = some (.vnode fa ea, da))
    (hqb : lookupEntry k q.entries = some (.vnode fb eb, db))
    (hne : Pv.beq (.vnode fa ea) (.vnode fb eb) = false)
    (hnames' : Params.names ⟨fa, ea⟩ = Params.names ⟨fb, eb⟩)
    (hnodup' : (Params.names ⟨fa, ea⟩).Nodup)
    (hagree' : ∀ k2, k2 ≠ k' → lookupEntry k2 ea = lookupEntry k2 eb)
    (hpa' : lookupEntry k' ea = some (wa, da'))
    (hqb' : lookupEntry k' eb = some (wb, db'))
    (hne' : Pv.beq wa wb = false) (hnodes' : bothNodes wa wb = none) :
    textDiffGo (fuel + 2) ind p q =
      '?' :: ' ' :: (ind ++ k.toList ++ [':', '\n']) ++
        (gtLine (ind ++ [' ', ' ']) k' wa ++ ltLine (ind ++ [' ', ' ']) k' wb) := by
  rw [textDiffGo_succ]
  rw [sortedKeys_same hnames]
  have hperm := List.perm_insertionSort (α := String) (· ≤ ·) p.names
  rw [foldr_single _ k _
    (hperm.mem_iff.mpr (lookup_some_mem hpa))
    (hperm.nodup_iff.mpr hnodup)
    (fun k2 _ hk2 => diffKey_eq_lookup (hagree k2 hk2) (fuel + 1) ind)]
  rw [diffKey_node hpa hqb hne (fuel + 1) ind]
  rw [textDiffGo_one_leaf fuel (ind ++ [' ', ' ']) ⟨fa, ea⟩ ⟨fb, eb⟩ k' wa wb
    da' db' hnames' hnodup' hagree' hpa' hqb' hne' hnodes']

theorem entsSize_lookup {k : String} {v : Pv} {d : String} :
    ∀ {es : List (String × Pv × String)}, lookupEntry k es = some (v, d) →
    pvSize v ≤ entsSize es
  | [], h => by rw [lookupEntry] at h; exact Option.noConfusion h
  | (k0, v0, d0) :: rest, h => by
    rw [lookupEntry] at h
    rw [entsSize]
    by_cases hk : k0 = k
    · rw [if_pos hk] at h
      obtain ⟨h1, -⟩ := Prod.mk.injEq .. ▸ Option.some.injEq _ _ ▸ h
      have : v0 = v := by
        have := Option.some.inj h
        exact (Prod.mk.injEq .. ▸ this).1
      rw [this]
      omega
    · rw [if_neg hk] at h
      have := entsSize_lookup h
      omega

theorem params_toV_size (p : Params) : pvSize p.toV = 1 + entsSize p.entries := by
  rw [Params.toV, pvSize]

/-- A key contributes nothing to the diff of two structurally-equal
nodes. -/
theorem diffKey_empty_of_beq {p q : Params}
    (hbeq : Pv.beq p.toV q.toV = true) (fuel : Nat) (ind : List Char)
    (k : String) : diffKey fuel ind p q k = [] := by
  rw [Params.toV, Params.toV, Pv.beq, Bool.and_eq_true] at hbeq
  obtain ⟨h1, h2⟩ := hbeq
  rw [diffKey]
  cases hlp : lookupEntry k p.entries with
  | some ad =>
    obtain ⟨a, da⟩ := ad
    cases hlq : lookupEntry k q.entries with
    | some bd =>
      obtain ⟨b, db⟩ := bd
      obtain ⟨w, d2, hly, hbw⟩ :=
        beqEntsIn_some p.entries [] q.entries h1 k a da hlp
          (List.not_mem_nil k)
      have hwb : b = w := by
        rw [hlq] at hly
        have := Option.some.inj hly
        exact (Prod.mk.injEq .. ▸ this).1
      rw [← hwb] at hbw
      show (if Pv.beq a b = true then [] else _) = []
      rw [if_pos hbw]
    | none =>
      obtain ⟨w, d2, hly, -⟩ :=
        beqEntsIn_some p.entries [] q.entries h1 k a da hlp
          (List.not_mem_nil k)
      rw [hlq] at hly
      exact Option.noConfusion hly
  | none =>
    cases hlq : lookupEntry k q.entries with
    | some bd =>
      have := entKeysIn_some h2 hlq
      rw [hlp] at this
      exact Bool.noConfusion this
    | none => rfl

/-- `TextDiff` of two structurally-equal nodes is empty. -/
theorem textDiff_empty_of_beq (p q : Params)
    (hbeq : Pv.beq p.toV q.toV = true) : p.TextDiff q = "" := by
  rw [Params.TextDiff]
  cases hf : pvSize p.toV + pvSize q.toV with
  | zero => rw [textDiffGo_zero]
  | succ fuel =>
    rw [textDiffGo_succ,
      foldr_all_nil _ _ (fun k _ => diffKey_empty_of_beq hbeq fuel [] k)]

/-- Claim C7: `TextDiff` on two structurally-equal nodes (same name
sets and, name by name, structurally equal values — entry order,
descriptions and frozen flags excluded, per the spec's node equality)
returns the empty string; after changing exactly one top-level leaf it
returns exactly one `>`/`<` pair for that leaf; after changing exactly
one leaf inside a nested node it returns a `?`-grouped block for the
nested key containing only the changed field's indented diff lines. -/
theorem claim_C7_textdiff :
    ((∀ p q : Params, Pv.beq p.toV q.toV = true → p.TextDiff q = "") ∧
     (∀ p : Params, p.TextDiff p = "")) ∧
    (∀ (p q : Params) (k : String) (va vb : Pv) (da db : String),
      p.names = q.names → p.names.Nodup →
      (∀ k2, k2 ≠ k → lookupEntry k2 p.entries = lookupEntry k2 q.entries) →
      lookupEntry k p.entries = some (va, da) →
      lookupEntry k q.entries = some (vb, db) →
      Pv.beq va vb = false → bothNodes va vb = none →
      p.TextDiff q = String.mk (gtLine [] k va ++ ltLine [] k vb)) ∧
    (∀ (p q : Params) (k : String) (fa fb : Bool)
       (ea eb : List (String × Pv × String)) (da db : String)
       (k' : String) (wa wb : Pv) (da' db' : String),
      p.names = q.names → p.names.Nodup →
      (∀ k2, k2 ≠ k → lookupEntry k2 p.entries = lookupEntry k2 q.entries) →
      lookupEntry k p.entries = some (.vnode fa ea, da) →
      lookupEntry k q.entries = some (.vnode fb eb, db) →
      Pv.beq (.vnode fa ea) (.vnode fb eb) = false →
      Params.names ⟨fa, ea⟩ = Params.names ⟨fb, eb⟩ →
      (Params.names ⟨fa, ea⟩).Nodup →
      (∀ k2, k2 ≠ k' → lookupEntry k2 ea = lookupEntry k2 eb) →
      lookupEntry k' ea = some (wa, da') →
      lookupEntry k' eb = some (wb, db') →
      Pv.beq wa wb = false → bothNodes wa wb = none →
      p.TextDiff q = String.mk
        ('?' :: ' ' :: (k.toList ++ [':', '\n']) ++
          (gtLine [' ', ' '] k' wa ++ ltLine [' ', ' '] k' wb))) := by
  refine ⟨⟨?_, ?_⟩, ?_, ?_⟩
  · intro p q hbeq
    exact textDiff_empty_of_beq p q hbeq
  · intro p
    rw [Params.TextDiff, textDiffGo_self]
  · intro p q k va vb da db hnames hnodup hagree hpa hqb hne hnodes
    rw [Params.TextDiff]
    have h1 := pvSize_pos p.toV
    have hsum : pvSize p.toV + pvSize q.toV =
        (pvSize p.toV + pvSize q.toV - 1) + 1 := by omega
    rw [hsum]
    rw [textDiffGo_one_leaf _ [] p q k va vb da db hnames hnodup hagree hpa
      hqb hne hnodes]
  · intro p q k fa fb ea eb da db k' wa wb da' db' hnames hnodup hagree hpa
      hqb hne hnames' hnodup' hagree' hpa' hqb' hne' hnodes'
    rw [Params.TextDiff]
    have h1 : pvSize (Pv.vnode fa ea) ≤ entsSize p.entries :=
      entsSize_lookup hpa
    have h2 : 1 ≤ pvSize (Pv.vnode fa ea) := pvSize_pos _
    have h3 := params_toV_size p
    have h4 := pvSize_pos q.toV
    have hsum : pvSize p.toV + pvSize q.toV =
        (pvSize p.toV + pvSize q.toV - 2) + 2 := by omega
    rw [hsum]
    rw [textDiffGo_one_nested _ [] p q k fa fb ea eb da db k' wa wb da' db'
      hnames hnodup hagree hpa hqb hne hnames' hnodup' hagree' hpa' hqb'
      hne' hnodes']
    simp only [List.nil_append]

/-! ### Claim C3: ToText/FromText round trip -/

/-- The `testFromToTextTypes` node with `scale` previously `None`. -/
def scaleNoneP : Params :=
  ⟨false, [("scale", Pv.vnone, "A float scale but default is None.")]⟩

/-- The same node after `Set(scale=1.0)`. -/
def scaleFloatP : Params :=
  ⟨false, [("scale", Pv.vfloat "1.0", "A float scale but default is None.")]⟩

/-- Claim C3: for every ConfigNode whose every leaf's textual form is
type-unambiguous given that leaf's previous value, `FromText` applied to
the output of `ToText` reproduces the original node; for a node with a
leaf whose previous value (None) makes the parse type-ambiguous,
`FromText` without type overrides fails with a type error, and succeeds
when the type map returned by `ToText(include_types=True)` is supplied
back as `type_overrides`. -/
theorem claim_C3_totext_fromtext :
    (∀ p : Params, p.WF = true → p.roundSafe = true →
      p.FromText p.ToText [] = .ok p) ∧
    scaleNoneP.FromText scaleFloatP.ToText [] =
      .error (.ambiguousType "1.0") ∧
    scaleFloatP.ToTextTypes = ("scale : 1.0\n", [("scale", "float")]) ∧
    scaleNoneP.FromText scaleFloatP.ToText scaleFloatP.ToTextTypes.2 =
      .ok scaleFloatP :=
  ⟨fun p hwf hrs => fromText_toText p hwf hrs, rfl, rfl, rfl⟩

/-- A node holding a multi-line string and primitive container
literals, exercising the quote-aware line splitting and the inline
sequence/mapping parsing of the round trip. -/
def multiP : Params :=
  ⟨false,
   [("cfg", Pv.vdict [("a", Pv.vint 1), ("b", Pv.vstr "x,y")], "A dict."),
    ("ids", Pv.vlist [Pv.vint 1, Pv.vint 2, Pv.vfloat "0.5"], "A list."),
    ("note", Pv.vstr "line1\nline2", "A multi-line string.")]⟩

/-- Witness: the round-trip identity applied at concrete nodes — the
float-leaf node of the type-override scenario, and a node with a
multi-line string, a sequence literal and a mapping literal. -/
theorem claim_C3_witness :
    Params.WF scaleFloatP = true ∧ Params.roundSafe scaleFloatP = true ∧
    Params.FromText scaleFloatP (Params.ToText scaleFloatP) [] =
      .ok scaleFloatP ∧
    Params.WF multiP = true ∧ Params.roundSafe multiP = true ∧
    Params.FromText multiP (Params.ToText multiP) [] = .ok multiP :=
  ⟨rfl, rfl, claim_C3_totext_fromtext.1 scaleFloatP rfl rfl, rfl, rfl,
    claim_C3_totext_fromtext.1 multiP rfl rfl⟩

/-! ### Claim C5: Define then Get -/

theorem lookupEntry_append_none {name : String} :
    ∀ {es : List (String × Pv × String)}, lookupEntry name es = none →
    ∀ tail, lookupEntry name (es ++ tail) = lookupEntry name tail
  | [], _, tail => rfl
  | (k0, v0, d0) :: rest, h, tail => by
    rw [lookupEntry] at h
    rw [List.cons_append, lookupEntry]
    by_cases hk : k0 = name
    · rw [if_pos hk] at h; exact Option.noConfusion h
    · rw [if_neg hk] at h
      rw [if_neg hk]
      exact lookupEntry_append_none h tail

/-- Claim C5: for every valid name not already present and every value,
`Define(name, value, description)` followed by `Get(name)` returns that
value; calling `Define` a second time with the same name fails with a
duplicate-name error (and, the operation being functional, returns no
modified node). -/
theorem claim_C5_define_get :
    ∀ (p : Params) (name : String) (v : Pv) (desc : String),
      p.frozen = false → validName name = true →
      ((lookupEntry name p.entries = none →
        ∃ p', p.Define name v desc = .ok p' ∧ p'.GetPath [name] = .ok v) ∧
       (∀ w d0, lookupEntry name p.entries = some (w, d0) →
        p.Define name v desc = .error (.duplicateName name))) := by
  intro p name v desc hfr hval
  have hif1 : ¬(p.frozen = true) := by rw [hfr]; exact Bool.false_ne_true
  have hif2 : ¬¬(validName name = true) := fun hh => hh hval
  constructor
  · intro hnone
    refine ⟨⟨p.frozen, p.entries ++ [(name, v, desc)]⟩, ?_, ?_⟩
    · rw [Params.Define, if_neg hif1, if_neg hif2, hnone]
    · rw [getPath_single]
      show (match lookupEntry name (p.entries ++ [(name, v, desc)]) with
        | some (w, _) => Except.ok w
        | none =>
          (Except.error (PErr.undefinedName name) : Except PErr Pv)) =
        Except.ok v
      rw [lookupEntry_append_none hnone, lookupEntry_cons_self]
  · intro w d0 hsome
    rw [Params.Define, if_neg hif1, if_neg hif2, hsome]

/-- Witness: define `foo := 1` on the empty node and read it back. -/
theorem claim_C5_witness :
    Params.frozen Params.empty = false ∧ validName "foo" = true ∧
    (∃ p', Params.Define Params.empty "foo" (Pv.vint 1) "" = .ok p' ∧
      Params.GetPath p' ["foo"] = .ok (Pv.vint 1)) ∧
    Params.Define ⟨false, [("foo", Pv.vint 1, "")]⟩ "foo" (Pv.vint 1) "" =
      .error (.duplicateName "foo") :=
  ⟨rfl, by decide,
   (claim_C5_define_get Params.empty "foo" (Pv.vint 1) "" rfl (by decide)).1
     rfl,
   (claim_C5_define_get ⟨false, [("foo", Pv.vint 1, "")]⟩ "foo" (Pv.vint 1)
     "" rfl (by decide)).2 (Pv.vint 1) "" rfl⟩

/-! ### Claim C7 witness -/

theorem beq_vint (a b : Int) : Pv.beq (.vint a) (.vint b) = (a == b) := by
  rw [Pv.beq]

theorem beq_vstr (a b : String) : Pv.beq (.vstr a) (.vstr b) = (a == b) := by
  rw [Pv.beq]

theorem beq_vnode (fa fb : Bool) (ea eb : List (String × Pv × String)) :
    Pv.beq (.vnode fa ea) (.vnode fb eb) =
      (Pv.beqEntsIn [] ea eb && entKeysIn eb ea) := by
  rw [Pv.beq]

theorem beqEntsIn_nil (seen : List String)
    (ys : List (String × Pv × String)) :
    Pv.beqEntsIn seen [] ys = true := by rw [Pv.beqEntsIn]

theorem beqEntsIn_cons (seen : List String) (k : String) (v : Pv)
    (d : String) (xs ys : List (String × Pv × String))
    (hk : seen.contains k = false) :
    Pv.beqEntsIn seen ((k, v, d) :: xs) ys =
      ((match lookupEntry k ys with
        | some (w, _) => Pv.beq v w
        | none => false) && Pv.beqEntsIn (k :: seen) xs ys) := by
  rw [Pv.beqEntsIn, hk, if_neg Bool.false_ne_true]

/-- Pointwise beq-equal lookups make the one-sided entry comparison
succeed. -/
theorem beqEntsIn_intro :
    ∀ (xs : List (String × Pv × String)) (seen : List String)
      (ys : List (String × Pv × String)),
      (∀ k v d, lookupEntry k xs = some (v, d) → k ∉ seen →
        ∃ w d2, lookupEntry k ys = some (w, d2) ∧ Pv.beq v w = true) →
      Pv.beqEntsIn seen xs ys = true
  | [], seen, ys, _ => beqEntsIn_nil seen ys
  | (k0, v0, d0) :: xs, seen, ys, h => by
    rw [Pv.beqEntsIn]
    by_cases hk : seen.contains k0
    · rw [if_pos hk]
      refine beqEntsIn_intro xs seen ys (fun k v d hlk hks => ?_)
      have hne : k0 ≠ k := fun he =>
        hks (he ▸ (containsS_iff seen k0).mp hk)
      exact h k v d (by rw [lookupEntry, if_neg hne]; exact hlk) hks
    · rw [if_neg hk]
      obtain ⟨w, d2, hly, hbw⟩ :=
        h k0 v0 d0 (by rw [lookupEntry, if_pos rfl])
          (fun hm => hk ((containsS_iff seen k0).mpr hm))
      rw [hly]
      show (Pv.beq v0 w && Pv.beqEntsIn (k0 :: seen) xs ys) = true
      have hrest : Pv.beqEntsIn (k0 :: seen) xs ys = true := by
        refine beqEntsIn_intro xs (k0 :: seen) ys (fun k v d hlk hks => ?_)
        have hne : k0 ≠ k := fun he =>
          hks (he ▸ List.mem_cons_self k0 seen)
        have hks2 : k ∉ seen := fun hm => hks (List.mem_cons_of_mem k0 hm)
        exact h k v d (by rw [lookupEntry, if_neg hne]; exact hlk) hks2
      rw [hbw, hrest]
      rfl

/-- The `testDiff` nodes: `a` with `a=43`, `b` with `a=42`; then `b` with
`d.hey` changed. -/
def diffA : Params :=
  ⟨false, [("a", Pv.vint 43, ""), ("c", Pv.vstr "C", ""),
    ("d", Pv.vnode false [("hey", Pv.vstr "hi", "")], "")]⟩

/-- `diffA` before the change (`a = 42`). -/
def diffB : Params :=
  ⟨false, [("a", Pv.vint 42, ""), ("c", Pv.vstr "C", ""),
    ("d", Pv.vnode false [("hey", Pv.vstr "hi", "")], "")]⟩

/-- `diffA` with `a` restored and `d.hey` changed instead. -/
def diffC : Params :=
  ⟨false, [("a", Pv.vint 43, ""), ("c", Pv.vstr "C", ""),
    ("d", Pv.vnode false [("hey", Pv.vstr "hello", "")], "")]⟩

/-- `diffA` with the same name sets and values but permuted entry
order, different descriptions everywhere and a different frozen flag on
the nested node: structurally equal to `diffA` per the spec's node
equality. -/
def diffD : Params :=
  ⟨false, [("d", Pv.vnode true [("hey", Pv.vstr "hi", "hey doc")], "doc d"),
    ("c", Pv.vstr "C", "doc c"), ("a", Pv.vint 43, "doc a")]⟩

/-- Witness: the diff behaviors at the `testDiff` data, including the
empty diff of a structurally-equal pair with permuted entries and
different descriptions. -/
theorem claim_C7_witness :
    Params.TextDiff diffA diffD = "" ∧
    Params.TextDiff diffB diffB = "" ∧
    Params.TextDiff diffA diffB = "> a: 43\n< a: 42\n" ∧
    Params.TextDiff diffA diffC = "? d:\n>   hey: hi\n<   hey: hello\n" := by
  have hdnode : Pv.beq (Pv.vnode false [("hey", Pv.vstr "hi", "")])
      (Pv.vnode true [("hey", Pv.vstr "hi", "hey doc")]) = true := by
    rw [beq_vnode]
    have h1 : Pv.beqEntsIn [] [("hey", Pv.vstr "hi", "")]
        [("hey", Pv.vstr "hi", "hey doc")] = true := by
      refine beqEntsIn_intro _ [] _ (fun k v d hlk _ => ?_)
      by_cases hkk : "hey" = k
      · rw [lookupEntry, if_pos hkk] at hlk
        obtain ⟨hv, hd⟩ := Prod.mk.inj (Option.some.inj hlk)
        subst hkk
        refine ⟨Pv.vstr "hi", "hey doc", rfl, ?_⟩
        rw [← hv]
        exact Pv.beq_refl _
      · rw [lookupEntry, if_neg hkk, lookupEntry] at hlk
        exact Option.noConfusion hlk
    rw [h1]
    have h2 : entKeysIn [("hey", Pv.vstr "hi", "hey doc")]
        [("hey", Pv.vstr "hi", "")] = true := rfl
    rw [h2]
    rfl
  have hbeq : Pv.beq diffA.toV diffD.toV = true := by
    show Pv.beq
      (Pv.vnode false [("a", Pv.vint 43, ""), ("c", Pv.vstr "C", ""),
        ("d", Pv.vnode false [("hey", Pv.vstr "hi", "")], "")])
      (Pv.vnode false
        [("d", Pv.vnode true [("hey", Pv.vstr "hi", "hey doc")], "doc d"),
         ("c", Pv.vstr "C", "doc c"), ("a", Pv.vint 43, "doc a")]) = true
    rw [beq_vnode]
    have hA : Pv.beqEntsIn []
        [("a", Pv.vint 43, ""), ("c", Pv.vstr "C", ""),
         ("d", Pv.vnode false [("hey", Pv.vstr "hi", "")], "")]
        [("d", Pv.vnode true [("hey", Pv.vstr "hi", "hey doc")], "doc d"),
         ("c", Pv.vstr "C", "doc c"), ("a", Pv.vint 43, "doc a")] = true := by
      refine beqEntsIn_intro _ [] _ (fun k v d hlk _ => ?_)
      by_cases h1 : "a" = k
      · rw [lookupEntry, if_pos h1] at hlk
        obtain ⟨hv, hd⟩ := Prod.mk.inj (Option.some.inj hlk)
        subst h1
        refine ⟨Pv.vint 43, "doc a", rfl, ?_⟩
        rw [← hv]
        exact Pv.beq_refl _
      · rw [lookupEntry, if_neg h1] at hlk
        by_cases h2 : "c" = k
        · rw [lookupEntry, if_pos h2] at hlk
          obtain ⟨hv, hd⟩ := Prod.mk.inj (Option.some.inj hlk)
          subst h2
          refine ⟨Pv.vstr "C", "doc c", rfl, ?_⟩
          rw [← hv]
          exact Pv.beq_refl _
        · rw [lookupEntry, if_neg h2] at hlk
          by_cases h3 : "d" = k
          · rw [lookupEntry, if_pos h3] at hlk
            obtain ⟨hv, hd⟩ := Prod.mk.inj (Option.some.inj hlk)
            subst h3
            refine ⟨Pv.vnode true [("hey", Pv.vstr "hi", "hey doc")],
              "doc d", rfl, ?_⟩
            rw [← hv]
            exact hdnode
          · rw [lookupEntry, if_neg h3, lookupEntry] at hlk
            exact Option.noConfusion hlk
    rw [hA]
    have hK : entKeysIn
        [("d", Pv.vnode true [("hey", Pv.vstr "hi", "hey doc")], "doc d"),
         ("c", Pv.vstr "C", "doc c"), ("a", Pv.vint 43, "doc a")]
        [("a", Pv.vint 43, ""), ("c", Pv.vstr "C", ""),
         ("d", Pv.vnode false [("hey", Pv.vstr "hi", "")], "")] = true := rfl
    rw [hK]
    rfl
  refine ⟨claim_C7_textdiff.1.1 diffA diffD hbeq,
    claim_C7_textdiff.1.2 diffB, ?_, ?_⟩
  · have h := claim_C7_textdiff.2.1 diffA diffB "a" (Pv.vint 43) (Pv.vint 42)
      "" "" rfl (by decide)
      (fun k2 hk2 => by
        show (if "a" = k2 then some (Pv.vint 43, "") else
          lookupEntry k2 [("c", Pv.vstr "C", ""),
            ("d", Pv.vnode false [("hey", Pv.vstr "hi", "")], "")]) =
          (if "a" = k2 then some (Pv.vint 42, "") else
          lookupEntry k2 [("c", Pv.vstr "C", ""),
            ("d", Pv.vnode false [("hey", Pv.vstr "hi", "")], "")])
        rw [if_neg (fun hh => hk2 hh.symm), if_neg (fun hh => hk2 hh.symm)])
      rfl rfl (by rw [beq_vint]; decide) rfl
    exact h.trans rfl
  · have h := claim_C7_textdiff.2.2 diffA diffC "d" false false
      [("hey", Pv.vstr "hi", "")] [("hey", Pv.vstr "hello", "")] "" ""
      "hey" (Pv.vstr "hi") (Pv.vstr "hello") "" ""
      rfl (by decide)
      (fun k2 hk2 => by
        show (if "a" = k2 then some (Pv.vint 43, "") else
          if "c" = k2 then some (Pv.vstr "C", "") else
          if "d" = k2 then
            some (Pv.vnode false [("hey", Pv.vstr "hi", "")], "") else none) =
          (if "a" = k2 then some (Pv.vint 43, "") else
          if "c" = k2 then some (Pv.vstr "C", "") else
          if "d" = k2 then
            some (Pv.vnode false [("hey", Pv.vstr "hello", "")], "") else none)
        by_cases h1 : "a" = k2
        · rw [if_pos h1, if_pos h1]
        · rw [if_neg h1, if_neg h1]
          by_cases h2 : "c" = k2
          · rw [if_pos h2, if_pos h2]
          · rw [if_neg h2, if_neg h2]
            rw [if_neg (fun hh => hk2 hh.symm),
              if_neg (fun hh => hk2 hh.symm)])
      rfl rfl
      (by
        rw [beq_vnode, beqEntsIn_cons [] "hey" (Pv.vstr "hi") "" []
          [("hey", Pv.vstr "hello", "")] rfl]
        have hl : lookupEntry "hey" [("hey", Pv.vstr "hello", "")] =
            some (Pv.vstr "hello", "") := rfl
        rw [hl]
        show ((Pv.beq (Pv.vstr "hi") (Pv.vstr "hello") &&
          Pv.beqEntsIn ["hey"] [] [("hey", Pv.vstr "hello", "")]) &&
          entKeysIn [("hey", Pv.vstr "hello", "")]
            [("hey", Pv.vstr "hi", "")]) = false
        rw [beq_vstr, beqEntsIn_nil]
        decide)
      rfl (by decide)
      (fun k2 hk2 => by
        show (if "hey" = k2 then some (Pv.vstr "hi", "") else none) =
          (if "hey" = k2 then some (Pv.vstr "hello", "") else none)
        rw [if_neg (fun hh => hk2 hh.symm), if_neg (fun hh => hk2 hh.symm)])
      rfl rfl (by rw [beq_vstr]; decide) rfl
    exact h.trans rfl

/-! ### Claim C9: attribute-style miss with "did you mean" suggestions -/

/-- Length of the common prefix of two character lists (the spec's
"prefix heuristic" for lexical nearness). -/
def commonPrefixLen : List Char → List Char → Nat
  | x :: xs, y :: ys => if x = y then 1 + commonPrefixLen xs ys else 0
  | _, _ => 0

/-- Nearness order on candidate names: longer common prefix first. -/
def cplR (name : String) (a b : String) : Prop :=
  commonPrefixLen name.toList b.toList ≤ commonPrefixLen name.toList a.toList

instance (name : String) : DecidableRel (cplR name) :=
  fun a b => Nat.decLe _ _

instance (name : String) : IsTotal String (cplR name) :=
  ⟨fun a b => by
    show commonPrefixLen name.toList b.toList ≤
        commonPrefixLen name.toList a.toList ∨
      commonPrefixLen name.toList a.toList ≤
        commonPrefixLen name.toList b.toList
    exact Nat.le_total _ _⟩

instance (name : String) : IsTrans String (cplR name) :=
  ⟨fun _ _ _ h1 h2 => le_trans h2 h1⟩

/-- Modelled from the spec: the 1-2 lexically-nearest defined names, by
the prefix heuristic: candidates sharing at least one leading character,
ranked by longest common prefix (stable), at most two (§4.1 `Get`). -/
def similarKeys (name : String) (keys : List String) : List String :=
  (List.insertionSort (cplR name)
    (keys.filter (fun k => 1 ≤ commonPrefixLen name.toList k.toList))).take 2

/-- Modelled from the spec: the undefined-attribute message, with the
"did you mean" suggestion when near keys exist. -/
def mkSimilarMsg (name : String) (sugg : List String) : String :=
  if sugg.isEmpty then name
  else name ++ " (did you mean: [" ++
    String.mk (charJoin ',' (sugg.map String.toList)) ++ "])"

/-- Modelled from the spec: attribute-style read; an undefined name fails
with the undefined-name error carrying the suggestion message (§4.1). -/
def Params.attrGet (p : Params) (name : String) : Except PErr Pv :=
  match lookupEntry name p.entries with
  | some (v, _) => .ok v
  | none => .error (.undefinedName (mkSimilarMsg name (similarKeys name p.names)))

/-- Modelled from the spec: attribute-style write; a frozen node fails
with the frozen error, an undefined name with the suggestion message
(§4.1). -/
def Params.attrSet (p : Params) (name : String) (v : Pv) : Except PErr Params :=
  if p.frozen then .error .frozen
  else match lookupEntry name p.entries with
    | some _ => .ok ⟨p.frozen, setEntry name v p.entries⟩
    | none =>
      .error (.undefinedName (mkSimilarMsg name (similarKeys name p.names)))

/-- Claim C9: attribute-style access (read or write) of an undefined name
fails with an error whose message names the missing attribute and offers
the 1-2 lexically-nearest defined names as a "did you mean" suggestion;
the suggestions are defined names, at most two, and each is at least as
near (by the prefix heuristic) as every non-suggested defined name. -/
theorem claim_C9_similar_keys :
    (∀ (p : Params) (name : String), lookupEntry name p.entries = none →
      p.attrGet name =
        .error (.undefinedName (mkSimilarMsg name (similarKeys name p.names))) ∧
      (p.frozen = false → ∀ v, p.attrSet name v =
        .error (.undefinedName (mkSimilarMsg name (similarKeys name p.names))))) ∧
    (∀ (name : String) (keys : List String),
      (similarKeys name keys).length ≤ 2 ∧
      (∀ a ∈ similarKeys name keys, a ∈ keys) ∧
      (∀ a ∈ similarKeys name keys, ∀ b ∈ keys, b ∉ similarKeys name keys →
        commonPrefixLen name.toList b.toList ≤
          commonPrefixLen name.toList a.toList)) ∧
    similarKeys "actuvation" ["activation", "activations", "cheesecake", "tofu"]
      = ["activation", "activations"] ∧
    mkSimilarMsg "actuvation" ["activation", "activations"] =
      "actuvation (did you mean: [activation,activations])" := by
  refine ⟨?_, ?_, rfl, rfl⟩
  · intro p name hnone
    constructor
    · rw [Params.attrGet, hnone]
    · intro hfr v
      rw [Params.attrSet, if_neg (by rw [hfr]; exact Bool.false_ne_true),
        hnone]
  · intro name keys
    refine ⟨?_, ?_, ?_⟩
    · rw [similarKeys]
      exact List.length_take_le 2 _
    · intro a ha
      rw [similarKeys] at ha
      have h1 : a ∈ List.insertionSort (cplR name)
          (keys.filter (fun k => 1 ≤ commonPrefixLen name.toList k.toList)) :=
        List.mem_of_mem_take ha
      have h2 := (List.perm_insertionSort (cplR name) _).mem_iff.mp h1
      exact List.mem_of_mem_filter h2
    · intro a ha b hb hbn
      have haf : a ∈ List.insertionSort (cplR name)
          (keys.filter (fun k => 1 ≤ commonPrefixLen name.toList k.toList)) := by
        rw [similarKeys] at ha
        exact List.mem_of_mem_take ha
      have ha1 : 1 ≤ commonPrefixLen name.toList a.toList := by
        have := (List.perm_insertionSort (cplR name) _).mem_iff.mp haf
        exact of_decide_eq_true (List.mem_filter.mp this).2
      by_cases hbf : (1 ≤ commonPrefixLen name.toList b.toList)
      · -- b survived the filter, so it was dropped by `take 2`:
        -- it sits in the sorted tail, below a.
        have hbs : b ∈ List.insertionSort (cplR name)
            (keys.filter (fun k => 1 ≤ commonPrefixLen name.toList k.toList)) := by
          refine (List.perm_insertionSort (cplR name) _).mem_iff.mpr ?_
          exact List.mem_filter.mpr ⟨hb, decide_eq_true hbf⟩
        set l := List.insertionSort (cplR name)
          (keys.filter (fun k => 1 ≤ commonPrefixLen name.toList k.toList)) with hl
        have hsorted : List.Pairwise (cplR name) l :=
          List.sorted_insertionSort (cplR name) _
        have hsplit : l = l.take 2 ++ l.drop 2 := (List.take_append_drop 2 l).symm
        have hbd : b ∈ l.drop 2 := by
          rcases (List.mem_append.mp (hsplit ▸ hbs)) with h | h
          · rw [similarKeys] at hbn; exact absurd h hbn
          · exact h
        have hat : a ∈ l.take 2 := by rw [similarKeys] at ha; exact ha
        have hpw := hsplit ▸ hsorted
        have := (List.pairwise_append.mp hpw).2.2
        exact this a hat b hbd
      · have : commonPrefixLen name.toList b.toList = 0 := by omega
        rw [this]
        exact Nat.zero_le _

/-- The `testSimilarKeys` node. -/
def similarP : Params :=
  ⟨false, [("activation", Pv.vstr "RELU", "Can be a string or a list of strings."),
    ("activations", Pv.vstr "RELU", "Many activations."),
    ("cheesecake", Pv.vnone, "dessert"),
    ("tofu", Pv.vnone, "not dessert")]⟩

/-- Witness: the attribute miss at the `testSimilarKeys` data produces the
literal suggestion message of the source test. -/
theorem claim_C9_witness :
    lookupEntry "actuvation" similarP.entries = none ∧
    similarP.attrGet "actuvation" = .error (.undefinedName
      "actuvation (did you mean: [activation,activations])") ∧
    (∀ v, similarP.attrSet "actuvation" v = .error (.undefinedName
      "actuvation (did you mean: [activation,activations])")) := by
  have h := claim_C9_similar_keys.1 similarP "actuvation" rfl
  refine ⟨rfl, h.1.trans (by rfl), fun v => ((h.2 rfl) v).trans (by rfl)⟩

/-! ### Claim C4: deterministic serialization -/

mutual

/-- Modelled from the spec: deep copy of a value: fresh nested structure,
opaque payloads passed by reference (same id) (§3). -/
def Pv.copy : Pv → Pv
  | .vnode fr es => .vnode fr (copyEntries es)
  | .vlist xs => .vlist (copyList xs)
  | .vdict kvs => .vdict (copyDict kvs)
  | .vint n => .vint n
  | .vfloat l => .vfloat l
  | .vbool b => .vbool b
  | .vstr s => .vstr s
  | .vnone => .vnone
  | .vopq i => .vopq i

/-- Deep copy of an entry list. -/
def copyEntries : List (String × Pv × String) → List (String × Pv × String)
  | [] => []
  | (k, v, d) :: rest => (k, Pv.copy v, d) :: copyEntries rest

/-- Deep copy of a value list. -/
def copyList : List Pv → List Pv
  | [] => []
  | x :: xs => Pv.copy x :: copyList xs

/-- Deep copy of a mapping. -/
def copyDict : List (String × Pv) → List (String × Pv)
  | [] => []
  | (k, v) :: kvs => (k, Pv.copy v) :: copyDict kvs

end

/-- Modelled from the spec: `Copy()` is a deep clone preserving the
frozen flag (§4.1, implementation note). -/
def Params.Copy (p : Params) : Params := ⟨p.frozen, copyEntries p.entries⟩

mutual

theorem Pv.copy_id : ∀ v : Pv, Pv.copy v = v
  | .vnode fr es => by rw [Pv.copy, copyEntries_id es]
  | .vlist xs => by rw [Pv.copy, copyList_id xs]
  | .vdict kvs => by rw [Pv.copy, copyDict_id kvs]
  | .vint _ => by rw [Pv.copy]
  | .vfloat _ => by rw [Pv.copy]
  | .vbool _ => by rw [Pv.copy]
  | .vstr _ => by rw [Pv.copy]
  | .vnone => by rw [Pv.copy]
  | .vopq _ => by rw [Pv.copy]

theorem copyEntries_id : ∀ es : List (String × Pv × String), copyEntries es = es
  | [] => by rw [copyEntries]
  | (k, v, d) :: rest => by rw [copyEntries, Pv.copy_id v, copyEntries_id rest]

theorem copyList_id : ∀ xs : List Pv, copyList xs = xs
  | [] => by rw [copyList]
  | x :: xs => by rw [copyList, Pv.copy_id x, copyList_id xs]

theorem copyDict_id : ∀ kvs : List (String × Pv), copyDict kvs = kvs
  | [] => by rw [copyDict]
  | (k, v) :: kvs => by rw [copyDict, Pv.copy_id v, copyDict_id kvs]

end

/-- The pure tree of a copy is the same tree (value-level identity of the
deep clone). -/
theorem params_copy_id (p : Params) : p.Copy = p := by
  rw [Params.Copy, copyEntries_id]

/-- Strict key order on keyed pairs. -/
def keyLt {α : Type} (x y : String × α) : Prop := x.1 < y.1

instance {α : Type} : IsAntisymm (String × α) keyLt :=
  ⟨fun _ _ h1 h2 => absurd (lt_trans h1 h2) (lt_irrefl _)⟩

/-- Sorting two permuted keyed lists with duplicate-free keys gives the
same list. -/
theorem sortPairs_eq {α : Type} (A B : List (String × α)) (hAB : A.Perm B)
    (hnodup : (A.map (·.1)).Nodup) :
    List.insertionSort keyLe A = List.insertionSort keyLe B := by
  have hp : (List.insertionSort keyLe A).Perm (List.insertionSort keyLe B) :=
    ((List.perm_insertionSort keyLe A).trans hAB).trans
      (List.perm_insertionSort keyLe B).symm
  have hs1 : List.Pairwise keyLe (List.insertionSort keyLe A) :=
    List.sorted_insertionSort keyLe A
  have hs2 : List.Pairwise keyLe (List.insertionSort keyLe B) :=
    List.sorted_insertionSort keyLe B
  have hnd1 : ((List.insertionSort keyLe A).map (·.1)).Nodup := by
    refine ((List.perm_insertionSort keyLe A).map (·.1)).nodup_iff.mpr ?_
    exact hnodup
  have hnd2 : ((List.insertionSort keyLe B).map (·.1)).Nodup := by
    refine ((hp.map (·.1)).nodup_iff).mp hnd1
  have hlt1 : List.Pairwise keyLt (List.insertionSort keyLe A) := by
    have hne := List.pairwise_map.mp hnd1
    exact (hs1.and hne).imp (fun h => lt_of_le_of_ne h.1 h.2)
  have hlt2 : List.Pairwise keyLt (List.insertionSort keyLe B) := by
    have hne := List.pairwise_map.mp hnd2
    exact (hs2.and hne).imp (fun h => lt_of_le_of_ne h.1 h.2)
  exact List.eq_of_perm_of_sorted hp hlt1 hlt2

/-- Paths flattened from a well-formed entry list are duplicate-free. -/
theorem collect_nodup_paths : ∀ es : List (String × Pv × String),
    WFents es = true → ((collectPaths es).map (·.1)).Nodup
  | [], _ => by rw [collectPaths]; exact List.nodup_nil
  | (k0, w, d) :: rest, hwf => by
    rw [WFents_cons] at hwf
    simp only [Bool.and_eq_true] at hwf
    obtain ⟨⟨⟨hk0, hnd⟩, hwfw⟩, hwfrest⟩ := hwf
    rw [collectPaths_cons, List.map_append]
    refine List.Nodup.append ?_ (collect_nodup_paths rest hwfrest) ?_
    · by_cases hL : isLeafV w = true
      · rw [collectVal_leaf k0 hL]
        exact List.nodup_singleton _
      · obtain ⟨fr', es', rfl⟩ :=
          eq_vnode_of_not_leaf (Bool.eq_false_iff.mpr hL)
        rw [collectVal_node, List.map_map]
        have base : ((collectPaths es').map (·.1)).Nodup :=
          collect_nodup_paths es' (by rw [WFv_node] at hwfw; exact hwfw)
        have : ((collectPaths es').map ((·.1) ∘ (fun pv : List String × Pv =>
            (k0 :: pv.1, pv.2)))).Nodup := by
          have hcomp : ((·.1) ∘ (fun pv : List String × Pv =>
              (k0 :: pv.1, pv.2))) = (fun pv => k0 :: pv.1) := rfl
          rw [hcomp]
          have : (fun pv : List String × Pv => k0 :: pv.1) =
              (fun l : List String => k0 :: l) ∘ (·.1) := rfl
          rw [this, ← List.map_map]
          exact base.map (fun a b hab => (List.cons_eq_cons.mp hab).2)
        exact this
    · intro path h1 h2
      -- heads differ: paths from the first entry start with k0, paths
      -- from the rest start with another (distinct) defined name.
      have hhead1 : ∃ t, path = k0 :: t := by
        by_cases hL : isLeafV w = true
        · rw [collectVal_leaf k0 hL] at h1
          simp at h1
          exact ⟨[], by rw [h1]⟩
        · obtain ⟨fr', es', rfl⟩ :=
            eq_vnode_of_not_leaf (Bool.eq_false_iff.mpr hL)
          rw [collectVal_node, List.map_map] at h1
          rcases List.mem_map.mp h1 with ⟨pv, -, heq⟩
          exact ⟨pv.1, heq.symm⟩
      rcases List.mem_map.mp h2 with ⟨⟨path2, v2⟩, hm2, heq2⟩
      obtain ⟨k1, t1, rfl, hk1⟩ := collect_shape rest path2 v2 hm2
      obtain ⟨t, rfl⟩ := hhead1
      have : k0 = k1 := by
        have := heq2
        simp at this
        exact this.1.symm
      subst this
      rcases List.mem_map.mp hk1 with ⟨e, he, hke⟩
      have : rest.any (fun e => e.1 == k0) = true := by
        rw [List.any_eq_true]
        exact ⟨e, he, by rw [hke]; simp⟩
      rw [this] at hnd
      exact Bool.noConfusion hnd

/-- `joinDots` is injective on non-empty valid-name paths. -/
theorem joinDots_inj {p1 p2 : List String}
    (h1 : p1 ≠ []) (hv1 : ∀ s ∈ p1, validName s = true)
    (h2 : p2 ≠ []) (hv2 : ∀ s ∈ p2, validName s = true)
    (heq : joinDots p1 = joinDots p2) : p1 = p2 := by
  have e1 := splitDots_joinDots p1 h1 hv1
  have e2 := splitDots_joinDots p2 h2 hv2
  rw [← e1, ← e2, heq]

/-- The dotted keys of the sorted leaf lines are duplicate-free. -/
theorem toTextKeys_nodup (es : List (String × Pv × String))
    (hwf : WFents es = true) :
    (((collectPaths es).map (fun pv : List String × Pv =>
      (String.mk (joinDots pv.1), pv.2))).map (·.1)).Nodup := by
  rw [List.map_map]
  have hcomp : ((·.1) ∘ (fun pv : List String × Pv =>
      (String.mk (joinDots pv.1), pv.2))) =
    ((fun l : List String => String.mk (joinDots l)) ∘ (·.1)) := rfl
  rw [hcomp, ← List.map_map]
  have base := collect_nodup_paths es hwf
  refine List.Nodup.map_on ?_ base
  intro x hx y hy hxy
  rcases List.mem_map.mp hx with ⟨⟨px, vx⟩, hmx, rfl⟩
  rcases List.mem_map.mp hy with ⟨⟨py, vy⟩, hmy, rfl⟩
  obtain ⟨kx, tx, hex, -⟩ := collect_shape es px vx hmx
  obtain ⟨ky, ty, hey, -⟩ := collect_shape es py vy hmy
  have hjx : joinDots px = joinDots py := congrArg String.toList hxy
  exact joinDots_inj (by rw [hex]; simp) (collect_validnames es hwf px vx hmx)
    (by rw [hey]; simp) (collect_validnames es hwf py vy hmy) hjx

/-- Serialization depends only on the multiset of flattened leaves. -/
theorem toTextWithTypes_perm (p q : Params) (hwfp : p.WF = true)
    (hperm : (collectPaths p.entries).Perm (collectPaths q.entries)) :
    p.ToTextWithTypes = q.ToTextWithTypes := by
  have h1 : p.toTextPairs = q.toTextPairs := by
    rw [Params.toTextPairs, Params.toTextPairs]
    refine sortPairs_eq _ _ (hperm.map _) ?_
    have h := toTextKeys_nodup p.entries hwfp
    have hcong : ((collectPaths p.entries).map
        (fun pv : List String × Pv =>
          (String.mk (joinDots pv.1), pv.2))).map (·.1) =
      ((collectPaths p.entries).map
        (fun pv : List String × Pv =>
          (String.mk (joinDots pv.1), renderLeafC pv.2))).map (·.1) := by
      rw [List.map_map, List.map_map]
      rfl
    rw [← hcong]
    exact h
  have h2 : p.typePairs = q.typePairs := by
    rw [Params.typePairs, Params.typePairs]
    refine sortPairs_eq _ _ (hperm.map _) ?_
    have h := toTextKeys_nodup p.entries hwfp
    have hcong : ((collectPaths p.entries).map
        (fun pv : List String × Pv =>
          (String.mk (joinDots pv.1), pv.2))).map (·.1) =
      ((collectPaths p.entries).map
        (fun pv : List String × Pv =>
          (String.mk (joinDots pv.1), typeTag pv.2))).map (·.1) := by
      rw [List.map_map, List.map_map]
      rfl
    rw [← hcong]
    exact h
  rw [Params.ToTextWithTypes, Params.ToTextWithTypes, Params.ToText,
    Params.ToText, Params.toTextL, Params.toTextL, h1, h2]

/-- The spec's determinism example, one history: `a=43`, nested `e.x=7`. -/
def histP1 : Params :=
  ⟨false, [("a", Pv.vint 43, ""),
    ("e", Pv.vnode false [("x", Pv.vint 7, "")], "")]⟩

/-- The same current values reached through a different mutation history
(entries in a different order). -/
def histP2 : Params :=
  ⟨false, [("e", Pv.vnode false [("x", Pv.vint 7, "")], ""),
    ("a", Pv.vint 43, "")]⟩

/-- Claim C4: `ToTextWithTypes` yields byte-identical output on
independently made copies and regardless of the mutation history that
produced the node's current values (same flattened leaves, any entry
order); the serialization's key order is sorted by dotted key.  Repeated
calls are identical because serialization is a function of the node. -/
theorem claim_C4_deterministic_serialize :
    (∀ p : Params, List.Pairwise (· ≤ ·) (p.toTextPairs.map (·.1))) ∧
    (∀ p : Params, p.Copy.ToTextWithTypes = p.ToTextWithTypes) ∧
    (∀ p q : Params, p.WF = true →
      (collectPaths p.entries).Perm (collectPaths q.entries) →
      p.ToTextWithTypes = q.ToTextWithTypes) ∧
    histP1.ToTextWithTypes = histP2.ToTextWithTypes := by
  refine ⟨?_, ?_, ?_, ?_⟩
  · intro p
    have h := List.sorted_insertionSort (@keyLe (List Char))
      ((collectPaths p.entries).map fun pv =>
        (String.mk (joinDots pv.1), renderLeafC pv.2))
    exact List.pairwise_map.mpr h
  · intro p
    rw [params_copy_id]
  · intro p q hwfp hperm
    exact toTextWithTypes_perm p q hwfp hperm
  · refine toTextWithTypes_perm histP1 histP2 rfl ?_
    show [([("a" : String)], Pv.vint 43), (["e", "x"], Pv.vint 7)].Perm
      [((["e", "x"] : List String), Pv.vint 7), (["a"], Pv.vint 43)]
    exact List.Perm.swap _ _ _

/-- Witness: permutation invariance applied at the two concrete
histories. -/
theorem claim_C4_witness :
    Params.WF histP1 = true ∧
    (collectPaths histP1.entries).Perm (collectPaths histP2.entries) ∧
    Params.ToTextWithTypes histP1 = Params.ToTextWithTypes histP2 := by
  have hperm : (collectPaths histP1.entries).Perm
      (collectPaths histP2.entries) := by
    show [([("a" : String)], Pv.vint 43), (["e", "x"], Pv.vint 7)].Perm
      [((["e", "x"] : List String), Pv.vint 7), (["a"], Pv.vint 43)]
    exact List.Perm.swap _ _ _
  exact ⟨rfl, hperm,
    claim_C4_deterministic_serialize.2.2.1 histP1 histP2 rfl hperm⟩

/-! ### Claim C2: executor loop (src/lingvo/executor.py, ExecutorTpu._Loop) -/

/-- Observable events of the executor loop: a program-schedule run that
takes the session's global step from `gBefore` to `gAfter`, and a
checkpoint save labelled with a step. -/
inductive Ev : Type
  | run (gBefore gAfter : Nat)
  | save (label : Nat)
deriving DecidableEq

/-- Event is a program-schedule run. -/
def isRunEv : Ev → Bool
  | Ev.run _ _ => true
  | Ev.save _ => false

/-- Event is a checkpoint save. -/
def isSaveEv : Ev → Bool
  | Ev.run _ _ => false
  | Ev.save _ => true

/-- The `while True` body of `ExecutorTpu._Loop` (src/lingvo/executor.py
lines 279-302): read the global step; if the stop condition holds, save
a final checkpoint labelled with the step just read and return;
otherwise run the selected program schedule (the session's step becomes
`advance g`) and save a checkpoint labelled with the step read at the
top of the iteration, then iterate.  `_ShouldStop` lives in
base_runner.py, which is not under src/, and is modelled from the spec
as the step reaching or exceeding the configured target.  `fuel` bounds
the recursion; `none` means fuel ran out. -/
def loopGo (advance : Nat → Nat) (target : Nat) : Nat → Nat → Option (List Ev)
  | 0, _ => none
  | fuel + 1, g =>
    if target ≤ g then some [Ev.save g]
    else
      match loopGo advance target fuel (advance g) with
      | none => none
      | some evs => some (Ev.run g (advance g) :: Ev.save g :: evs)

/-- Every run event is immediately followed by a save whose label is the
global step read before the run; saves may also stand alone. -/
def runSavePaired : List Ev → Bool
  | [] => true
  | Ev.save _ :: rest => runSavePaired rest
  | Ev.run gB _ :: Ev.save l :: rest => (l == gB) && runSavePaired rest
  | Ev.run _ _ :: [] => false
  | Ev.run _ _ :: Ev.run _ _ :: _ => false

theorem loopGo_spec (advance : Nat → Nat) (hadv : ∀ x, x < advance x)
    (target : Nat) : ∀ fuel g, target - g < fuel →
    ∃ evs pre lf,
      loopGo advance target fuel g = some evs ∧
      evs = pre ++ [Ev.save lf] ∧ target ≤ lf ∧
      (∀ l, Ev.save l ∈ pre → l < target) ∧
      runSavePaired evs = true ∧
      evs.countP isSaveEv = evs.countP isRunEv + 1 ∧
      (∀ gB gA, Ev.run gB gA ∈ evs → gB < target ∧ gA = advance gB) := by
  intro fuel
  induction fuel with
  | zero => intro g h; exact absurd h (Nat.not_lt_zero _)
  | succ fuel ih =>
    intro g h
    by_cases hstop : target ≤ g
    · refine ⟨[Ev.save g], [], g, ?_, rfl, hstop, ?_, rfl, ?_, ?_⟩
      · rw [loopGo, if_pos hstop]
      · intro l hl; exact absurd hl (List.not_mem_nil _)
      · simp [List.countP_cons, isSaveEv, isRunEv]
      · intro gB gA hm; simp at hm
    · have hg : g < target := Nat.lt_of_not_le hstop
      have hlt : target - advance g < fuel := by
        have h1 : g < advance g := hadv g
        omega
      obtain ⟨evs', pre', lf', hloop, hevs, hlf, hpre, hpair, hcnt, hruns⟩ :=
        ih (advance g) hlt
      refine ⟨Ev.run g (advance g) :: Ev.save g :: evs',
        Ev.run g (advance g) :: Ev.save g :: pre', lf', ?_, ?_, hlf, ?_, ?_,
        ?_, ?_⟩
      · rw [loopGo, if_neg hstop, hloop]
      · rw [hevs]; rfl
      · intro l hl
        rcases List.mem_cons.mp hl with h1 | h1
        · exact absurd h1 (by simp)
        · rcases List.mem_cons.mp h1 with h2 | h2
          · have h3 : l = g := by injection h2
            rw [h3]; exact hg
          · exact hpre l h2
      · show ((g == g) && runSavePaired evs') = true
        rw [hpair]
        simp
      · simp only [List.countP_cons, isSaveEv, isRunEv] at *
        omega
      · intro gB gA hm
        rcases List.mem_cons.mp hm with h1 | h1
        · obtain ⟨h2, h3⟩ : gB = g ∧ gA = advance g := by
            injection h1 with ha hb; exact ⟨ha, hb⟩
          rw [h2, h3]; exact ⟨hg, rfl⟩
        · rcases List.mem_cons.mp h1 with h2 | h2
          · exact absurd h2 (by simp)
          · exact hruns gB gA h2

/-- Claim C2: in the executor loop a checkpoint save follows every
program-schedule run (saves = runs + 1 and every run is immediately
followed by a save labelled with the step read at the top of that
iteration); the loop terminates exactly when the step read at the top
of an iteration reaches or exceeds the target: every run starts below
the target, every non-final save is labelled below the target, and the
trace ends with a final save labelled at or above the target. -/
theorem claim_C2_executor_loop (advance : Nat → Nat) (target g0 : Nat)
    (hadv : ∀ x, x < advance x) :
    ∃ evs pre lf,
      loopGo advance target (target - g0 + 1) g0 = some evs ∧
      evs = pre ++ [Ev.save lf] ∧ target ≤ lf ∧
      (∀ l, Ev.save l ∈ pre → l < target) ∧
      runSavePaired evs = true ∧
      evs.countP isSaveEv = evs.countP isRunEv + 1 ∧
      (∀ gB gA, Ev.run gB gA ∈ evs → gB < target ∧ gA = advance gB) :=
  loopGo_spec advance hadv target (target - g0 + 1) g0 (by omega)

/-- Witness: a three-step schedule starting at step 0 with a
step-incrementing run. -/
theorem claim_C2_witness :
    ∃ evs pre lf,
      loopGo Nat.succ 3 (3 - 0 + 1) 0 = some evs ∧
      evs = pre ++ [Ev.save lf] ∧ 3 ≤ lf ∧
      (∀ l, Ev.save l ∈ pre → l < 3) ∧
      runSavePaired evs = true ∧
      evs.countP isSaveEv = evs.countP isRunEv + 1 ∧
      (∀ gB gA, Ev.run gB gA ∈ evs → gB < 3 ∧ gA = Nat.succ gB) :=
  claim_C2_executor_loop Nat.succ 3 0 (fun x => Nat.lt_succ_self x)

/-! ### Claim C10: Checkpointer.RestoreIfNeeded
(src/lingvo/core/checkpointer.py) -/

/-- Abstract environment for one `RestoreIfNeeded` call: the
checkpointer's `save_only` flag, the global variable names (`:0` suffix
stripped), the uninitialized-variable reports the session returns at
each query point, the latest-checkpoint path, and the
`init_from_checkpoint_rules` configuration. -/
structure CkptEnv : Type where
  saveOnly : Bool
  allVars : List String
  uninitPre : List String
  latestPath : Option String
  uninitPostRestore : List String
  hasRules : Bool
  uninitPostRules : List String

/-- Assertion failures of the checkpointer. -/
inductive RErr : Type
  | saveOnlyAssert
  | mismatchAssert (missing : List String)
  | uninitAssert (names : List String)
deriving DecidableEq

/-- Successful outcomes of `RestoreIfNeeded`. -/
inductive ROk : Type
  | noop
  | restored
  | rulesRestored
  | didInit (names : List String)
deriving DecidableEq

/-- Set equality of two name lists. -/
def setEq (a b : List String) : Bool :=
  a.all (fun x => b.contains x) && b.all (fun x => a.contains x)

/-- `Checkpointer.RestoreFromPath` (lines 87-95): asserts the
checkpointer is not save-only, restores, then asserts nothing remains
uninitialized. -/
def RestoreFromPathM (env : CkptEnv) : Except RErr Unit :=
  if env.saveOnly then Except.error RErr.saveOnlyAssert
  else if env.uninitPostRestore.isEmpty then Except.ok ()
  else Except.error (RErr.uninitAssert env.uninitPostRestore)

/-- `Checkpointer._Restore` (lines 120-125): restore from the latest
checkpoint if one exists; returns whether a path was found. -/
def RestoreM (env : CkptEnv) : Except RErr Bool :=
  if env.saveOnly then Except.error RErr.saveOnlyAssert
  else
    match env.latestPath with
    | some _ =>
      match RestoreFromPathM env with
      | Except.ok _ => Except.ok true
      | Except.error e => Except.error e
    | none => Except.ok false

/-- `Checkpointer.RestoreIfNeeded` (lines 130-189): assert not
save-only; return if nothing is uninitialized; assert the uninitialized
set equals the set of all globals (the assert message carries the
sorted difference); restore from the latest checkpoint if any,
re-asserting nothing remains uninitialized; otherwise apply
init-from-checkpoint rules and run the variables initializer on
whatever remains. -/
def RestoreIfNeededM (env : CkptEnv) : Except RErr ROk :=
  if env.saveOnly then Except.error RErr.saveOnlyAssert
  else if env.uninitPre.isEmpty then Except.ok ROk.noop
  else if setEq env.uninitPre env.allVars then
    match RestoreM env with
    | Except.error e => Except.error e
    | Except.ok true =>
      if env.uninitPostRestore.isEmpty then Except.ok ROk.restored
      else Except.error (RErr.uninitAssert env.uninitPostRestore)
    | Except.ok false =>
      if env.hasRules then
        if env.uninitPostRules.isEmpty then Except.ok ROk.rulesRestored
        else Except.ok (ROk.didInit (env.allVars.filter
          (fun v => env.uninitPostRules.contains v)))
      else Except.ok (ROk.didInit (env.allVars.filter
        (fun v => env.uninitPre.contains v)))
  else
    Except.error (RErr.mismatchAssert
      (List.insertionSort (fun a b : String => a ≤ b)
        (env.allVars.filter (fun v => !(env.uninitPre.contains v)))))

/-- Claim C10: for a checkpointer not constructed save-only,
`RestoreIfNeeded` is a no-op when nothing is uninitialized; a
partially-initialized state (uninitialized set differs from the set of
all globals) fails the assertion carrying the sorted difference rather
than being restored over; when the latest checkpoint exists and
variables remain uninitialized after restoring from it, the
post-restore assertion fails; and whenever the call reports a
successful restore, nothing remained uninitialized afterwards. -/
theorem claim_C10_restore_if_needed (env : CkptEnv)
    (hso : env.saveOnly = false) :
    (env.uninitPre = [] → RestoreIfNeededM env = Except.ok ROk.noop) ∧
    (env.uninitPre ≠ [] → setEq env.uninitPre env.allVars = false →
      RestoreIfNeededM env = Except.error (RErr.mismatchAssert
        (List.insertionSort (fun a b : String => a ≤ b)
          (env.allVars.filter (fun v => !(env.uninitPre.contains v)))))) ∧
    (∀ p, env.uninitPre ≠ [] → setEq env.uninitPre env.allVars = true →
      env.latestPath = some p → env.uninitPostRestore ≠ [] →
      RestoreIfNeededM env =
        Except.error (RErr.uninitAssert env.uninitPostRestore)) ∧
    (RestoreIfNeededM env = Except.ok ROk.restored →
      env.uninitPostRestore = []) := by
  refine ⟨?_, ?_, ?_, ?_⟩
  · intro h
    rw [RestoreIfNeededM, hso]
    simp [h]
  · intro h hne
    rw [RestoreIfNeededM, hso]
    simp [List.isEmpty_eq_false_iff_exists_mem.mpr
      (List.exists_mem_of_ne_nil _ h), hne]
  · intro p h hseq hlp hpost
    rw [RestoreIfNeededM, hso]
    rw [RestoreM, hso, hlp, RestoreFromPathM, hso]
    simp [List.isEmpty_eq_false_iff_exists_mem.mpr
      (List.exists_mem_of_ne_nil _ h), hseq,
      List.isEmpty_eq_false_iff_exists_mem.mpr
      (List.exists_mem_of_ne_nil _ hpost)]
  · intro hr
    by_cases hpost : env.uninitPostRestore.isEmpty
    · exact List.isEmpty_iff.mp hpost
    · exfalso
      rw [RestoreIfNeededM, hso] at hr
      by_cases hpre : env.uninitPre.isEmpty
      · simp [hpre] at hr
      · by_cases hseq : setEq env.uninitPre env.allVars
        · rw [RestoreM, hso] at hr
          cases hlp : env.latestPath with
          | some p =>
            rw [hlp, RestoreFromPathM, hso] at hr
            simp [hpre, hseq, hpost] at hr
          | none =>
            rw [hlp] at hr
            by_cases hrules : env.hasRules
            · by_cases hpr : env.uninitPostRules.isEmpty
              · simp [hpre, hseq, hrules, hpr] at hr
              · simp [hpre, hseq, hrules, hpr] at hr
            · simp [hpre, hseq, hrules] at hr
        · simp [hpre, hseq] at hr

/-- Witness: partially-initialized state with variables `a`,`b` where
only `b` is uninitialized fails the set-equality assertion naming `a`. -/
theorem claim_C10_witness :
    (⟨false, ["a", "b"], [], none, [], false, []⟩ : CkptEnv).saveOnly =
      false ∧
    RestoreIfNeededM ⟨false, ["a", "b"], [], none, [], false, []⟩ =
      Except.ok ROk.noop ∧
    RestoreIfNeededM ⟨false, ["a", "b"], ["b"], none, [], false, []⟩ =
      Except.error (RErr.mismatchAssert ["a"]) ∧
    RestoreIfNeededM ⟨false, ["a"], ["a"], some "ckpt-1", ["a"], false,
        []⟩ =
      Except.error (RErr.uninitAssert ["a"]) := by
  refine ⟨rfl, ?_, ?_, ?_⟩
  · exact (claim_C10_restore_if_needed
      ⟨false, ["a", "b"], [], none, [], false, []⟩ rfl).1 rfl
  · have h := (claim_C10_restore_if_needed
      ⟨false, ["a", "b"], ["b"], none, [], false, []⟩ rfl).2.1
      (by simp) (by rfl)
    exact h.trans (by rfl)
  · exact (claim_C10_restore_if_needed
      ⟨false, ["a"], ["a"], some "ckpt-1", ["a"], false, []⟩ rfl).2.2.1
      "ckpt-1" (by simp) (by rfl) rfl (by simp)

/-! ### Store layer: ConfigNodes as heap objects (claims C1, C6, C8).
Modelled from the spec (§3, §4.1): ConfigNodes live on a heap and are
passed by reference; `Copy` deep-clones the reachable node graph
(opaque payloads shared by reference); `Freeze` marks the node and
every nested node reachable through its entries; `Set`/`Define`/
`Delete` invoked on a frozen node fail. -/

/-- Heap values: scalar leaves, opaque payloads identified by a shared
id (passed by reference), and references to nested ConfigNodes. -/
inductive HVal : Type
  | hint (n : Int)
  | hstr (s : String)
  | hbool (b : Bool)
  | hopq (id : Nat)
  | href (a : Nat)
deriving DecidableEq

/-- One ConfigNode on the heap: its frozen flag and its ordered
entries. -/
structure HNode : Type where
  frozen : Bool
  entries : List (String × HVal)
deriving DecidableEq

/-- The heap: the node with address `a` is `st[a]?`. -/
abbrev Store : Type := List HNode

/-- Entry lookup by key. -/
def lookupKV : List (String × HVal) → String → Option HVal
  | [], _ => none
  | (k, v) :: rest, key => if k = key then some v else lookupKV rest key

/-- Replace the value of an existing key. -/
def setKV : List (String × HVal) → String → HVal → List (String × HVal)
  | [], _, _ => []
  | (k, v) :: rest, key, nv =>
    if k = key then (k, nv) :: rest else (k, v) :: setKV rest key nv

/-- Remove a key. -/
def removeKV : List (String × HVal) → String → List (String × HVal)
  | [], _ => []
  | (k, v) :: rest, key =>
    if k = key then rest else (k, v) :: removeKV rest key

/-- `Set` invoked on the node at address `a`: fails on a frozen node,
fails on an unknown key, else replaces the value. -/
def setS (st : Store) (a : Nat) (k : String) (v : HVal) : Option Store :=
  match st[a]? with
  | none => none
  | some nd =>
    if nd.frozen then none
    else if (lookupKV nd.entries k).isSome then
      some (st.set a ⟨nd.frozen, setKV nd.entries k v⟩)
    else none

/-- `Define` invoked on the node at address `a`: fails on a frozen
node, an invalid name or a duplicate name, else appends the entry. -/
def defineS (st : Store) (a : Nat) (k : String) (v : HVal) :
    Option Store :=
  match st[a]? with
  | none => none
  | some nd =>
    if nd.frozen then none
    else if validName k = false then none
    else if (lookupKV nd.entries k).isSome then none
    else some (st.set a ⟨nd.frozen, nd.entries ++ [(k, v)]⟩)

/-- `Delete` invoked on the node at address `a`: fails on a frozen
node, fails on an unknown key, else removes the entry. -/
def deleteS (st : Store) (a : Nat) (k : String) : Option Store :=
  match st[a]? with
  | none => none
  | some nd =>
    if nd.frozen then none
    else if (lookupKV nd.entries k).isSome then
      some (st.set a ⟨nd.frozen, removeKV nd.entries k⟩)
    else none

/-- `Get` of a key on the node at address `a`. -/
def getS (st : Store) (a : Nat) (k : String) : Option HVal :=
  match st[a]? with
  | none => none
  | some nd => lookupKV nd.entries k

/-- Addresses of the nested ConfigNodes held directly in a node's
entries. -/
def succsOf (nd : HNode) : List Nat :=
  nd.entries.filterMap (fun kv =>
    match kv.2 with
    | HVal.href b => some b
    | _ => none)

/-- Direct successors of the node at address `b` (none if the address
is not allocated). -/
def succsAt (st : Store) (b : Nat) : List Nat :=
  match st[b]? with
  | some nd => succsOf nd
  | none => []

/-- All reference targets appearing anywhere in the store. -/
def allSuccs : Store → List Nat
  | [] => []
  | nd :: rest => succsOf nd ++ allSuccs rest

/-- Nodes reachable from `a` by following nested-node references,
including `a` itself. -/
inductive ReachP (st : Store) (a : Nat) : Nat → Prop
  | refl : ReachP st a a
  | step (b c : Nat) (hr : ReachP st a b) (hc : c ∈ succsAt st b) :
      ReachP st a c

/-- Closed store: every reference in every node is an allocated
address. -/
def WFS (st : Store) : Prop :=
  ∀ nd ∈ st, ∀ b ∈ succsOf nd, b < st.length

/-! Generic `List.getElem?` facts used by the store layer. -/

theorem getq_some_lt {α : Type} :
    ∀ (l : List α) (i : Nat) (x : α), l[i]? = some x → i < l.length
  | [], i, x, h => by simp at h
  | a :: l, 0, x, _ => Nat.succ_pos _
  | a :: l, i + 1, x, h =>
    Nat.succ_lt_succ (getq_some_lt l i x (by simpa using h))

theorem getq_lt_isSome {α : Type} :
    ∀ (l : List α) (i : Nat), i < l.length → ∃ x, l[i]? = some x
  | [], i, h => absurd h (by simp)
  | a :: l, 0, _ => ⟨a, by simp⟩
  | a :: l, i + 1, h => by
    have h2 := getq_lt_isSome l i (Nat.lt_of_succ_lt_succ (by simpa using h))
    simpa using h2

theorem getq_mem {α : Type} :
    ∀ (l : List α) (i : Nat) (x : α), l[i]? = some x → x ∈ l
  | [], i, x, h => by simp at h
  | a :: l, 0, x, h => by
    simp at h
    rw [← h]
    exact List.mem_cons_self a l
  | a :: l, i + 1, x, h =>
    List.mem_cons_of_mem a (getq_mem l i x (by simpa using h))

theorem getq_append_left {α : Type} :
    ∀ (l₁ l₂ : List α) (i : Nat), i < l₁.length →
      (l₁ ++ l₂)[i]? = l₁[i]?
  | [], _, i, h => absurd h (by simp)
  | a :: l₁, l₂, 0, _ => by simp
  | a :: l₁, l₂, i + 1, h => by
    have := getq_append_left l₁ l₂ i (Nat.lt_of_succ_lt_succ (by simpa using h))
    simpa using this

theorem getq_append_self {α : Type} :
    ∀ (l : List α) (x : α), (l ++ [x])[l.length]? = some x
  | [], x => rfl
  | a :: l, x => by simpa using getq_append_self l x

theorem getq_set_self {α : Type} :
    ∀ (l : List α) (i : Nat) (x : α), i < l.length →
      (l.set i x)[i]? = some x
  | [], i, x, h => absurd h (by simp)
  | a :: l, 0, x, _ => by simp
  | a :: l, i + 1, x, h => by
    have := getq_set_self l i x (Nat.lt_of_succ_lt_succ (by simpa using h))
    simpa using this

theorem getq_set_other {α : Type} :
    ∀ (l : List α) (i j : Nat) (x : α), i ≠ j →
      (l.set i x)[j]? = l[j]?
  | [], _, _, _, _ => by simp
  | a :: l, 0, 0, x, h => absurd rfl h
  | a :: l, 0, j + 1, x, _ => by simp
  | a :: l, i + 1, 0, x, _ => by simp
  | a :: l, i + 1, j + 1, x, h => by
    have := getq_set_other l i j x (fun he => h (by rw [he]))
    simpa using this

/-! Computing the reachable address set for `Freeze`. -/

/-- Add the elements of the second list that are not already present. -/
def addNew : List Nat → List Nat → List Nat
  | s, [] => s
  | s, x :: xs => if s.contains x then addNew s xs else addNew (x :: s) xs

/-- Successors of every address in a list. -/
def succsList (st : Store) : List Nat → List Nat
  | [] => []
  | b :: bs => succsAt st b ++ succsList st bs

/-- One closure step: add all direct successors. -/
def stepS (st : Store) (s : List Nat) : List Nat :=
  addNew s (succsList st s)

/-- Iterated closure step. -/
def iterN (st : Store) : Nat → List Nat → List Nat
  | 0, s => s
  | n + 1, s => iterN st n (stepS st s)

/-- The addresses `Freeze` marks: the closure of `{a}` under direct
successors, reached within a number of steps that always suffices. -/
def reachS (st : Store) (a : Nat) : List Nat :=
  iterN st ((a :: allSuccs st).length + 1) [a]

theorem contains_iff_memN (l : List Nat) (x : Nat) :
    l.contains x = true ↔ x ∈ l :=
  ⟨fun h => List.mem_of_elem_eq_true h, fun h => List.elem_eq_true_of_mem h⟩

theorem addNew_subset_left : ∀ (xs s : List Nat), s ⊆ addNew s xs
  | [], s => fun _ h => h
  | x :: xs, s => by
    rw [addNew]
    by_cases hc : s.contains x
    · rw [if_pos hc]; exact addNew_subset_left xs s
    · rw [if_neg hc]
      exact fun y hy => addNew_subset_left xs (x :: s)
        (List.mem_cons_of_mem x hy)

theorem mem_addNew : ∀ (xs s : List Nat) (x : Nat), x ∈ xs → x ∈ addNew s xs
  | [], _, _, h => absurd h (List.not_mem_nil _)
  | y :: xs, s, x, h => by
    rw [addNew]
    rcases List.mem_cons.mp h with h1 | h1
    · subst h1
      by_cases hc : s.contains x
      · rw [if_pos hc]
        exact addNew_subset_left xs s ((contains_iff_memN s x).mp hc)
      · rw [if_neg hc]
        exact addNew_subset_left xs (x :: s) (List.mem_cons_self x s)
    · by_cases hc : s.contains y
      · rw [if_pos hc]; exact mem_addNew xs s x h1
      · rw [if_neg hc]; exact mem_addNew xs (y :: s) x h1

theorem addNew_subset : ∀ (xs s : List Nat), addNew s xs ⊆ s ++ xs
  | [], s => by rw [addNew]; simp
  | x :: xs, s => by
    rw [addNew]
    by_cases hc : s.contains x
    · rw [if_pos hc]
      intro y hy
      have := addNew_subset xs s hy
      simp at this ⊢
      tauto
    · rw [if_neg hc]
      intro y hy
      have := addNew_subset xs (x :: s) hy
      simp at this ⊢
      tauto

theorem addNew_nodup : ∀ (xs s : List Nat), s.Nodup → (addNew s xs).Nodup
  | [], _, h => h
  | x :: xs, s, h => by
    rw [addNew]
    by_cases hc : s.contains x
    · rw [if_pos hc]; exact addNew_nodup xs s h
    · rw [if_neg hc]
      refine addNew_nodup xs (x :: s) (List.nodup_cons.mpr ⟨?_, h⟩)
      intro hm
      exact hc ((contains_iff_memN s x).mpr hm)

theorem addNew_eq_or_lt : ∀ (xs s : List Nat),
    addNew s xs = s ∨ s.length < (addNew s xs).length
  | [], s => Or.inl rfl
  | x :: xs, s => by
    rw [addNew]
    by_cases hc : s.contains x
    · rw [if_pos hc]; exact addNew_eq_or_lt xs s
    · rw [if_neg hc]
      rcases addNew_eq_or_lt xs (x :: s) with h | h
      · right; rw [h]; exact Nat.lt_succ_self _
      · right; exact Nat.lt_trans (Nat.lt_succ_self _) h

theorem addNew_eq_of_subset : ∀ (xs s : List Nat), xs ⊆ s → addNew s xs = s
  | [], s, _ => rfl
  | x :: xs, s, h => by
    rw [addNew]
    have hx : x ∈ s := h (List.mem_cons_self x xs)
    rw [if_pos ((contains_iff_memN s x).mpr hx)]
    exact addNew_eq_of_subset xs s (fun y hy => h (List.mem_cons_of_mem x hy))

theorem mem_succsList (st : Store) :
    ∀ (s : List Nat) (b x : Nat), b ∈ s → x ∈ succsAt st b →
      x ∈ succsList st s
  | [], _, _, hb, _ => absurd hb (List.not_mem_nil _)
  | c :: s, b, x, hb, hx => by
    rw [succsList]
    rcases List.mem_cons.mp hb with h1 | h1
    · subst h1; exact List.mem_append_left _ hx
    · exact List.mem_append_right _ (mem_succsList st s b x h1 hx)

theorem succsList_mem_inv (st : Store) :
    ∀ (s : List Nat) (x : Nat), x ∈ succsList st s →
      ∃ b ∈ s, x ∈ succsAt st b
  | [], _, hx => absurd hx (List.not_mem_nil _)
  | c :: s, x, hx => by
    rw [succsList] at hx
    rcases List.mem_append.mp hx with h1 | h1
    · exact ⟨c, List.mem_cons_self c s, h1⟩
    · obtain ⟨b, hb, hxb⟩ := succsList_mem_inv st s x h1
      exact ⟨b, List.mem_cons_of_mem c hb, hxb⟩

theorem succsOf_subset_allSuccs :
    ∀ (st : Store) (nd : HNode), nd ∈ st → succsOf nd ⊆ allSuccs st
  | [], _, h => absurd h (List.not_mem_nil _)
  | nd0 :: st, nd, h => by
    rw [allSuccs]
    rcases List.mem_cons.mp h with h1 | h1
    · subst h1; exact fun x hx => List.mem_append_left _ hx
    · exact fun x hx =>
        List.mem_append_right _ (succsOf_subset_allSuccs st nd h1 hx)

theorem succsAt_subset_allSuccs (st : Store) (b : Nat) :
    succsAt st b ⊆ allSuccs st := by
  rw [succsAt]
  cases h : st[b]? with
  | none => exact fun x hx => absurd hx (List.not_mem_nil _)
  | some nd => exact succsOf_subset_allSuccs st nd (getq_mem st b nd h)

theorem succsList_subset_allSuccs (st : Store) :
    ∀ s : List Nat, succsList st s ⊆ allSuccs st
  | [] => fun x hx => absurd hx (List.not_mem_nil _)
  | b :: s => by
    rw [succsList]
    intro x hx
    rcases List.mem_append.mp hx with h1 | h1
    · exact succsAt_subset_allSuccs st b h1
    · exact succsList_subset_allSuccs st s h1

theorem subset_stepS (st : Store) (s : List Nat) : s ⊆ stepS st s :=
  addNew_subset_left _ _

theorem stepS_inv (st : Store) (a : Nat) (s : List Nat)
    (h : s ⊆ a :: allSuccs st) : stepS st s ⊆ a :: allSuccs st := by
  intro x hx
  rcases List.mem_append.mp (addNew_subset _ _ hx) with h1 | h1
  · exact h h1
  · exact List.mem_cons_of_mem a (succsList_subset_allSuccs st s h1)

theorem stepS_nodup (st : Store) (s : List Nat) (h : s.Nodup) :
    (stepS st s).Nodup := addNew_nodup _ _ h

theorem iterN_fix (st : Store) :
    ∀ (n : Nat) (s : List Nat), stepS st s = s → iterN st n s = s
  | 0, _, _ => rfl
  | n + 1, s, h => by rw [iterN, h]; exact iterN_fix st n s h

theorem subset_iterN (st : Store) :
    ∀ (n : Nat) (s : List Nat), s ⊆ iterN st n s
  | 0, _ => fun _ h => h
  | n + 1, s => by
    rw [iterN]
    exact fun x hx =>
      subset_iterN st n (stepS st s) (subset_stepS st s hx)

theorem iterN_stable (st : Store) (a : Nat) :
    ∀ (n : Nat) (s : List Nat), s.Nodup → s ⊆ a :: allSuccs st →
      (a :: allSuccs st).length + 1 ≤ n + s.length →
      stepS st (iterN st n s) = iterN st n s
  | 0, s, hnd, hsub, hlen => by
    exfalso
    have h1 : s.toFinset.card = s.length := List.toFinset_card_of_nodup hnd
    have h2 : s.toFinset ⊆ (a :: allSuccs st).toFinset := by
      intro x hx
      rw [List.mem_toFinset] at hx ⊢
      exact hsub hx
    have h3 := Finset.card_le_card h2
    have h4 := List.toFinset_card_le (a :: allSuccs st)
    omega
  | n + 1, s, hnd, hsub, hlen => by
    rcases addNew_eq_or_lt (succsList st s) s with h | h
    · have hfix : stepS st s = s := h
      rw [iterN, hfix, iterN_fix st n s hfix]
      exact hfix
    · rw [iterN]
      refine iterN_stable st a n (stepS st s) (stepS_nodup st s hnd)
        (stepS_inv st a s hsub) ?_
      have : s.length < (stepS st s).length := h
      omega

theorem self_mem_reachS (st : Store) (a : Nat) : a ∈ reachS st a :=
  subset_iterN st _ [a] (List.mem_cons_self a [])

theorem reachS_closed (st : Store) (a : Nat) :
    stepS st (reachS st a) = reachS st a := by
  refine iterN_stable st a ((a :: allSuccs st).length + 1) [a]
    (List.nodup_singleton a) ?_ ?_
  · intro x hx
    rcases List.mem_cons.mp hx with h | h
    · rw [h]; exact List.mem_cons_self a _
    · exact absurd h (List.not_mem_nil _)
  · simp

theorem mem_reachS_of_reachP (st : Store) (a : Nat) :
    ∀ b, ReachP st a b → b ∈ reachS st a := by
  intro b hr
  induction hr with
  | refl => exact self_mem_reachS st a
  | step b c hr hc ih =>
    have h1 : c ∈ succsList st (reachS st a) :=
      mem_succsList st (reachS st a) b c ih hc
    have h2 : c ∈ stepS st (reachS st a) := mem_addNew _ _ c h1
    rw [reachS_closed st a] at h2
    exact h2

/-! Marking nodes frozen. -/

/-- Mark the node at address `b` frozen (no-op on unallocated
addresses). -/
def markA (st : Store) (b : Nat) : Store :=
  match st[b]? with
  | some nd => st.set b ⟨true, nd.entries⟩
  | none => st

/-- Mark every address in a list frozen. -/
def markList : Store → List Nat → Store
  | st, [] => st
  | st, b :: bs => markList (markA st b) bs

/-- `Freeze()` invoked on the node at address `a`: marks `a` and every
nested ConfigNode reachable through entries as frozen (§4.1). -/
def freezeS (st : Store) (a : Nat) : Store := markList st (reachS st a)

theorem markA_get_self (st : Store) (b : Nat) (nd : HNode)
    (h : st[b]? = some nd) : (markA st b)[b]? = some ⟨true, nd.entries⟩ := by
  rw [markA, h]
  exact getq_set_self st b _ (getq_some_lt st b nd h)

theorem markA_get_other (st : Store) (b c : Nat) (h : c ≠ b) :
    (markA st b)[c]? = st[c]? := by
  rw [markA]
  cases hb : st[b]? with
  | none => rfl
  | some nd => exact getq_set_other st b c _ (fun he => h he.symm)

theorem markList_get_not :
    ∀ (bs : List Nat) (st : Store) (c : Nat), c ∉ bs →
      (markList st bs)[c]? = st[c]?
  | [], _, _, _ => rfl
  | b :: bs, st, c, h => by
    rw [markList]
    have h1 : c ∉ bs := fun hm => h (List.mem_cons_of_mem b hm)
    have h2 : c ≠ b := fun he => h (he ▸ List.mem_cons_self b bs)
    rw [markList_get_not bs (markA st b) c h1, markA_get_other st b c h2]

theorem markList_get_mem :
    ∀ (bs : List Nat) (st : Store) (c : Nat) (nd : HNode), c ∈ bs →
      st[c]? = some nd → (markList st bs)[c]? = some ⟨true, nd.entries⟩
  | [], _, _, _, h, _ => absurd h (List.not_mem_nil _)
  | b :: bs, st, c, nd, h, hget => by
    rw [markList]
    rcases List.mem_cons.mp h with h1 | h1
    · subst h1
      by_cases h2 : c ∈ bs
      · exact markList_get_mem bs (markA st c) c ⟨true, nd.entries⟩ h2
          (markA_get_self st c nd hget)
      · rw [markList_get_not bs (markA st c) c h2]
        exact markA_get_self st c nd hget
    · by_cases h2 : c = b
      · subst h2
        exact markList_get_mem bs (markA st c) c ⟨true, nd.entries⟩ h1
          (markA_get_self st c nd hget)
      · refine markList_get_mem bs (markA st b) c nd h1 ?_
        rw [markA_get_other st b c h2, hget]

/-! Reachability bounds in an extended store. -/

theorem succsAt_append (st ext : Store) (b : Nat) (h : b < st.length) :
    succsAt (st ++ ext) b = succsAt st b := by
  rw [succsAt, succsAt, getq_append_left st ext b h]

theorem succsAt_lt (st : Store) (hwf : WFS st) (b x : Nat)
    (hx : x ∈ succsAt st b) : x < st.length := by
  rw [succsAt] at hx
  cases hb : st[b]? with
  | none => rw [hb] at hx; exact absurd hx (List.not_mem_nil _)
  | some nd =>
    rw [hb] at hx
    exact hwf nd (getq_mem st b nd hb) x hx

theorem iterN_lt (st ext : Store) (hwf : WFS st) :
    ∀ (n : Nat) (s : List Nat), (∀ x ∈ s, x < st.length) →
      ∀ x ∈ iterN (st ++ ext) n s, x < st.length
  | 0, s, hs => hs
  | n + 1, s, hs => by
    rw [iterN]
    refine iterN_lt st ext hwf n (stepS (st ++ ext) s) ?_
    intro x hx
    rcases List.mem_append.mp (addNew_subset _ _ hx) with h1 | h1
    · exact hs x h1
    · obtain ⟨b, hb, hxb⟩ := succsList_mem_inv (st ++ ext) s x h1
      have hblt : b < st.length := hs b hb
      rw [succsAt_append st ext b hblt] at hxb
      exact succsAt_lt st hwf b x hxb

theorem reachS_lt (st ext : Store) (a : Nat) (hwf : WFS st)
    (ha : a < st.length) : ∀ x ∈ reachS (st ++ ext) a, x < st.length := by
  refine iterN_lt st ext hwf _ [a] ?_
  intro x hx
  rcases List.mem_cons.mp hx with h | h
  · rw [h]; exact ha
  · exact absurd h (List.not_mem_nil _)

theorem reachP_lt (st ext : Store) (a : Nat) (hwf : WFS st)
    (ha : a < st.length) : ∀ b, ReachP (st ++ ext) a b → b < st.length := by
  intro b hr
  induction hr with
  | refl => exact ha
  | step b c hr hc ih =>
    rw [succsAt_append st ext b ih] at hc
    exact succsAt_lt st hwf b c hc

theorem reachP_ge (st₂ : Store) (c n : Nat) (hc : n ≤ c)
    (hreg : ∀ i nd, n ≤ i → st₂[i]? = some nd → ∀ b ∈ succsOf nd, n ≤ b) :
    ∀ d, ReachP st₂ c d → n ≤ d := by
  intro d hr
  induction hr with
  | refl => exact hc
  | step b d hr hb ih =>
    rw [succsAt] at hb
    cases hget : st₂[b]? with
    | none => rw [hget] at hb; exact absurd hb (List.not_mem_nil _)
    | some nd =>
      rw [hget] at hb
      exact hreg b nd ih hget d hb

/-! Deep copy. -/

mutual

/-- `Copy()` of the node at address `a`: clone the node's entries
(recursively cloning nested nodes into fresh addresses at the end of
the store, sharing opaque payloads by reference), then allocate the
clone, returning the extended store and the clone's address.  `fuel`
bounds recursion depth. -/
def copyGo : Nat → Store → Nat → Option (Store × Nat)
  | 0, _, _ => none
  | fuel + 1, st, a =>
    match st[a]? with
    | none => none
    | some nd =>
      match copyKVs fuel st nd.entries with
      | none => none
      | some (st', es') => some (st' ++ [⟨nd.frozen, es'⟩], st'.length)

/-- Clone an entry list: scalar and opaque values are kept as they are
(opaque ids stay shared), nested-node references are redirected to
fresh clones. -/
def copyKVs : Nat → Store → List (String × HVal) →
    Option (Store × List (String × HVal))
  | 0, _, _ => none
  | _ + 1, st, [] => some (st, [])
  | fuel + 1, st, (k, HVal.href b) :: rest =>
    match copyGo fuel st b with
    | none => none
    | some (st1, b') =>
      match copyKVs fuel st1 rest with
      | none => none
      | some (st2, rest') => some (st2, (k, HVal.href b') :: rest')
  | fuel + 1, st, (k, HVal.hint n) :: rest =>
    match copyKVs fuel st rest with
    | none => none
    | some (st2, rest') => some (st2, (k, HVal.hint n) :: rest')
  | fuel + 1, st, (k, HVal.hstr s) :: rest =>
    match copyKVs fuel st rest with
    | none => none
    | some (st2, rest') => some (st2, (k, HVal.hstr s) :: rest')
  | fuel + 1, st, (k, HVal.hbool b) :: rest =>
    match copyKVs fuel st rest with
    | none => none
    | some (st2, rest') => some (st2, (k, HVal.hbool b) :: rest')
  | fuel + 1, st, (k, HVal.hopq i) :: rest =>
    match copyKVs fuel st rest with
    | none => none
    | some (st2, rest') => some (st2, (k, HVal.hopq i) :: rest')

end

theorem mem_succsOf (nd : HNode) (b : Nat) :
    b ∈ succsOf nd ↔ HVal.href b ∈ nd.entries.map Prod.snd := by
  rw [succsOf]
  constructor
  · intro h
    obtain ⟨kv, hkv, hb⟩ := List.mem_filterMap.mp h
    refine List.mem_map.mpr ⟨kv, hkv, ?_⟩
    cases hv : kv.2 with
    | href c => rw [hv] at hb; simp at hb; rw [hb]
    | hint n => rw [hv] at hb; simp at hb
    | hstr s => rw [hv] at hb; simp at hb
    | hbool x => rw [hv] at hb; simp at hb
    | hopq i => rw [hv] at hb; simp at hb
  · intro h
    obtain ⟨kv, hkv, hb⟩ := List.mem_map.mp h
    refine List.mem_filterMap.mpr ⟨kv, hkv, ?_⟩
    rw [hb]

mutual

theorem copyGo_spec : ∀ (fuel : Nat) (st : Store) (a : Nat) (st₂ : Store)
    (c : Nat), copyGo fuel st a = some (st₂, c) →
    (∃ ext, st₂ = st ++ ext) ∧ st.length ≤ c ∧ c < st₂.length ∧
    (∀ i nd, st.length ≤ i → st₂[i]? = some nd →
      ∀ b ∈ succsOf nd, st.length ≤ b ∧ b < st₂.length) ∧
    (∃ nd es', st[a]? = some nd ∧ st₂[c]? = some ⟨nd.frozen, es'⟩ ∧
      es'.map Prod.fst = nd.entries.map Prod.fst)
  | 0, st, a, st₂, c => by
    intro h; rw [copyGo] at h; exact Option.noConfusion h
  | fuel + 1, st, a, st₂, c => by
    intro h
    rw [copyGo] at h
    cases han : st[a]? with
    | none => rw [han] at h; exact Option.noConfusion h
    | some nd =>
      rw [han] at h
      replace h : (match copyKVs fuel st nd.entries with
        | none => none
        | some (st', es') =>
          some (st' ++ [(⟨nd.frozen, es'⟩ : HNode)], st'.length)) =
        some (st₂, c) := h
      cases hkv : copyKVs fuel st nd.entries with
      | none => rw [hkv] at h; exact Option.noConfusion h
      | some p =>
        obtain ⟨st', es'⟩ := p
        rw [hkv] at h
        obtain ⟨hst2, hc⟩ : st' ++ [(⟨nd.frozen, es'⟩ : HNode)] = st₂ ∧
            st'.length = c := by
          injection h with h3
          exact Prod.mk.inj h3
        obtain ⟨⟨ext, hext⟩, hreg, hrefs, hkeys⟩ :=
          copyKVs_spec fuel st nd.entries st' es' hkv
        have hlen : st.length ≤ st'.length := by
          rw [hext, List.length_append]; omega
        refine ⟨⟨ext ++ [⟨nd.frozen, es'⟩], by
          rw [← hst2, hext, List.append_assoc]⟩, ?_, ?_, ?_, ?_⟩
        · omega
        · rw [← hst2, ← hc, List.length_append]
          simp
        · intro i nd2 hi hget b hb
          rw [← hst2] at hget
          rcases lt_trichotomy i st'.length with hlt | heq | hgt
          · rw [getq_append_left st' _ i hlt] at hget
            obtain ⟨hb1, hb2⟩ := hreg i nd2 hi hget b hb
            refine ⟨hb1, ?_⟩
            rw [← hst2, List.length_append]
            omega
          · rw [heq, getq_append_self st' _] at hget
            have hnd2 : nd2 = ⟨nd.frozen, es'⟩ := by
              injection hget with h5
              exact h5.symm
            rw [hnd2] at hb
            have := (mem_succsOf _ b).mp hb
            obtain ⟨hb1, hb2⟩ := hrefs b this
            refine ⟨hb1, ?_⟩
            rw [← hst2, List.length_append]
            omega
          · exfalso
            have := getq_some_lt _ i nd2 hget
            rw [List.length_append] at this
            simp at this
            omega
        · refine ⟨nd, es', rfl, ?_, hkeys⟩
          rw [← hst2, ← hc]
          exact getq_append_self st' _

theorem copyKVs_spec : ∀ (fuel : Nat) (st : Store)
    (es : List (String × HVal)) (st₂ : Store)
    (es' : List (String × HVal)), copyKVs fuel st es = some (st₂, es') →
    (∃ ext, st₂ = st ++ ext) ∧
    (∀ i nd, st.length ≤ i → st₂[i]? = some nd →
      ∀ b ∈ succsOf nd, st.length ≤ b ∧ b < st₂.length) ∧
    (∀ b, HVal.href b ∈ es'.map Prod.snd →
      st.length ≤ b ∧ b < st₂.length) ∧
    es'.map Prod.fst = es.map Prod.fst
  | 0, st, es, st₂, es' => by
    intro h; rw [copyKVs] at h; exact Option.noConfusion h
  | fuel + 1, st, [], st₂, es' => by
    intro h
    rw [copyKVs] at h
    obtain ⟨hst, hes⟩ : st = st₂ ∧ ([] : List (String × HVal)) = es' := by
      injection h with h3
      exact Prod.mk.inj h3
    subst hst; subst hes
    refine ⟨⟨[], by simp⟩, ?_, ?_, rfl⟩
    · intro i nd hi hget b hb
      exact absurd (getq_some_lt _ i nd hget) (by omega)
    · intro b hb; exact absurd hb (List.not_mem_nil _)
  | fuel + 1, st, (k, HVal.href b0) :: rest, st₂, es' => by
    intro h
    rw [copyKVs] at h
    cases hcg : copyGo fuel st b0 with
    | none => rw [hcg] at h; exact Option.noConfusion h
    | some p1 =>
      obtain ⟨st1, b'⟩ := p1
      rw [hcg] at h
      replace h : (match copyKVs fuel st1 rest with
        | none => none
        | some (st2, rest') =>
          some (st2, (k, HVal.href b') :: rest')) = some (st₂, es') := h
      cases hkv : copyKVs fuel st1 rest with
      | none => rw [hkv] at h; exact Option.noConfusion h
      | some p2 =>
        obtain ⟨st2, rest'⟩ := p2
        rw [hkv] at h
        obtain ⟨hst, hes⟩ : st2 = st₂ ∧ (k, HVal.href b') :: rest' = es' := by
          injection h with h3
          exact Prod.mk.inj h3
        subst hst
        obtain ⟨⟨ext1, hext1⟩, hge1, hlt1, hreg1, -⟩ :=
          copyGo_spec fuel st b0 st1 b' hcg
        obtain ⟨⟨ext2, hext2⟩, hreg2, hrefs2, hkeys2⟩ :=
          copyKVs_spec fuel st1 rest st2 rest' hkv
        have hl1 : st.length ≤ st1.length := by
          rw [hext1, List.length_append]; omega
        have hl2 : st1.length ≤ st2.length := by
          rw [hext2, List.length_append]; omega
        refine ⟨⟨ext1 ++ ext2, by rw [hext2, hext1, List.append_assoc]⟩,
          ?_, ?_, ?_⟩
        · intro i nd hi hget b hb
          by_cases hi1 : i < st1.length
          · rw [hext2, getq_append_left st1 ext2 i hi1] at hget
            obtain ⟨hb1, hb2⟩ := hreg1 i nd hi hget b hb
            exact ⟨hb1, by omega⟩
          · obtain ⟨hb1, hb2⟩ := hreg2 i nd (by omega) hget b hb
            exact ⟨by omega, hb2⟩
        · intro b hb
          rw [← hes] at hb
          simp only [List.map_cons] at hb
          rcases List.mem_cons.mp hb with h1 | h1
          · have hbb : b = b' := by injection h1
            rw [hbb]
            exact ⟨hge1, by omega⟩
          · obtain ⟨hb1, hb2⟩ := hrefs2 b h1
            exact ⟨by omega, hb2⟩
        · rw [← hes]
          simp only [List.map_cons]
          rw [hkeys2]
  | fuel + 1, st, (k, HVal.hint n) :: rest, st₂, es' => by
    intro h
    rw [copyKVs] at h
    cases hkv : copyKVs fuel st rest with
    | none => rw [hkv] at h; exact Option.noConfusion h
    | some p2 =>
      obtain ⟨st2, rest'⟩ := p2
      rw [hkv] at h
      obtain ⟨hst, hes⟩ : st2 = st₂ ∧ (k, HVal.hint n) :: rest' = es' := by
        injection h with h3
        exact Prod.mk.inj h3
      subst hst
      obtain ⟨hext, hreg, hrefs, hkeys⟩ :=
        copyKVs_spec fuel st rest st2 rest' hkv
      refine ⟨hext, hreg, ?_, ?_⟩
      · intro b hb
        rw [← hes] at hb
        simp only [List.map_cons] at hb
        rcases List.mem_cons.mp hb with h1 | h1
        · exact absurd h1 (by simp)
        · exact hrefs b h1
      · rw [← hes]
        simp only [List.map_cons]
        rw [hkeys]
  | fuel + 1, st, (k, HVal.hstr s) :: rest, st₂, es' => by
    intro h
    rw [copyKVs] at h
    cases hkv : copyKVs fuel st rest with
    | none => rw [hkv] at h; exact Option.noConfusion h
    | some p2 =>
      obtain ⟨st2, rest'⟩ := p2
      rw [hkv] at h
      obtain ⟨hst, hes⟩ : st2 = st₂ ∧ (k, HVal.hstr s) :: rest' = es' := by
        injection h with h3
        exact Prod.mk.inj h3
      subst hst
      obtain ⟨hext, hreg, hrefs, hkeys⟩ :=
        copyKVs_spec fuel st rest st2 rest' hkv
      refine ⟨hext, hreg, ?_, ?_⟩
      · intro b hb
        rw [← hes] at hb
        simp only [List.map_cons] at hb
        rcases List.mem_cons.mp hb with h1 | h1
        · exact absurd h1 (by simp)
        · exact hrefs b h1
      · rw [← hes]
        simp only [List.map_cons]
        rw [hkeys]
  | fuel + 1, st, (k, HVal.hbool bb) :: rest, st₂, es' => by
    intro h
    rw [copyKVs] at h
    cases hkv : copyKVs fuel st rest with
    | none => rw [hkv] at h; exact Option.noConfusion h
    | some p2 =>
      obtain ⟨st2, rest'⟩ := p2
      rw [hkv] at h
      obtain ⟨hst, hes⟩ : st2 = st₂ ∧ (k, HVal.hbool bb) :: rest' = es' := by
        injection h with h3
        exact Prod.mk.inj h3
      subst hst
      obtain ⟨hext, hreg, hrefs, hkeys⟩ :=
        copyKVs_spec fuel st rest st2 rest' hkv
      refine ⟨hext, hreg, ?_, ?_⟩
      · intro b hb
        rw [← hes] at hb
        simp only [List.map_cons] at hb
        rcases List.mem_cons.mp hb with h1 | h1
        · exact absurd h1 (by simp)
        · exact hrefs b h1
      · rw [← hes]
        simp only [List.map_cons]
        rw [hkeys]
  | fuel + 1, st, (k, HVal.hopq i0) :: rest, st₂, es' => by
    intro h
    rw [copyKVs] at h
    cases hkv : copyKVs fuel st rest with
    | none => rw [hkv] at h; exact Option.noConfusion h
    | some p2 =>
      obtain ⟨st2, rest'⟩ := p2
      rw [hkv] at h
      obtain ⟨hst, hes⟩ : st2 = st₂ ∧ (k, HVal.hopq i0) :: rest' = es' := by
        injection h with h3
        exact Prod.mk.inj h3
      subst hst
      obtain ⟨hext, hreg, hrefs, hkeys⟩ :=
        copyKVs_spec fuel st rest st2 rest' hkv
      refine ⟨hext, hreg, ?_, ?_⟩
      · intro b hb
        rw [← hes] at hb
        simp only [List.map_cons] at hb
        rcases List.mem_cons.mp hb with h1 | h1
        · exact absurd h1 (by simp)
        · exact hrefs b h1
      · rw [← hes]
        simp only [List.map_cons]
        rw [hkeys]

end

/-! Reading through dotted paths, and locality of mutation. -/

/-- `Get` through a dotted path starting at the node at address `a`,
following nested-node references. -/
def getPathS : Nat → Store → Nat → List String → Option HVal
  | 0, _, _, _ => none
  | _ + 1, _, _, [] => none
  | _ + 1, st, a, [k] => getS st a k
  | fuel + 1, st, a, k :: k2 :: rest =>
    match getS st a k with
    | some (HVal.href b) => getPathS fuel st b (k2 :: rest)
    | some (HVal.hint _) => none
    | some (HVal.hstr _) => none
    | some (HVal.hbool _) => none
    | some (HVal.hopq _) => none
    | none => none

theorem lookupKV_mem_snd :
    ∀ (es : List (String × HVal)) (k : String) (v : HVal),
      lookupKV es k = some v → v ∈ es.map Prod.snd
  | [], _, _, h => Option.noConfusion h
  | (k0, v0) :: rest, k, v, h => by
    rw [lookupKV] at h
    by_cases he : k0 = k
    · rw [if_pos he] at h
      have : v0 = v := by injection h
      rw [← this]
      exact List.mem_cons_self _ _
    · rw [if_neg he] at h
      exact List.mem_cons_of_mem _ (lookupKV_mem_snd rest k v h)

theorem getS_succ (st : Store) (a : Nat) (k : String) (b : Nat)
    (h : getS st a k = some (HVal.href b)) : b ∈ succsAt st a := by
  rw [getS] at h
  cases hget : st[a]? with
  | none => rw [hget] at h; exact Option.noConfusion h
  | some nd =>
    rw [hget] at h
    rw [succsAt, hget]
    exact (mem_succsOf nd b).mpr (lookupKV_mem_snd nd.entries k _ h)

theorem getS_agree (st st' : Store) (b : Nat) (k : String)
    (h : st'[b]? = st[b]?) : getS st' b k = getS st b k := by
  rw [getS, getS, h]

theorem getPath_agree (st st' : Store) (a d : Nat)
    (hag : ∀ x, x ≠ d → st'[x]? = st[x]?) (hnr : ¬ ReachP st a d) :
    ∀ (fuel : Nat) (b : Nat) (path : List String), ReachP st a b →
      getPathS fuel st' b path = getPathS fuel st b path
  | 0, b, path, _ => by rw [getPathS, getPathS]
  | fuel + 1, b, [], _ => by rw [getPathS, getPathS]
  | fuel + 1, b, [k], hb => by
    have hbd : b ≠ d := fun he => hnr (he ▸ hb)
    rw [getPathS, getPathS]
    exact getS_agree st st' b k (hag b hbd)
  | fuel + 1, b, k :: k2 :: rest, hb => by
    have hbd : b ≠ d := fun he => hnr (he ▸ hb)
    have hgs : getS st' b k = getS st b k :=
      getS_agree st st' b k (hag b hbd)
    rw [getPathS, getPathS, hgs]
    cases hv : getS st b k with
    | none => rfl
    | some v =>
      cases v with
      | href b' =>
        exact getPath_agree st st' a d hag hnr fuel b' (k2 :: rest)
          (ReachP.step b b' hb (getS_succ st b k b' hv))
      | hint n => rfl
      | hstr s => rfl
      | hbool x => rfl
      | hopq i => rfl

/-- A successful `Set`, `Define` or `Delete` at address `d` changes no
other address. -/
theorem mutS_changes_only (st : Store) (d : Nat) (k : String) (v : HVal)
    (st' : Store)
    (h : setS st d k v = some st' ∨ defineS st d k v = some st' ∨
      deleteS st d k = some st') :
    ∀ x, x ≠ d → st'[x]? = st[x]? := by
  intro x hx
  have hx' : d ≠ x := fun he => hx he.symm
  rcases h with h | h | h
  · cases hget : st[d]? with
    | none => rw [setS, hget] at h; exact Option.noConfusion h
    | some nd =>
      rw [setS, hget] at h
      replace h : (if nd.frozen then none
          else if (lookupKV nd.entries k).isSome then
            some (st.set d ⟨nd.frozen, setKV nd.entries k v⟩)
          else none) = some st' := h
      by_cases hfr : nd.frozen
      · rw [if_pos hfr] at h; exact Option.noConfusion h
      · rw [if_neg hfr] at h
        by_cases hlk : (lookupKV nd.entries k).isSome
        · rw [if_pos hlk] at h
          have : st.set d ⟨nd.frozen, setKV nd.entries k v⟩ = st' := by
            injection h
          rw [← this]
          exact getq_set_other st d x _ hx'
        · rw [if_neg hlk] at h; exact Option.noConfusion h
  · cases hget : st[d]? with
    | none => rw [defineS, hget] at h; exact Option.noConfusion h
    | some nd =>
      rw [defineS, hget] at h
      replace h : (if nd.frozen then none
          else if validName k = false then none
          else if (lookupKV nd.entries k).isSome then none
          else some (st.set d ⟨nd.frozen, nd.entries ++ [(k, v)]⟩)) =
        some st' := h
      by_cases hfr : nd.frozen
      · rw [if_pos hfr] at h; exact Option.noConfusion h
      · rw [if_neg hfr] at h
        by_cases hvn : validName k = false
        · rw [if_pos hvn] at h; exact Option.noConfusion h
        · rw [if_neg hvn] at h
          by_cases hlk : (lookupKV nd.entries k).isSome
          · rw [if_pos hlk] at h; exact Option.noConfusion h
          · rw [if_neg hlk] at h
            have : st.set d ⟨nd.frozen, nd.entries ++ [(k, v)]⟩ = st' := by
              injection h
            rw [← this]
            exact getq_set_other st d x _ hx'
  · cases hget : st[d]? with
    | none => rw [deleteS, hget] at h; exact Option.noConfusion h
    | some nd =>
      rw [deleteS, hget] at h
      replace h : (if nd.frozen then none
          else if (lookupKV nd.entries k).isSome then
            some (st.set d ⟨nd.frozen, removeKV nd.entries k⟩)
          else none) = some st' := h
      by_cases hfr : nd.frozen
      · rw [if_pos hfr] at h; exact Option.noConfusion h
      · rw [if_neg hfr] at h
        by_cases hlk : (lookupKV nd.entries k).isSome
        · rw [if_pos hlk] at h
          have : st.set d ⟨nd.frozen, removeKV nd.entries k⟩ = st' := by
            injection h
          rw [← this]
          exact getq_set_other st d x _ hx'
        · rw [if_neg hlk] at h; exact Option.noConfusion h

theorem lookup_isSome_keys :
    ∀ (es' es : List (String × HVal)),
      es'.map Prod.fst = es.map Prod.fst → ∀ k,
      (lookupKV es' k).isSome = (lookupKV es k).isSome
  | [], [], _, _ => rfl
  | [], (k1, v1) :: t, h, _ => by simp at h
  | (k0, v0) :: t', [], h, _ => by simp at h
  | (k0, v0) :: t', (k1, v1) :: t, h, k => by
    simp only [List.map_cons, List.cons.injEq] at h
    obtain ⟨hk, ht⟩ := h
    rw [lookupKV, lookupKV, hk]
    by_cases he : k1 = k
    · rw [if_pos he, if_pos he]; rfl
    · rw [if_neg he, if_neg he]
      exact lookup_isSome_keys t' t ht k

theorem copyKVs_opq : ∀ (fuel : Nat) (st : Store)
    (es : List (String × HVal)) (st₂ : Store)
    (es' : List (String × HVal)), copyKVs fuel st es = some (st₂, es') →
    ∀ k id, lookupKV es k = some (HVal.hopq id) →
      lookupKV es' k = some (HVal.hopq id)
  | 0, st, es, st₂, es', h => by
    rw [copyKVs] at h; exact Option.noConfusion h
  | fuel + 1, st, [], st₂, es', h => by
    intro k id hlk
    exact Option.noConfusion hlk
  | fuel + 1, st, (k0, HVal.href b0) :: rest, st₂, es', h => by
    intro k id hlk
    rw [copyKVs] at h
    cases hcg : copyGo fuel st b0 with
    | none => rw [hcg] at h; exact Option.noConfusion h
    | some p1 =>
      obtain ⟨st1, b'⟩ := p1
      rw [hcg] at h
      replace h : (match copyKVs fuel st1 rest with
        | none => none
        | some (st2, rest') =>
          some (st2, (k0, HVal.href b') :: rest')) = some (st₂, es') := h
      cases hkv : copyKVs fuel st1 rest with
      | none => rw [hkv] at h; exact Option.noConfusion h
      | some p2 =>
        obtain ⟨st2, rest'⟩ := p2
        rw [hkv] at h
        obtain ⟨hst, hes⟩ : st2 = st₂ ∧
            (k0, HVal.href b') :: rest' = es' := by
          injection h with h3
          exact Prod.mk.inj h3
        rw [lookupKV] at hlk
        by_cases he : k0 = k
        · rw [if_pos he] at hlk
          exact absurd (by injection hlk) (fun hh => HVal.noConfusion hh)
        · rw [if_neg he] at hlk
          rw [← hes, lookupKV, if_neg he]
          exact copyKVs_opq fuel st1 rest st2 rest' hkv k id hlk
  | fuel + 1, st, (k0, HVal.hint n) :: rest, st₂, es', h => by
    intro k id hlk
    rw [copyKVs] at h
    cases hkv : copyKVs fuel st rest with
    | none => rw [hkv] at h; exact Option.noConfusion h
    | some p2 =>
      obtain ⟨st2, rest'⟩ := p2
      rw [hkv] at h
      obtain ⟨hst, hes⟩ : st2 = st₂ ∧
          (k0, HVal.hint n) :: rest' = es' := by
        injection h with h3
        exact Prod.mk.inj h3
      rw [lookupKV] at hlk
      by_cases he : k0 = k
      · rw [if_pos he] at hlk
        exact absurd (by injection hlk) (fun hh => HVal.noConfusion hh)
      · rw [if_neg he] at hlk
        rw [← hes, lookupKV, if_neg he]
        exact copyKVs_opq fuel st rest st2 rest' hkv k id hlk
  | fuel + 1, st, (k0, HVal.hstr s) :: rest, st₂, es', h => by
    intro k id hlk
    rw [copyKVs] at h
    cases hkv : copyKVs fuel st rest with
    | none => rw [hkv] at h; exact Option.noConfusion h
    | some p2 =>
      obtain ⟨st2, rest'⟩ := p2
      rw [hkv] at h
      obtain ⟨hst, hes⟩ : st2 = st₂ ∧
          (k0, HVal.hstr s) :: rest' = es' := by
        injection h with h3
        exact Prod.mk.inj h3
      rw [lookupKV] at hlk
      by_cases he : k0 = k
      · rw [if_pos he] at hlk
        exact absurd (by injection hlk) (fun hh => HVal.noConfusion hh)
      · rw [if_neg he] at hlk
        rw [← hes, lookupKV, if_neg he]
        exact copyKVs_opq fuel st rest st2 rest' hkv k id hlk
  | fuel + 1, st, (k0, HVal.hbool bb) :: rest, st₂, es', h => by
    intro k id hlk
    rw [copyKVs] at h
    cases hkv : copyKVs fuel st rest with
    | none => rw [hkv] at h; exact Option.noConfusion h
    | some p2 =>
      obtain ⟨st2, rest'⟩ := p2
      rw [hkv] at h
      obtain ⟨hst, hes⟩ : st2 = st₂ ∧
          (k0, HVal.hbool bb) :: rest' = es' := by
        injection h with h3
        exact Prod.mk.inj h3
      rw [lookupKV] at hlk
      by_cases he : k0 = k
      · rw [if_pos he] at hlk
        exact absurd (by injection hlk) (fun hh => HVal.noConfusion hh)
      · rw [if_neg he] at hlk
        rw [← hes, lookupKV, if_neg he]
        exact copyKVs_opq fuel st rest st2 rest' hkv k id hlk
  | fuel + 1, st, (k0, HVal.hopq i0) :: rest, st₂, es', h => by
    intro k id hlk
    rw [copyKVs] at h
    cases hkv : copyKVs fuel st rest with
    | none => rw [hkv] at h; exact Option.noConfusion h
    | some p2 =>
      obtain ⟨st2, rest'⟩ := p2
      rw [hkv] at h
      obtain ⟨hst, hes⟩ : st2 = st₂ ∧
          (k0, HVal.hopq i0) :: rest' = es' := by
        injection h with h3
        exact Prod.mk.inj h3
      rw [lookupKV] at hlk
      by_cases he : k0 = k
      · rw [if_pos he] at hlk
        rw [← hes, lookupKV, if_pos he]
        exact hlk
      · rw [if_neg he] at hlk
        rw [← hes, lookupKV, if_neg he]
        exact copyKVs_opq fuel st rest st2 rest' hkv k id hlk

/-- Claim C1: after `Freeze()` on the node at `a`, every `Set`,
`Define` or `Delete` invoked on `a` or on any nested ConfigNode
reachable through entries at freeze time fails; a copy taken before
the freeze (its root lives at a fresh address) remains mutable: a `Set`
of an existing key on the unfrozen copy still succeeds after the
original is frozen. -/
theorem claim_C1_freeze_reach (st : Store) (a : Nat) :
    (∀ b nd, ReachP st a b → st[b]? = some nd →
      (∀ k v, setS (freezeS st a) b k v = none) ∧
      (∀ k v, defineS (freezeS st a) b k v = none) ∧
      (∀ k, deleteS (freezeS st a) b k = none)) ∧
    (∀ fuel st₂ c k v w nd, WFS st → a < st.length →
      copyGo fuel st a = some (st₂, c) →
      st[a]? = some nd → nd.frozen = false →
      lookupKV nd.entries k = some w →
      (setS (freezeS st₂ a) c k v).isSome = true) := by
  constructor
  · intro b nd hr hb
    have hmem : b ∈ reachS st a := mem_reachS_of_reachP st a b hr
    have hget : (freezeS st a)[b]? = some ⟨true, nd.entries⟩ :=
      markList_get_mem (reachS st a) st b nd hmem hb
    refine ⟨?_, ?_, ?_⟩
    · intro k v; rw [setS, hget]; rfl
    · intro k v; rw [defineS, hget]; rfl
    · intro k; rw [deleteS, hget]; rfl
  · intro fuel st₂ c k v w nd hwf ha hcpy han hfr hlk
    obtain ⟨⟨ext, hext⟩, hge, hlt, hreg, ⟨nd1, es', han1, hc2, hkeys⟩⟩ :=
      copyGo_spec fuel st a st₂ c hcpy
    have hnd1 : nd1 = nd := by
      rw [han] at han1
      injection han1 with h2
      exact h2.symm
    subst hnd1
    have hcnr : c ∉ reachS st₂ a := by
      intro hmem
      rw [hext] at hmem
      have := reachS_lt st ext a hwf ha c hmem
      omega
    have hgetc : (freezeS st₂ a)[c]? = some ⟨nd1.frozen, es'⟩ := by
      rw [freezeS, markList_get_not (reachS st₂ a) st₂ c hcnr]
      exact hc2
    have hiso : (lookupKV es' k).isSome = true := by
      rw [lookup_isSome_keys es' nd1.entries hkeys k, hlk]
      rfl
    rw [setS, hgetc]
    show (if nd1.frozen then none
      else if (lookupKV es' k).isSome then
        some ((freezeS st₂ a).set c ⟨nd1.frozen, setKV es' k v⟩)
      else none).isSome = true
    rw [hfr, hiso]
    rfl

/-- Claim C6: `Copy()` is a deep, independent clone: mutating (set,
define or delete on) any node reachable from the copy's root changes
no value read through any dotted path from the original's root, and
mutating any node reachable from the original changes nothing read
from the copy, at any nesting depth; opaque payloads are shared by
reference (the copied entry holds the same opaque id). -/
theorem claim_C6_deep_copy (st : Store) (a fuel : Nat) (st₂ : Store)
    (c : Nat) (hwf : WFS st) (ha : a < st.length)
    (hcpy : copyGo fuel st a = some (st₂, c)) :
    (∀ d k v st₃, ReachP st₂ c d →
      (setS st₂ d k v = some st₃ ∨ defineS st₂ d k v = some st₃ ∨
        deleteS st₂ d k = some st₃) →
      ∀ f2 path, getPathS f2 st₃ a path = getPathS f2 st₂ a path) ∧
    (∀ d k v st₃, ReachP st₂ a d →
      (setS st₂ d k v = some st₃ ∨ defineS st₂ d k v = some st₃ ∨
        deleteS st₂ d k = some st₃) →
      ∀ f2 path, getPathS f2 st₃ c path = getPathS f2 st₂ c path) ∧
    (∀ nd k id, st[a]? = some nd →
      lookupKV nd.entries k = some (HVal.hopq id) →
      getS st₂ c k = some (HVal.hopq id)) := by
  obtain ⟨⟨ext, hext⟩, hge, hlt, hreg, ⟨nd1, es', han1, hc2, hkeys⟩⟩ :=
    copyGo_spec fuel st a st₂ c hcpy
  have hregge : ∀ i nd, st.length ≤ i → st₂[i]? = some nd →
      ∀ b ∈ succsOf nd, st.length ≤ b :=
    fun i nd hi hget b hb => (hreg i nd hi hget b hb).1
  refine ⟨?_, ?_, ?_⟩
  · intro d k v st₃ hrd hmut f2 path
    have hdge : st.length ≤ d := reachP_ge st₂ c st.length hge hregge d hrd
    have hnr : ¬ ReachP st₂ a d := by
      intro hr
      rw [hext] at hr
      have := reachP_lt st ext a hwf ha d hr
      omega
    exact getPath_agree st₂ st₃ a d
      (mutS_changes_only st₂ d k v st₃ hmut) hnr f2 a path ReachP.refl
  · intro d k v st₃ hrd hmut f2 path
    have hdlt : d < st.length := by
      rw [hext] at hrd
      exact reachP_lt st ext a hwf ha d hrd
    have hnr : ¬ ReachP st₂ c d := by
      intro hr
      have := reachP_ge st₂ c st.length hge hregge d hr
      omega
    exact getPath_agree st₂ st₃ c d
      (mutS_changes_only st₂ d k v st₃ hmut) hnr f2 c path ReachP.refl
  · intro nd k id han hlk
    have hnd1 : nd1 = nd := by
      rw [han] at han1
      injection han1 with h2
      exact h2.symm
    subst hnd1
    rw [getS, hc2]
    show lookupKV es' k = some (HVal.hopq id)
    -- recover the entry-clone equation to transport the opaque value
    cases fuel with
    | zero => rw [copyGo] at hcpy; exact Option.noConfusion hcpy
    | succ fuel =>
      rw [copyGo, han] at hcpy
      replace hcpy : (match copyKVs fuel st nd1.entries with
        | none => none
        | some (st', es2) =>
          some (st' ++ [(⟨nd1.frozen, es2⟩ : HNode)], st'.length)) =
        some (st₂, c) := hcpy
      cases hkv : copyKVs fuel st nd1.entries with
      | none => rw [hkv] at hcpy; exact Option.noConfusion hcpy
      | some p =>
        obtain ⟨st', es2⟩ := p
        rw [hkv] at hcpy
        obtain ⟨hst2, hcc⟩ : st' ++ [(⟨nd1.frozen, es2⟩ : HNode)] = st₂ ∧
            st'.length = c := by
          injection hcpy with h3
          exact Prod.mk.inj h3
        have hes2 : es2 = es' := by
          have h4 : st₂[c]? = some (⟨nd1.frozen, es2⟩ : HNode) := by
            rw [← hst2, ← hcc]
            exact getq_append_self st' _
          rw [hc2] at h4
          have h5 : (⟨nd1.frozen, es'⟩ : HNode) =
              (⟨nd1.frozen, es2⟩ : HNode) := by injection h4
          injection h5 with h6 h7
          exact h7.symm
        rw [← hes2]
        exact copyKVs_opq fuel st nd1.entries st' es2 hkv k id hlk

/-- Claim C8: copying a frozen node yields a node that is itself
frozen; a `Set` on the copy fails exactly as a `Set` on the frozen
original does. -/
theorem claim_C8_copy_frozen (st : Store) (a fuel : Nat) (st₂ : Store)
    (c : Nat) (nd : HNode) (han : st[a]? = some nd)
    (hfr : nd.frozen = true) (hcpy : copyGo fuel st a = some (st₂, c)) :
    (∃ es', st₂[c]? = some ⟨true, es'⟩) ∧
    (∀ k v, setS st₂ c k v = none) ∧
    (∀ k v, setS st₂ a k v = none) := by
  obtain ⟨⟨ext, hext⟩, hge, hlt, hreg, ⟨nd1, es', han1, hc2, hkeys⟩⟩ :=
    copyGo_spec fuel st a st₂ c hcpy
  have hnd1 : nd1 = nd := by
    rw [han] at han1
    injection han1 with h2
    exact h2.symm
  subst hnd1
  rw [hfr] at hc2
  have halt : a < st.length := getq_some_lt st a nd1 han
  have hgeta : st₂[a]? = some nd1 := by
    rw [hext, getq_append_left st ext a halt]
    exact han
  refine ⟨⟨es', hc2⟩, ?_, ?_⟩
  · intro k v
    rw [setS, hc2]
    rfl
  · intro k v
    rw [setS, hgeta]
    show (if nd1.frozen then none
      else if (lookupKV nd1.entries k).isSome then
        some (st₂.set a ⟨nd1.frozen, setKV nd1.entries k v⟩)
      else none) = none
    rw [hfr]
    rfl

/-! Concrete stores for the store-layer witnesses. -/

/-- Two nodes: a root with a scalar, a nested node, and the nested
node itself. -/
def stC1 : Store :=
  [⟨false, [("x", HVal.hint 1), ("sub", HVal.href 1)]⟩,
   ⟨false, [("y", HVal.hint 2)]⟩]

/-- The store after copying the root of `stC1`. -/
def stC1b : Store := ((copyGo 6 stC1 0).getD ([], 0)).1

/-- The address of the copy of the root of `stC1`. -/
def cC1 : Nat := ((copyGo 6 stC1 0).getD ([], 0)).2

/-- Witness: freezing the root of `stC1` makes set/define/delete fail
on the nested node, while a set of `x` on the pre-freeze copy still
succeeds. -/
theorem claim_C1_witness :
    (setS (freezeS stC1 0) 1 "y" (HVal.hint 5) = none ∧
     defineS (freezeS stC1 0) 1 "z" (HVal.hint 5) = none ∧
     deleteS (freezeS stC1 0) 1 "y" = none) ∧
    (setS (freezeS stC1b 0) cC1 "x" (HVal.hint 9)).isSome = true := by
  constructor
  · have h := (claim_C1_freeze_reach stC1 0).1 1 ⟨false, [("y", HVal.hint 2)]⟩
      (ReachP.step 0 1 ReachP.refl (by decide)) (by decide)
    exact ⟨h.1 "y" (HVal.hint 5), h.2.1 "z" (HVal.hint 5), h.2.2 "y"⟩
  · exact (claim_C1_freeze_reach stC1 0).2 6 stC1b cC1 "x" (HVal.hint 9)
      (HVal.hint 1) ⟨false, [("x", HVal.hint 1), ("sub", HVal.href 1)]⟩
      (by show ∀ nd ∈ stC1, ∀ b ∈ succsOf nd, b < stC1.length; decide)
      (by decide) rfl (by decide) rfl (by decide)

/-- Root with a scalar, a nested node and a shared opaque payload. -/
def stC6 : Store :=
  [⟨false, [("x", HVal.hint 1), ("sub", HVal.href 1),
    ("t", HVal.hopq 7)]⟩,
   ⟨false, [("y", HVal.hint 2)]⟩]

/-- The store after copying the root of `stC6`. -/
def stC6b : Store := ((copyGo 8 stC6 0).getD ([], 0)).1

/-- The address of the copy of the root of `stC6`. -/
def cC6 : Nat := ((copyGo 8 stC6 0).getD ([], 0)).2

/-- `stC6b` after a set on the copy's root. -/
def stC6c : Store := (setS stC6b cC6 "x" (HVal.hint 99)).getD []

/-- `stC6b` after a set on the original's nested node. -/
def stC6d : Store := (setS stC6b 1 "y" (HVal.hint 55)).getD []

/-- Witness: mutating the copy's root leaves the original's nested
reads unchanged, mutating the original's nested node leaves the copy's
reads unchanged, and the opaque payload id is shared. -/
theorem claim_C6_witness :
    WFS stC6 ∧ 0 < stC6.length ∧
    copyGo 8 stC6 0 = some (stC6b, cC6) ∧
    getPathS 3 stC6c 0 ["sub", "y"] = getPathS 3 stC6b 0 ["sub", "y"] ∧
    getPathS 3 stC6d cC6 ["x"] = getPathS 3 stC6b cC6 ["x"] ∧
    getS stC6b cC6 "t" = some (HVal.hopq 7) := by
  have hwf : WFS stC6 := by
    show ∀ nd ∈ stC6, ∀ b ∈ succsOf nd, b < stC6.length
    decide
  have ha : 0 < stC6.length := by decide
  have hcp : copyGo 8 stC6 0 = some (stC6b, cC6) := rfl
  have h := claim_C6_deep_copy stC6 0 8 stC6b cC6 hwf ha hcp
  refine ⟨hwf, ha, hcp, ?_, ?_, ?_⟩
  · exact h.1 cC6 "x" (HVal.hint 99) stC6c ReachP.refl (Or.inl rfl) 3
      ["sub", "y"]
  · exact h.2.1 1 "y" (HVal.hint 55) stC6d
      (ReachP.step 0 1 ReachP.refl (by decide)) (Or.inl rfl) 3 ["x"]
  · exact h.2.2 ⟨false, [("x", HVal.hint 1), ("sub", HVal.href 1),
      ("t", HVal.hopq 7)]⟩ "t" 7 (by decide) (by decide)

/-- A frozen single-node store. -/
def stC8 : Store := [⟨true, [("x", HVal.hint 1)]⟩]

/-- The store after copying the frozen root of `stC8`. -/
def stC8b : Store := ((copyGo 3 stC8 0).getD ([], 0)).1

/-- The address of the copy of the root of `stC8`. -/
def cC8 : Nat := ((copyGo 3 stC8 0).getD ([], 0)).2

/-- Witness: the copy of a frozen node is frozen and `Set` fails on
copy and original alike. -/
theorem claim_C8_witness :
    copyGo 3 stC8 0 = some (stC8b, cC8) ∧
    (∃ es', stC8b[cC8]? = some ⟨true, es'⟩) ∧
    setS stC8b cC8 "x" (HVal.hint 9) = none ∧
    setS stC8b 0 "x" (HVal.hint 9) = none := by
  have h := claim_C8_copy_frozen stC8 0 3 stC8b cC8
    ⟨true, [("x", HVal.hint 1)]⟩ (by decide) rfl rfl
  exact ⟨rfl, h.1, h.2.1 "x" (HVal.hint 9), h.2.2 "x" (HVal.hint 9)⟩

end Lingvo
